import Mathlib

/-!
# A shallow embedding of the `rust-linhash` storage engine

This file models the three Rust modules of the repository
(`src/page.rs`, `src/disk.rs`, `src/lib.rs`) as pure Lean functions and
proves the frozen claims about them.

Modelling conventions:

* `usize`/`u64` values become `Nat`; reductions modulo `2 ^ 64` are made
  explicit exactly where the machine width matters (the little-endian
  byte codec of the control page and the page headers).  The single
  unbounded counter that feeds back into that codec, `free_page`, is
  incremented through a checked-add that models the debug-mode overflow
  panic of `usize` arithmetic.
* byte buffers (a 4096-byte page, the file) become total functions
  `Nat → Nat`; the file is a function from page number and offset to a
  byte, with absent pages reading as zero bytes, matching `read` into a
  zeroed buffer.
* stateful methods of `DbFile`/`LinHash` become functions from the
  state record to the new state record (paired with the return value);
  methods that can panic (`expect`, `unwrap`, out-of-bounds indexing,
  explicit `panic!` calls, checked arithmetic) return `Option`, with
  `none` modelling the panic.
* the `while`/recursion in `all_records_in_bucket` and `LinHash::put`
  is modelled with an explicit fuel parameter; exhausting fuel also
  yields `none`, so theorems about terminating runs are conditioned on
  a successful (`some`) result.
* the hash function (`std::collections::hash_map::DefaultHasher`, not
  part of this repository) is a parameter `hash : List Nat → Nat`.
* `DbFile` additionally carries a ghost `log : List Nat` recording, in
  order, the page numbers passed to `DbFile::write_page` (the unique
  disk-write primitive).  No operation reads the log; it only serves to
  state the temporal claims about write ordering.
-/

/-- `PAGE_SIZE` from `page.rs`. -/
def PAGE_SIZE : Nat := 4096

/-- `HEADER_SIZE` from `page.rs`. -/
def HEADER_SIZE : Nat := 24

/-- Modelled from the spec: `util.rs` is not under `src/`.  `mem_move`
copies `min (dst.length) (src.length)` bytes of `src` over the window of
length `dlen` starting at `off` (the spec's byte-exact field moves write
the source bytes over the destination slice). -/
def memMove (st : Nat → Nat) (off dlen : Nat) (src : List Nat) : Nat → Nat :=
  fun i => if off ≤ i ∧ i < off + min dlen src.length then src.getD (i - off) 0 else st i

/-- Read `len` bytes starting at offset `off`. -/
def readBytes (st : Nat → Nat) (off len : Nat) : List Nat :=
  (List.range len).map fun i => st (off + i)

/-- Modelled from the spec: `util.rs` is not under `src/`.
`usize_to_bytearray` encodes a 64-bit value as 8 little-endian bytes. -/
def usize_to_bytearray (n : Nat) : List Nat :=
  (List.range 8).map fun i => n / 256 ^ i % 256

/-- Modelled from the spec: `util.rs` is not under `src/`.
`bytearray_to_usize` decodes 8 little-endian bytes (as read from offset
`off` of a buffer) into a 64-bit value. -/
def decode64 (st : Nat → Nat) (off : Nat) : Nat :=
  (List.range 8).foldr (fun i acc => st (off + i) + 256 * acc) 0

/-- Modelled from the spec: `util.rs` is not under `src/`.
`usize_vec_to_bytevec` concatenates the 8-byte little-endian encodings
of the directory entries. -/
def usize_vec_to_bytevec (l : List Nat) : List Nat :=
  l.flatMap usize_to_bytearray

/-- Modelled from the spec: `util.rs` is not under `src/`.
`slices_eq` is equality by full-key byte compare. -/
def slices_eq (a b : List Nat) : Bool := a == b

/-- Checked `usize` increment: `n + 1`, or `none` on 64-bit overflow
(debug-mode panic semantics). -/
def usizeIncr (n : Nat) : Option Nat :=
  if n + 1 < 2 ^ 64 then some (n + 1) else none

/-- The `Page` struct of `page.rs`. -/
structure Page where
  id : Nat
  storage : Nat → Nat
  num_records : Nat
  next : Option Nat
  prev : Option Nat
  dirty : Bool
  keysize : Nat
  valsize : Nat

namespace Page

/-- `Page::new`. -/
def new (keysize valsize : Nat) : Page :=
  { id := 0
    num_records := 0
    storage := fun _ => 0
    next := none
    prev := none
    keysize := keysize
    valsize := valsize
    dirty := false }

/-- The `RowOffsets` struct of `page.rs`. -/
structure RowOffsets where
  key_offset : Nat
  val_offset : Nat
  row_end : Nat

/-- `Page::compute_offsets`. -/
def compute_offsets (p : Page) (row_num : Nat) : RowOffsets :=
  let total_size := p.keysize + p.valsize
  let row_offset := HEADER_SIZE + row_num * total_size
  { key_offset := row_offset
    val_offset := row_offset + p.keysize
    row_end := row_offset + p.keysize + p.valsize }

/-- `Page::read_record`. -/
def read_record (p : Page) (row_num : Nat) : List Nat × List Nat :=
  let o := p.compute_offsets row_num
  (readBytes p.storage o.key_offset p.keysize, readBytes p.storage o.val_offset p.valsize)

/-- `Page::write_record`. -/
def write_record (p : Page) (row_num : Nat) (key val : List Nat) : Page :=
  let o := p.compute_offsets row_num
  { p with storage :=
      memMove (memMove p.storage o.key_offset p.keysize key) o.val_offset p.valsize val }

/-- `Page::incr_num_records`. -/
def incr_num_records (p : Page) : Page :=
  { p with num_records := p.num_records + 1 }

/-- `Page::put`. -/
def put (p : Page) (key val : List Nat) : Page :=
  let p := p.write_record p.num_records key val
  { p with num_records := p.num_records + 1 }

/-- `Page::get`: linear scan of the live slots, full-key compare. -/
def get (p : Page) (key : List Nat) : Option (List Nat) :=
  (List.range p.num_records).findSome? fun i =>
    let kv := p.read_record i
    if slices_eq kv.1 key then some kv.2 else none

end Page

/-- The `SearchResult` struct of `disk.rs`. -/
structure SearchResult where
  page_id : Option Nat
  row_num : Option Nat
  val : Option (List Nat)
deriving DecidableEq

/-- `flatten` from `disk.rs`. -/
def flatten {T : Type} (v : List (Nat × List T)) : List T :=
  v.flatMap Prod.snd

/-- The `DbFile` struct of `disk.rs`.  The open file is modelled as the
total function `file : page number → offset → byte` (absent bytes read
as zero); `log` is ghost instrumentation recording the page numbers
handed to `DbFile::write_page`, in order. -/
structure DbFile where
  file : Nat → Nat → Nat
  ctrl_buffer : Page
  buffer : Page
  page_id : Option Nat
  records_per_page : Nat
  dirty : Bool
  bucket_to_page : List Nat
  free_page : Nat
  keysize : Nat
  valsize : Nat
  free_list : Option Nat
  num_free : Nat
  log : List Nat

namespace DbFile

/-- `DbFile::new` on a fresh (empty) file. -/
def new (keysize valsize : Nat) : DbFile :=
  { file := fun _ _ => 0
    ctrl_buffer := Page.new 0 0
    buffer := Page.new keysize valsize
    page_id := none
    records_per_page := (PAGE_SIZE - HEADER_SIZE) / (keysize + valsize)
    dirty := false
    free_page := 3
    bucket_to_page := [1, 2]
    keysize := keysize
    valsize := valsize
    free_list := none
    num_free := 0
    log := [] }

/-- `DbFile::write_page`: write one 4096-byte page and flush,
recording the write in the ghost log. -/
def write_page (s : DbFile) (pid : Nat) (data : Nat → Nat) : DbFile :=
  { s with file := fun q => if q = pid then data else s.file q
           log := s.log ++ [pid] }

/-- `DbFile::get_ctrl_page`: read page 0 into the control buffer. -/
def get_ctrl_page (s : DbFile) : DbFile :=
  { s with ctrl_buffer := { s.ctrl_buffer with storage := s.file 0 } }

/-- Modelled from the spec: `bytevec_to_usize_vec` applied to bytes
`32..4096` of the control page decodes the directory as 8-byte
little-endian integers ((4096 − 32) / 8 = 508 of them). -/
def decodeDirectory (st : Nat → Nat) : List Nat :=
  (List.range ((PAGE_SIZE - 32) / 8)).map fun i => decode64 st (32 + 8 * i)

/-- `DbFile::read_ctrlpage`. -/
def read_ctrlpage (s : DbFile) : DbFile × (Nat × Nat × Nat) :=
  let s := s.get_ctrl_page
  let nbits := decode64 s.ctrl_buffer.storage 0
  let nitems := decode64 s.ctrl_buffer.storage 8
  let nbuckets := decode64 s.ctrl_buffer.storage 16
  let free_page := decode64 s.ctrl_buffer.storage 24
  let free_list_head := decode64 s.ctrl_buffer.storage 32
  let num_free := decode64 s.ctrl_buffer.storage 40
  let dir := decodeDirectory s.ctrl_buffer.storage
  ({ s with free_page := free_page
            free_list := if free_list_head = 0 then none else some free_list_head
            num_free := num_free
            bucket_to_page := dir },
   (nbits, nitems, nbuckets))

/-- `DbFile::write_ctrlpage`.  The field writes happen in source order;
note that the directory bytes start at offset 32 and therefore overlay
the free-list head (32..40) and `num_free` (40..48) fields. -/
def write_ctrlpage (s : DbFile) (t : Nat × Nat × Nat) : DbFile :=
  let s := s.get_ctrl_page
  let st := s.ctrl_buffer.storage
  let st := memMove st 0 8 (usize_to_bytearray t.1)
  let st := memMove st 8 8 (usize_to_bytearray t.2.1)
  let st := memMove st 16 8 (usize_to_bytearray t.2.2)
  let st := memMove st 24 8 (usize_to_bytearray s.free_page)
  let st := memMove st 32 8 (usize_to_bytearray (s.free_list.getD 0))
  let st := memMove st 40 8 (usize_to_bytearray s.num_free)
  let st := memMove st 32 (PAGE_SIZE - 32) (usize_vec_to_bytevec s.bucket_to_page)
  let s := { s with ctrl_buffer := { s.ctrl_buffer with storage := st } }
  s.write_page 0 s.ctrl_buffer.storage

/-- `DbFile::read_header`: decode the buffered page's header bytes into
the in-memory fields (`0` encodes an absent link). -/
def read_header (s : DbFile) : DbFile :=
  let num_records := decode64 s.buffer.storage 0
  let next := decode64 s.buffer.storage 8
  let prev := decode64 s.buffer.storage 16
  { s with buffer := { s.buffer with
      num_records := num_records
      next := if next ≠ 0 then some next else none
      prev := if prev ≠ 0 then some prev else none } }

/-- `DbFile::write_header`: encode the buffered page's in-memory header
fields into its first 24 bytes. -/
def write_header (s : DbFile) : DbFile :=
  let st := memMove s.buffer.storage 0 8 (usize_to_bytearray s.buffer.num_records)
  let st := memMove st 8 8 (usize_to_bytearray (s.buffer.next.getD 0))
  let st := memMove st 16 8 (usize_to_bytearray (s.buffer.prev.getD 0))
  { s with buffer := { s.buffer with storage := st } }

/-- `DbFile::bucket_to_page` (the method); out-of-bounds indexing
panics, modelled by `none`. -/
def bucketToPage (s : DbFile) (bucket_id : Nat) : Option Nat :=
  s.bucket_to_page.get? bucket_id

/-- `DbFile::write_buffer`: sync the header fields into the buffer
bytes and write the page out (`expect` on an empty buffer panics). -/
def write_buffer (s : DbFile) : Option DbFile :=
  match s.page_id with
  | none => none
  | some pid =>
    let s := { s with dirty := false }
    let s := s.write_header
    some (s.write_page pid s.buffer.storage)

/-- `DbFile::get_page`: no-op when `pid` is already buffered; otherwise
flush-if-dirty, read the page bytes and decode the header. -/
def get_page (s : DbFile) (pid : Nat) : Option DbFile := do
  if s.page_id = some pid then some s
  else do
    let s ← if s.dirty then s.write_buffer else some s
    let s := { s with dirty := false }
    let s := { s with buffer := { s.buffer with storage := s.file pid, id := pid }
                      page_id := some pid }
    some s.read_header

/-- `DbFile::get_bucket`. -/
def get_bucket (s : DbFile) (bucket_id : Nat) : Option DbFile := do
  let pid ← s.bucketToPage bucket_id
  s.get_page pid

/-- `DbFile::write_record`: load the page, overwrite the slot, mark the
buffer dirty.  Does not change `num_records`. -/
def write_record (s : DbFile) (pid row : Nat) (key val : List Nat) : Option DbFile := do
  let s ← s.get_page pid
  some { s with dirty := true, buffer := s.buffer.write_record row key val }

/-- `DbFile::write_record_incr`: increment `num_records` of the
currently buffered page, then write the record. -/
def write_record_incr (s : DbFile) (pid row : Nat) (key val : List Nat) : Option DbFile :=
  DbFile.write_record { s with buffer := s.buffer.incr_num_records } pid row key val

/-- The record-collecting `for` loop bodies of
`all_records_in_bucket`: the live slots of the buffered page. -/
def pageRecordsOf (p : Page) : List (List Nat × List Nat) :=
  (List.range p.num_records).map p.read_record

/-- The `while let Some(page_id) = self.buffer.next` loop of
`all_records_in_bucket`, with fuel for the chain walk. -/
def allRecordsAux : Nat → DbFile → List (Nat × List (List Nat × List Nat)) →
    Option (DbFile × List (Nat × List (List Nat × List Nat)))
  | 0, _, _ => none
  | fuel + 1, s, acc =>
    match s.buffer.next with
    | none => some (s, acc)
    | some pid =>
      if pid = 0 then some (s, acc)
      else do
        let s ← s.get_page pid
        allRecordsAux fuel s (acc ++ [(pid, pageRecordsOf s.buffer)])

/-- `DbFile::all_records_in_bucket`. -/
def all_records_in_bucket (fuel : Nat) (s : DbFile) (bucket_id : Nat) :
    Option (DbFile × List (Nat × List (List Nat × List Nat))) := do
  let s ← s.get_bucket bucket_id
  let pid ← s.page_id
  allRecordsAux fuel s [(pid, pageRecordsOf s.buffer)]

/-- The row scan of one page in `search_bucket`: first live slot whose
key matches, with its row number and value. -/
def findRow (recs : List (List Nat × List Nat)) (key : List Nat) : Option (Nat × List Nat) :=
  recs.enum.findSome? fun rkv => if slices_eq rkv.2.1 key then some (rkv.1, rkv.2.2) else none

/-- The page loop of `search_bucket`: early return on a key match,
otherwise remember the last page's free-slot descriptor. -/
def searchScan (rpp : Nat) (key : List Nat) :
    List (Nat × List (List Nat × List Nat)) → SearchResult → SearchResult
  | [], ffr => ffr
  | (i, page_records) :: rest, _ =>
    match findRow page_records key with
    | some rv => { page_id := some i, row_num := some rv.1, val := some rv.2 }
    | none =>
      let len := page_records.length
      let row := if len < rpp then some len else none
      searchScan rpp key rest { page_id := some i, row_num := row, val := none }

/-- `DbFile::search_bucket`. -/
def search_bucket (fuel : Nat) (s : DbFile) (bucket_id : Nat) (key : List Nat) :
    Option (DbFile × SearchResult) := do
  let (s, all) ← s.all_records_in_bucket fuel bucket_id
  some (s, searchScan s.records_per_page key all { page_id := none, row_num := none, val := none })

/-- `DbFile::allocate_new_page`: recycle the free-list head if there is
one, otherwise take `free_page`; zero the page in the buffer and write
it out.  `free_page` is incremented unconditionally at the end
(checked `usize` increment). -/
def allocate_new_page (s : DbFile) : Option (DbFile × Nat) := do
  let s ← s.write_buffer
  let (s, pid) ←
    if s.num_free = 0 then some (s, s.free_page)
    else do
      let p ← s.free_list
      let s ← s.get_page p
      some ({ s with free_list := s.buffer.next, num_free := s.num_free - 1 }, p)
  let s := { s with buffer := { Page.new s.keysize s.valsize with id := pid }
                    page_id := some pid
                    dirty := false }
  let s ← s.write_buffer
  let fp ← usizeIncr s.free_page
  some ({ s with free_page := fp }, pid)

/-- `DbFile::allocate_overflow`: allocate a page, set its `prev`, link
the old last page's `next` to it, writing both pages. -/
def allocate_overflow (s : DbFile) (bucket_id last_page_id : Nat) :
    Option (DbFile × (Nat × Nat)) := do
  let (s, physical_index) ← s.allocate_new_page
  let s ← s.get_page physical_index
  let s := { s with buffer := { s.buffer with prev := some last_page_id } }
  let s ← s.write_buffer
  let s ← s.get_page last_page_id
  let s := { s with buffer := { s.buffer with next := some physical_index } }
  let s ← s.write_buffer
  some (s, (physical_index, 0))

/-- `DbFile::put` (append into the bucket's head page). -/
def put (s : DbFile) (bucket_id : Nat) (key val : List Nat) : Option DbFile := do
  let s ← s.get_bucket bucket_id
  some { s with dirty := true, buffer := s.buffer.put key val }

/-- `DbFile::clear_bucket`: collect all records of the chain, link the
last chain page at the front of the free list (in memory only: the
buffer holding that page is replaced before any flush), grow `num_free`
by `chain length − 1`, and reset the head page to a fresh empty page. -/
def clear_bucket (fuel : Nat) (s : DbFile) (bucket_id : Nat) :
    Option (DbFile × List (List Nat × List Nat)) := do
  let (s, all_records) ← s.all_records_in_bucket fuel bucket_id
  let records := flatten all_records
  let bucket_len := all_records.length
  let s ←
    if 1 < bucket_len then do
      let last ← all_records.getLast?
      let temp := s.free_list
      let s := { s with free_list := some last.1 }
      let s ← s.get_page last.1
      let s := { s with num_free := s.num_free + (bucket_len - 1) }
      some { s with buffer := { s.buffer with next := temp } }
    else some s
  let pid ← s.bucketToPage bucket_id
  let s := { s with buffer := { Page.new s.keysize s.valsize with id := pid }
                    page_id := some pid
                    dirty := false }
  let s ← s.write_buffer
  some (s, records)

/-- `DbFile::allocate_new_bucket`. -/
def allocate_new_bucket (s : DbFile) : Option DbFile := do
  let (s, pid) ← s.allocate_new_page
  some { s with bucket_to_page := s.bucket_to_page ++ [pid] }

/-- `DbFile::close`. -/
def close (s : DbFile) : Option DbFile :=
  s.write_buffer

end DbFile

/-- The `LinHash` struct of `lib.rs`. -/
structure LinHash where
  buckets : DbFile
  nbits : Nat
  nitems : Nat
  nbuckets : Nat

namespace LinHash

section

variable (hash : List Nat → Nat)

/-- `LinHash::open` on a path with no existing file. -/
def openNew (keysize valsize : Nat) : LinHash :=
  { buckets := DbFile.new keysize valsize, nbits := 1, nitems := 0, nbuckets := 2 }

/-- `LinHash::open` on an existing file with contents `file`
(re-population via `read_ctrlpage`). -/
def openExisting (keysize valsize : Nat) (file : Nat → Nat → Nat) : LinHash :=
  let d := { DbFile.new keysize valsize with file := file }
  let r := d.read_ctrlpage
  { buckets := r.1, nbits := r.2.1, nitems := r.2.2.1, nbuckets := r.2.2.2 }

/-- `LinHash::bucket`: partial-split bucket addressing. -/
def bucket (h : LinHash) (key : List Nat) : Nat :=
  let hv := hash key &&& (1 <<< h.nbits - 1)
  if hv < h.nbuckets then hv else hv - 1 <<< (h.nbits - 1)

/-- `LinHash::split_needed`.  The source compares
`nitems as f32 / (records_per_page * nbuckets) as f32` against the
`f32` constant `0.8`; the model uses the exact rational comparison
with the threshold 4/5, i.e. `5 * nitems > 4 * rpp * nbuckets`. -/
def split_needed (h : LinHash) : Bool :=
  4 * (h.buckets.records_per_page * h.nbuckets) < 5 * h.nitems

/-- The final `write_ctrlpage` call of every mutating operation. -/
def writeCtrl (h : LinHash) : LinHash :=
  { h with buckets := h.buckets.write_ctrlpage (h.nbits, h.nitems, h.nbuckets) }

/-- The reinsertion loop of `maybe_split`, parameterised by the `put`
of the enclosing fuel level; each `reinsert` un-counts the `nitems`
increment done by `put`. -/
def reinsertAllAux (putf : LinHash → List Nat → List Nat → Option LinHash) :
    LinHash → List (List Nat × List Nat) → Option LinHash
  | h, [] => some h
  | h, (k, v) :: rest => do
    let h ← putf h k v
    reinsertAllAux putf { h with nitems := h.nitems - 1 } rest

/-- `LinHash::maybe_split`, parameterised by the `put` of the enclosing
fuel level (the `bool` result of the source, unused by its caller, is
dropped). -/
def maybe_splitAux (walkFuel : Nat) (putf : LinHash → List Nat → List Nat → Option LinHash)
    (h : LinHash) : Option LinHash :=
  if h.split_needed then do
    let h := { h with nbuckets := h.nbuckets + 1 }
    let d ← h.buckets.allocate_new_bucket
    let h := { h with buckets := d }
    let h := if 1 <<< h.nbits < h.nbuckets then { h with nbits := h.nbits + 1 } else h
    let bucket_to_split := (h.nbuckets - 1) ^^^ (1 <<< (h.nbits - 1))
    let r ← h.buckets.clear_bucket walkFuel bucket_to_split
    let h := { h with buckets := r.1 }
    reinsertAllAux putf h r.2
  else some h

/-- `LinHash::put`, with fuel for the overflow-retry/split-reinsert
recursion (`none` models both a panic and fuel exhaustion). -/
def put : Nat → LinHash → List Nat → List Nat → Option LinHash
  | 0, _, _, _ => none
  | fuel + 1, h, key, val => do
    let bucket_index := h.bucket hash key
    let r ← h.buckets.search_bucket (fuel + 1) bucket_index key
    let h := { h with buckets := r.1 }
    let h ←
      match r.2.page_id, r.2.row_num, r.2.val with
      | some page_id, some pos, none => do
        let d ← h.buckets.write_record_incr page_id pos key val
        some { h with buckets := d, nitems := h.nitems + 1 }
      | some _, some _, some _ => none
      | some last_page_id, none, none => do
        let ov ← h.buckets.allocate_overflow bucket_index last_page_id
        put fuel { h with buckets := ov.1 } key val
      | _, _, _ => none
    let h ← maybe_splitAux (fuel + 1) (put fuel) h
    some (writeCtrl h)

/-- `LinHash::maybe_split` at a given fuel level. -/
def maybe_split (fuel : Nat) (h : LinHash) : Option LinHash :=
  maybe_splitAux (fuel + 1) (put hash fuel) h

/-- `LinHash::reinsert` at a given fuel level. -/
def reinsert (fuel : Nat) (h : LinHash) (key val : List Nat) : Option LinHash := do
  let h ← put hash fuel h key val
  some { h with nitems := h.nitems - 1 }

/-- `LinHash::get`. -/
def get (fuel : Nat) (h : LinHash) (key : List Nat) :
    Option (LinHash × Option (List Nat)) := do
  let r ← h.buckets.search_bucket fuel (h.bucket hash key) key
  some ({ h with buckets := r.1 }, r.2.val)

/-- `LinHash::contains`. -/
def contains (fuel : Nat) (h : LinHash) (key : List Nat) : Option (LinHash × Bool) := do
  let r ← get hash fuel h key
  some (r.1, r.2.isSome)

/-- `LinHash::update`. -/
def update (fuel : Nat) (h : LinHash) (key val : List Nat) :
    Option (LinHash × Bool) := do
  let r ← h.buckets.search_bucket fuel (h.bucket hash key) key
  let h := { h with buckets := r.1 }
  match r.2.page_id, r.2.row_num, r.2.val with
  | some page_id, some row_num, some _ => do
    let d ← h.buckets.write_record page_id row_num key val
    some ({ h with buckets := d }, true)
  | _, _, _ => some (h, false)

/-- `LinHash::close`. -/
def close (h : LinHash) : Option LinHash := do
  let h := writeCtrl h
  let d ← h.buckets.close
  some { h with buckets := d }

end

end LinHash

/-! ## Basic facts about the embedding -/

theorem bucket_eq_mod (hash : List Nat → Nat) (h : LinHash) (key : List Nat) :
    LinHash.bucket hash h key =
      (if hash key % 2 ^ h.nbits < h.nbuckets then hash key % 2 ^ h.nbits
       else hash key % 2 ^ h.nbits - 2 ^ (h.nbits - 1)) := by
  unfold LinHash.bucket
  rw [Nat.one_shiftLeft, Nat.one_shiftLeft, Nat.and_pow_two_sub_one_eq_mod]

theorem searchScan_val_some (rpp : Nat) (key : List Nat)
    (l : List (Nat × List (List Nat × List Nat))) (r₀ : SearchResult)
    (h₀ : r₀.val = none) (v : List Nat)
    (hv : (DbFile.searchScan rpp key l r₀).val = some v) :
    ∃ i r, DbFile.searchScan rpp key l r₀ =
      { page_id := some i, row_num := some r, val := some v } := by
  induction l generalizing r₀ with
  | nil => simp only [DbFile.searchScan] at hv; rw [h₀] at hv; exact absurd hv (by simp)
  | cons p rest ih =>
    simp only [DbFile.searchScan] at hv ⊢
    cases hfind : DbFile.findRow p.2 key with
    | some rv =>
      simp only [hfind] at hv ⊢
      exact ⟨p.1, rv.1, by simp_all⟩
    | none =>
      simp only [hfind] at hv ⊢
      exact ih _ rfl hv

/-- C10: whenever `2^(nbits−1) < nbuckets ≤ 2^nbits` and
`nbuckets = len(bucket_to_page)`, the partial-split bucket address of
any key is strictly below `nbuckets`, so the directory lookup
`bucket_to_page[bucket_id]` is in bounds and cannot panic. -/
theorem c10_bucket_index_in_bounds (hash : List Nat → Nat) (h : LinHash) (key : List Nat)
    (h1 : 2 ^ (h.nbits - 1) < h.nbuckets) (h2 : h.nbuckets ≤ 2 ^ h.nbits)
    (h3 : h.nbuckets = h.buckets.bucket_to_page.length) :
    LinHash.bucket hash h key < h.nbuckets ∧
      (h.buckets.bucketToPage (LinHash.bucket hash h key)).isSome = true := by
  have hlt : LinHash.bucket hash h key < h.nbuckets := by
    rw [bucket_eq_mod]
    have hpos : 0 < 2 ^ h.nbits := Nat.pos_pow_of_pos _ (by norm_num)
    have hmod : hash key % 2 ^ h.nbits < 2 ^ h.nbits := Nat.mod_lt _ hpos
    by_cases hcase : hash key % 2 ^ h.nbits < h.nbuckets
    · rw [if_pos hcase]; exact hcase
    · rw [if_neg hcase]
      cases hn : h.nbits with
      | zero =>
        rw [hn] at hmod hcase h1
        simp only [Nat.zero_sub, Nat.pow_zero, Nat.mod_one] at hmod hcase h1 ⊢
        omega
      | succ m =>
        rw [hn] at hmod hcase h1
        have e1 : m + 1 - 1 = m := by omega
        rw [e1] at h1 ⊢
        have e2 : (2 : Nat) ^ (m + 1) = 2 * 2 ^ m := by ring
        omega
  refine ⟨hlt, ?_⟩
  have hlen : LinHash.bucket hash h key < h.buckets.bucket_to_page.length := h3 ▸ hlt
  rw [DbFile.bucketToPage, List.get?_eq_get hlen]
  rfl

/-- Witness for C10 at a concrete store and key. -/
theorem c10_witness :
    LinHash.bucket (fun _ => 0) (LinHash.openNew 4 4) [1, 2] < (LinHash.openNew 4 4).nbuckets ∧
      ((LinHash.openNew 4 4).buckets.bucketToPage
        (LinHash.bucket (fun _ => 0) (LinHash.openNew 4 4) [1, 2])).isSome = true :=
  c10_bucket_index_in_bounds (fun _ => 0) (LinHash.openNew 4 4) [1, 2]
    (by decide) (by decide) (by decide)

theorem allRecordsAux_zero (s : DbFile) (acc : List (Nat × List (List Nat × List Nat))) :
    DbFile.allRecordsAux 0 s acc = none := rfl

theorem all_records_in_bucket_zero (s : DbFile) (b : Nat) :
    DbFile.all_records_in_bucket 0 s b = none := by
  rw [DbFile.all_records_in_bucket]
  cases hb : s.get_bucket b with
  | none => rfl
  | some d =>
    simp only [Option.bind_eq_bind, Option.some_bind]
    cases hp : d.page_id with
    | none => rfl
    | some pid => rfl

theorem search_bucket_zero (s : DbFile) (b : Nat) (key : List Nat) :
    DbFile.search_bucket 0 s b key = none := by
  rw [DbFile.search_bucket, all_records_in_bucket_zero]
  rfl

/-- C9: if `get` finds a value for `key` (the key is present), then
`put` with that key takes the duplicate branch and panics (`none`): it
never inserts a second record, so the stored mapping can only be
changed through `update`. -/
theorem c9_put_rejects_duplicate (hash : List Nat → Nat) (fuel : Nat) (h s' : LinHash)
    (key v₀ val : List Nat)
    (hget : LinHash.get hash fuel h key = some (s', some v₀)) :
    LinHash.put hash fuel h key val = none := by
  cases fuel with
  | zero =>
    rw [LinHash.get, search_bucket_zero] at hget
    exact absurd hget (by simp)
  | succ f =>
    rw [LinHash.get] at hget
    cases hs : DbFile.search_bucket (f + 1) h.buckets (LinHash.bucket hash h key) key with
    | none => rw [hs] at hget; exact absurd hget (by simp)
    | some r =>
      rw [hs] at hget
      simp only [Option.bind_eq_bind, Option.some_bind, Option.some_inj] at hget
      have hval : r.2.val = some v₀ := by
        have := congrArg Prod.snd hget
        simpa using this
      have hsome : ∃ i row, r.2 = { page_id := some i, row_num := some row, val := some v₀ } := by
        rw [DbFile.search_bucket] at hs
        cases ha : DbFile.all_records_in_bucket (f + 1) h.buckets (LinHash.bucket hash h key) with
        | none => rw [ha] at hs; exact absurd hs (by simp)
        | some p =>
          rw [ha] at hs
          simp only [Option.bind_eq_bind, Option.some_bind, Option.some_inj] at hs
          have hr2 : r.2 = DbFile.searchScan p.1.records_per_page key p.2
              { page_id := none, row_num := none, val := none } := by
            rw [← hs]
          rw [hr2] at hval ⊢
          exact searchScan_val_some _ _ _ _ rfl _ hval
      obtain ⟨i, row, hr⟩ := hsome
      simp only [LinHash.put, hs, hr, Option.bind_eq_bind, Option.some_bind, Option.none_bind]

/-- A concrete hash used by witnesses: the first byte of the key. -/
def hashC : List Nat → Nat := fun k => k.headD 0

def c9State : LinHash :=
  (LinHash.put hashC 3 (LinHash.openNew 1 1) [5] [7]).getD (LinHash.openNew 1 1)

def c9GetState : LinHash :=
  ((LinHash.get hashC 3 c9State [5]).getD (c9State, none)).1

/-- Witness for C9: after inserting key `[5]`, `get` finds it and a
second `put` of the same key panics. -/
theorem c9_witness :
    LinHash.get hashC 3 c9State [5] = some (c9GetState, some [7]) ∧
      LinHash.put hashC 3 c9State [5] [9] = none :=
  ⟨rfl, c9_put_rejects_duplicate hashC 3 c9State c9GetState [5] [7] [9] rfl⟩

def c4State : DbFile :=
  { DbFile.new 4 4 with
      file := fun p => if p = 2 then (fun i => if i = 8 then 6 else 0) else fun _ => 0
      page_id := some 1
      free_page := 9
      free_list := some 2
      num_free := 1 }

/-- C4 (code defect): on a store whose free list holds page 2 (with
on-disk successor 6) and `num_free = 1`, `allocate_new_page` returns
the free-list head, advances the free list to its successor,
decrements `num_free`, zeroes the page on disk — but also increments
`free_page` from 9 to 10, although the claim (and spec §9) say
`free_page` must be left unchanged in this branch. -/
theorem c4_allocate_increments_free_page_on_recycle :
    (DbFile.allocate_new_page c4State).map
        (fun r => (r.2, r.1.free_page, r.1.free_list, r.1.num_free,
                   decode64 (r.1.file 2) 0, r.1.file 2 100)) =
      some (2, 10, some 6, 0, 0, 0) ∧ c4State.free_page = 9 :=
  ⟨rfl, rfl⟩

def hdr3 (nr nx pv : Nat) : Nat → Nat :=
  fun i => if i = 0 then nr else if i = 8 then nx else if i = 16 then pv else 0

def c3State : DbFile :=
  { DbFile.new 4 4 with
      file := fun p =>
        if p = 1 then hdr3 0 3 0
        else if p = 3 then hdr3 0 4 1
        else if p = 4 then hdr3 0 0 3
        else if p = 9 then hdr3 0 0 0
        else fun _ => 0
      free_page := 10
      free_list := some 9
      num_free := 1 }

/-- C3 (code defect): clearing bucket 0 whose chain is pages
1 → 3 → 4 while the free list is `[9]` yields `free_list = some 4`
and `num_free = 3`, but on disk the `next` of page 4 is still 0 (the
link to the old free-list head 9 is assigned only to the in-memory
buffer, which is replaced before any flush), page 3 joins no list at
all, and consequently a second allocation after the clear panics
(`unwrap` of `None` while `num_free > 0`), instead of the free list
being the contiguous prefix 3 → 4 → 9 the claim describes. -/
theorem c3_clear_bucket_free_list_broken :
    (DbFile.clear_bucket 20 c3State 0).map
        (fun r => (r.2, r.1.free_list, r.1.num_free,
                   decode64 (r.1.file 4) 8, decode64 (r.1.file 1) 0)) =
      some ([], some 4, 3, 0, 0) ∧
    ((DbFile.clear_bucket 20 c3State 0).bind fun r =>
      (DbFile.allocate_new_page r.1).bind fun r2 => DbFile.allocate_new_page r2.1) = none :=
  ⟨rfl, rfl⟩

def c2State : DbFile := DbFile.new 4 4

def c2Written : DbFile := c2State.write_ctrlpage (1, 0, 2)

/-- C2 (code defect): writing the control page of a fresh store
(`free_list = none`, `num_free = 0`, directory `[1, 2]`) and reading
it back returns the same `(nbits, nitems, nbuckets)` and `free_page`,
but `free_list` reads back as `some 1` and `num_free` as `2` (the
directory bytes overwrite offsets 32..48), and the directory reads
back with 508 entries rather than the 2 that were written. -/
theorem c2_ctrlpage_roundtrip_clobbered :
    c2Written.read_ctrlpage.2 = (1, 0, 2) ∧
      c2Written.read_ctrlpage.1.free_page = 3 ∧
      c2Written.read_ctrlpage.1.free_list = some 1 ∧
      c2Written.read_ctrlpage.1.num_free = 2 ∧
      c2Written.read_ctrlpage.1.bucket_to_page.length = 508 := by
  refine ⟨rfl, rfl, rfl, rfl, ?_⟩
  simp [DbFile.read_ctrlpage, DbFile.decodeDirectory, PAGE_SIZE]

/-! ## Framing: which `DbFile` fields each operation preserves -/

/-- All metadata fields are unchanged (only file contents, buffers,
`page_id`, `dirty`, `log` may differ). -/
structure MetaEq (s s' : DbFile) : Prop where
  btp : s'.bucket_to_page = s.bucket_to_page
  fp : s'.free_page = s.free_page
  fl : s'.free_list = s.free_list
  nf : s'.num_free = s.num_free
  rpp : s'.records_per_page = s.records_per_page
  ks : s'.keysize = s.keysize
  vs : s'.valsize = s.valsize

/-- The directory and geometry fields are unchanged (free-list fields
may differ). -/
structure DirEq (s s' : DbFile) : Prop where
  btp : s'.bucket_to_page = s.bucket_to_page
  rpp : s'.records_per_page = s.records_per_page
  ks : s'.keysize = s.keysize
  vs : s'.valsize = s.valsize

theorem MetaEq_refl (s : DbFile) : MetaEq s s := ⟨rfl, rfl, rfl, rfl, rfl, rfl, rfl⟩

theorem MetaEq_trans {a b c : DbFile} (h1 : MetaEq a b) (h2 : MetaEq b c) : MetaEq a c :=
  ⟨h2.btp.trans h1.btp, h2.fp.trans h1.fp, h2.fl.trans h1.fl, h2.nf.trans h1.nf,
   h2.rpp.trans h1.rpp, h2.ks.trans h1.ks, h2.vs.trans h1.vs⟩

theorem MetaEq.toDirEq {a b : DbFile} (h : MetaEq a b) : DirEq a b :=
  ⟨h.btp, h.rpp, h.ks, h.vs⟩

theorem DirEq_refl (s : DbFile) : DirEq s s := ⟨rfl, rfl, rfl, rfl⟩

theorem DirEq_trans {a b c : DbFile} (h1 : DirEq a b) (h2 : DirEq b c) : DirEq a c :=
  ⟨h2.btp.trans h1.btp, h2.rpp.trans h1.rpp, h2.ks.trans h1.ks, h2.vs.trans h1.vs⟩

theorem write_buffer_meta {s s' : DbFile} (h : s.write_buffer = some s') : MetaEq s s' := by
  rw [DbFile.write_buffer] at h
  cases hp : s.page_id with
  | none => rw [hp] at h; exact absurd h (by simp)
  | some pid =>
    rw [hp] at h
    simp only [Option.some_inj] at h
    subst h
    exact ⟨rfl, rfl, rfl, rfl, rfl, rfl, rfl⟩

theorem get_page_meta {s s' : DbFile} {pid : Nat} (h : s.get_page pid = some s') :
    MetaEq s s' := by
  rw [DbFile.get_page] at h
  by_cases he : s.page_id = some pid
  · rw [if_pos he] at h
    cases h
    exact MetaEq_refl s
  · rw [if_neg he] at h
    by_cases hd : s.dirty = true
    · rw [if_pos hd] at h
      cases hw : s.write_buffer with
      | none => rw [hw] at h; exact absurd h (by simp)
      | some s₁ =>
        rw [hw] at h
        simp only [Option.bind_eq_bind, Option.some_bind, Option.some_inj] at h
        subst h
        exact MetaEq_trans (write_buffer_meta hw) ⟨rfl, rfl, rfl, rfl, rfl, rfl, rfl⟩
    · rw [if_neg hd] at h
      simp only [Option.bind_eq_bind, Option.some_bind, Option.some_inj] at h
      subst h
      exact ⟨rfl, rfl, rfl, rfl, rfl, rfl, rfl⟩

theorem get_bucket_meta {s s' : DbFile} {b : Nat} (h : s.get_bucket b = some s') :
    MetaEq s s' := by
  rw [DbFile.get_bucket] at h
  cases hb : s.bucketToPage b with
  | none => rw [hb] at h; exact absurd h (by simp)
  | some pid =>
    rw [hb] at h
    simp only [Option.bind_eq_bind, Option.some_bind] at h
    exact get_page_meta h

theorem allRecordsAux_meta {fuel : Nat} :
    ∀ {s s' : DbFile} {acc res : List (Nat × List (List Nat × List Nat))},
      DbFile.allRecordsAux fuel s acc = some (s', res) → MetaEq s s' := by
  induction fuel with
  | zero => intro s s' acc res h; exact absurd h (by simp [DbFile.allRecordsAux])
  | succ f ih =>
    intro s s' acc res h
    rw [DbFile.allRecordsAux] at h
    cases hn : s.buffer.next with
    | none => rw [hn] at h; cases h; exact MetaEq_refl _
    | some pid =>
      rw [hn] at h
      dsimp only at h
      by_cases hz : pid = 0
      · rw [if_pos hz] at h; cases h; exact MetaEq_refl _
      · rw [if_neg hz] at h
        cases hg : s.get_page pid with
        | none => rw [hg] at h; exact absurd h (by simp)
        | some s₁ =>
          rw [hg] at h
          simp only [Option.bind_eq_bind, Option.some_bind] at h
          exact MetaEq_trans (get_page_meta hg) (ih h)

theorem all_records_meta {fuel : Nat} {s s' : DbFile} {b : Nat}
    {res : List (Nat × List (List Nat × List Nat))}
    (h : DbFile.all_records_in_bucket fuel s b = some (s', res)) : MetaEq s s' := by
  rw [DbFile.all_records_in_bucket] at h
  cases hb : s.get_bucket b with
  | none => rw [hb] at h; exact absurd h (by simp)
  | some s₁ =>
    rw [hb] at h
    simp only [Option.bind_eq_bind, Option.some_bind] at h
    cases hp : s₁.page_id with
    | none => rw [hp] at h; exact absurd h (by simp)
    | some pid =>
      rw [hp] at h
      simp only [Option.some_bind] at h
      exact MetaEq_trans (get_bucket_meta hb) (allRecordsAux_meta h)

theorem search_bucket_meta {fuel : Nat} {s s' : DbFile} {b : Nat} {key : List Nat}
    {r : SearchResult} (h : DbFile.search_bucket fuel s b key = some (s', r)) :
    MetaEq s s' := by
  rw [DbFile.search_bucket] at h
  cases ha : DbFile.all_records_in_bucket fuel s b with
  | none => rw [ha] at h; exact absurd h (by simp)
  | some p =>
    obtain ⟨s₁, res⟩ := p
    rw [ha] at h
    simp only [Option.bind_eq_bind, Option.some_bind, Option.some_inj] at h
    have h1 : s₁ = s' := congrArg Prod.fst h
    subst h1
    exact all_records_meta ha

theorem write_record_meta {s s' : DbFile} {pid row : Nat} {key val : List Nat}
    (h : s.write_record pid row key val = some s') : MetaEq s s' := by
  rw [DbFile.write_record] at h
  cases hg : s.get_page pid with
  | none => rw [hg] at h; exact absurd h (by simp)
  | some s₁ =>
    rw [hg] at h
    simp only [Option.bind_eq_bind, Option.some_bind, Option.some_inj] at h
    subst h
    exact MetaEq_trans (get_page_meta hg) ⟨rfl, rfl, rfl, rfl, rfl, rfl, rfl⟩

theorem write_record_incr_meta {s s' : DbFile} {pid row : Nat} {key val : List Nat}
    (h : s.write_record_incr pid row key val = some s') : MetaEq s s' := by
  rw [DbFile.write_record_incr] at h
  have h1 : MetaEq s { s with buffer := s.buffer.incr_num_records } :=
    ⟨rfl, rfl, rfl, rfl, rfl, rfl, rfl⟩
  exact MetaEq_trans h1 (write_record_meta h)

theorem write_ctrlpage_meta (s : DbFile) (t : Nat × Nat × Nat) :
    MetaEq s (s.write_ctrlpage t) :=
  ⟨rfl, rfl, rfl, rfl, rfl, rfl, rfl⟩

theorem close_meta {s s' : DbFile} (h : s.close = some s') : MetaEq s s' :=
  write_buffer_meta h

theorem usizeIncr_eq_some {n fp : Nat} (h : usizeIncr n = some fp) :
    n + 1 < 2 ^ 64 ∧ fp = n + 1 := by
  rw [usizeIncr] at h
  by_cases hb : n + 1 < 2 ^ 64
  · rw [if_pos hb] at h; cases h; exact ⟨hb, rfl⟩
  · rw [if_neg hb] at h; exact absurd h (by simp)

/-- Structural characterization of a successful `allocate_new_page`. -/
theorem allocate_new_page_spec {s s' : DbFile} {pid : Nat}
    (h : s.allocate_new_page = some (s', pid)) :
    ∃ s₁ s₂ s₃, s.write_buffer = some s₁ ∧
      ((s₁.num_free = 0 ∧ s₂ = s₁ ∧ pid = s₁.free_page) ∨
       (s₁.num_free ≠ 0 ∧ ∃ p s₁', s₁.free_list = some p ∧ s₁.get_page p = some s₁' ∧
          s₂ = { s₁' with free_list := s₁'.buffer.next, num_free := s₁'.num_free - 1 } ∧
          pid = p)) ∧
      DbFile.write_buffer { s₂ with
          buffer := { Page.new s₂.keysize s₂.valsize with id := pid }
          page_id := some pid
          dirty := false } = some s₃ ∧
      s₃.free_page + 1 < 2 ^ 64 ∧ s' = { s₃ with free_page := s₃.free_page + 1 } := by
  rw [DbFile.allocate_new_page] at h
  cases hw : s.write_buffer with
  | none => rw [hw] at h; exact absurd h (by simp)
  | some s₁ =>
    rw [hw] at h
    simp only [Option.bind_eq_bind, Option.some_bind] at h
    by_cases hz : s₁.num_free = 0
    · rw [if_pos hz] at h
      cases hw2 : DbFile.write_buffer { s₁ with
          buffer := { Page.new s₁.keysize s₁.valsize with id := s₁.free_page }
          page_id := some s₁.free_page
          dirty := false } with
      | none => rw [hw2] at h; exact absurd h (by simp)
      | some s₃ =>
        rw [hw2] at h
        simp only [Option.bind_eq_bind, Option.some_bind] at h
        cases hu : usizeIncr s₃.free_page with
        | none => rw [hu] at h; exact absurd h (by simp)
        | some fp =>
          rw [hu] at h
          simp only [Option.some_bind, Option.some_inj] at h
          obtain ⟨hlt, hfp⟩ := usizeIncr_eq_some hu
          have hpid : pid = s₁.free_page := (congrArg Prod.snd h).symm
          refine ⟨s₁, s₁, s₃, rfl, Or.inl ⟨hz, rfl, hpid⟩, by rw [hpid]; exact hw2, hlt, ?_⟩
          have h1 : { s₃ with free_page := fp } = s' := congrArg Prod.fst h
          rw [← h1, hfp]
    · rw [if_neg hz] at h
      cases hfl : s₁.free_list with
      | none => rw [hfl] at h; exact absurd h (by simp)
      | some p =>
        rw [hfl] at h
        simp only [Option.bind_eq_bind, Option.some_bind] at h
        cases hg : s₁.get_page p with
        | none => rw [hg] at h; exact absurd h (by simp)
        | some s₁' =>
          rw [hg] at h
          simp only [Option.some_bind] at h
          cases hw2 : DbFile.write_buffer
              { s₁' with
                  free_list := s₁'.buffer.next
                  num_free := s₁'.num_free - 1
                  buffer := { Page.new s₁'.keysize s₁'.valsize with id := p }
                  page_id := some p
                  dirty := false } with
          | none => rw [hw2] at h; exact absurd h (by simp)
          | some s₃ =>
            rw [hw2] at h
            simp only [Option.bind_eq_bind, Option.some_bind] at h
            cases hu : usizeIncr s₃.free_page with
            | none => rw [hu] at h; exact absurd h (by simp)
            | some fp =>
              rw [hu] at h
              simp only [Option.some_bind, Option.some_inj] at h
              obtain ⟨hlt, hfp⟩ := usizeIncr_eq_some hu
              have hpid : pid = p := (congrArg Prod.snd h).symm
              refine ⟨s₁, _, s₃, rfl, Or.inr ⟨hz, p, s₁', hfl, hg, rfl, hpid⟩,
                ?_, hlt, ?_⟩
              · rw [hpid]; exact hw2
              · have h1 : { s₃ with free_page := fp } = s' := congrArg Prod.fst h
                rw [← h1, hfp]

theorem allocate_new_page_dir {s s' : DbFile} {pid : Nat}
    (h : s.allocate_new_page = some (s', pid)) : DirEq s s' := by
  obtain ⟨s₁, s₂, s₃, hw, hbr, hw2, hlt, hs'⟩ := allocate_new_page_spec h
  have d1 : DirEq s s₁ := (write_buffer_meta hw).toDirEq
  have d2 : DirEq s₁ s₂ := by
    rcases hbr with ⟨_, he, _⟩ | ⟨_, p, s₁', _, hg, he, _⟩
    · subst he; exact DirEq_refl _
    · subst he
      have h1 : DirEq s₁ s₁' := (get_page_meta hg).toDirEq
      exact DirEq_trans h1 ⟨rfl, rfl, rfl, rfl⟩
  have d3 : DirEq s₂ s₃ := by
    have h2 := (write_buffer_meta hw2).toDirEq
    have h1 : DirEq s₂ { s₂ with
        buffer := { Page.new s₂.keysize s₂.valsize with id := pid }
        page_id := some pid
        dirty := false } := ⟨rfl, rfl, rfl, rfl⟩
    exact DirEq_trans h1 h2
  have d4 : DirEq s₃ s' := by subst hs'; exact ⟨rfl, rfl, rfl, rfl⟩
  exact DirEq_trans (DirEq_trans (DirEq_trans d1 d2) d3) d4

/-- Structural characterization of a successful `allocate_overflow`. -/
theorem allocate_overflow_spec {s s' : DbFile} {b last : Nat} {ret : Nat × Nat}
    (h : s.allocate_overflow b last = some (s', ret)) :
    ∃ sa q sb sc sd se,
      s.allocate_new_page = some (sa, q) ∧
      sa.get_page q = some sb ∧
      DbFile.write_buffer { sb with buffer := { sb.buffer with prev := some last } } = some sc ∧
      sc.get_page last = some sd ∧
      DbFile.write_buffer { sd with buffer := { sd.buffer with next := some q } } = some se ∧
      s' = se ∧ ret = (q, 0) := by
  rw [DbFile.allocate_overflow] at h
  cases ha : s.allocate_new_page with
  | none => rw [ha] at h; exact absurd h (by simp)
  | some aq =>
    obtain ⟨sa, q⟩ := aq
    rw [ha] at h
    simp only [Option.bind_eq_bind, Option.some_bind] at h
    cases hg : sa.get_page q with
    | none => rw [hg] at h; exact absurd h (by simp)
    | some sb =>
      rw [hg] at h
      simp only [Option.some_bind] at h
      cases hw1 : DbFile.write_buffer { sb with buffer := { sb.buffer with prev := some last } } with
      | none => rw [hw1] at h; exact absurd h (by simp)
      | some sc =>
        rw [hw1] at h
        simp only [Option.bind_eq_bind, Option.some_bind] at h
        cases hg2 : sc.get_page last with
        | none => rw [hg2] at h; exact absurd h (by simp)
        | some sd =>
          rw [hg2] at h
          simp only [Option.some_bind] at h
          cases hw2 : DbFile.write_buffer { sd with buffer := { sd.buffer with next := some q } } with
          | none => rw [hw2] at h; exact absurd h (by simp)
          | some se =>
            rw [hw2] at h
            simp only [Option.bind_eq_bind, Option.some_bind, Option.some_inj] at h
            have h1 : se = s' := congrArg Prod.fst h
            have h2 : (q, 0) = ret := congrArg Prod.snd h
            exact ⟨sa, q, sb, sc, sd, se, rfl, hg, hw1, hg2, hw2, h1.symm, h2.symm⟩

theorem allocate_overflow_dir {s s' : DbFile} {b last : Nat} {ret : Nat × Nat}
    (h : s.allocate_overflow b last = some (s', ret)) : DirEq s s' := by
  obtain ⟨sa, q, sb, sc, sd, se, ha, hg, hw1, hg2, hw2, hs', _⟩ := allocate_overflow_spec h
  subst hs'
  have d1 : DirEq s sa := allocate_new_page_dir ha
  have d2 : DirEq sa sb := (get_page_meta hg).toDirEq
  have d3 : DirEq sb sc := by
    have h2 := (write_buffer_meta hw1).toDirEq
    have h1 : DirEq sb { sb with buffer := { sb.buffer with prev := some last } } :=
      ⟨rfl, rfl, rfl, rfl⟩
    exact DirEq_trans h1 h2
  have d4 : DirEq sc sd := (get_page_meta hg2).toDirEq
  have d5 : DirEq sd s' := by
    have h2 := (write_buffer_meta hw2).toDirEq
    have h1 : DirEq sd { sd with buffer := { sd.buffer with next := some q } } :=
      ⟨rfl, rfl, rfl, rfl⟩
    exact DirEq_trans h1 h2
  exact DirEq_trans (DirEq_trans (DirEq_trans (DirEq_trans d1 d2) d3) d4) d5

/-- Structural characterization of a successful `clear_bucket`. -/
theorem clear_bucket_spec {fuel : Nat} {s s' : DbFile} {b : Nat}
    {records : List (List Nat × List Nat)}
    (h : DbFile.clear_bucket fuel s b = some (s', records)) :
    ∃ sa all sb pid,
      DbFile.all_records_in_bucket fuel s b = some (sa, all) ∧
      records = flatten all ∧
      ((1 < all.length ∧ ∃ last sa', all.getLast? = some last ∧
          DbFile.get_page { sa with free_list := some last.1 } last.1 = some sa' ∧
          sb = { sa' with
                   num_free := sa'.num_free + (all.length - 1)
                   buffer := { sa'.buffer with next := sa.free_list } }) ∨
       (¬ 1 < all.length ∧ sb = sa)) ∧
      sb.bucketToPage b = some pid ∧
      DbFile.write_buffer { sb with
          buffer := { Page.new sb.keysize sb.valsize with id := pid }
          page_id := some pid
          dirty := false } = some s' := by
  rw [DbFile.clear_bucket] at h
  cases ha : DbFile.all_records_in_bucket fuel s b with
  | none => rw [ha] at h; exact absurd h (by simp)
  | some p =>
    obtain ⟨sa, all⟩ := p
    rw [ha] at h
    simp only [Option.bind_eq_bind, Option.some_bind] at h
    by_cases hlen : 1 < all.length
    · rw [if_pos hlen] at h
      cases hl : all.getLast? with
      | none => rw [hl] at h; exact absurd h (by simp)
      | some last =>
        rw [hl] at h
        simp only [Option.bind_eq_bind, Option.some_bind] at h
        cases hg : DbFile.get_page { sa with free_list := some last.1 } last.1 with
        | none => rw [hg] at h; exact absurd h (by simp)
        | some sa' =>
          rw [hg] at h
          simp only [Option.some_bind] at h
          cases hbp : DbFile.bucketToPage { sa' with
              num_free := sa'.num_free + (all.length - 1)
              buffer := { sa'.buffer with next := sa.free_list } } b with
          | none => rw [hbp] at h; exact absurd h (by simp)
          | some pid =>
            rw [hbp] at h
            simp only [Option.bind_eq_bind, Option.some_bind] at h
            cases hw : DbFile.write_buffer { { sa' with
                num_free := sa'.num_free + (all.length - 1)
                buffer := { sa'.buffer with next := sa.free_list } } with
                  buffer := { Page.new sa'.keysize sa'.valsize with id := pid }
                  page_id := some pid
                  dirty := false } with
            | none => rw [hw] at h; exact absurd h (by simp)
            | some sf =>
              rw [hw] at h
              simp only [Option.bind_eq_bind, Option.some_bind, Option.some_inj] at h
              have h1 : sf = s' := congrArg Prod.fst h
              have h2 : flatten all = records := congrArg Prod.snd h
              subst h1
              refine ⟨sa, all, _, pid, rfl, h2.symm,
                Or.inl ⟨hlen, last, sa', hl, hg, rfl⟩, hbp, hw⟩
    · rw [if_neg hlen] at h
      cases hbp : sa.bucketToPage b with
      | none => rw [hbp] at h; exact absurd h (by simp)
      | some pid =>
        rw [hbp] at h
        simp only [Option.bind_eq_bind, Option.some_bind] at h
        cases hw : DbFile.write_buffer { sa with
            buffer := { Page.new sa.keysize sa.valsize with id := pid }
            page_id := some pid
            dirty := false } with
        | none => rw [hw] at h; exact absurd h (by simp)
        | some sf =>
          rw [hw] at h
          simp only [Option.bind_eq_bind, Option.some_bind, Option.some_inj] at h
          have h1 : sf = s' := congrArg Prod.fst h
          have h2 : flatten all = records := congrArg Prod.snd h
          subst h1
          exact ⟨sa, all, sa, pid, rfl, h2.symm, Or.inr ⟨hlen, rfl⟩, hbp, hw⟩

theorem clear_bucket_dir {fuel : Nat} {s s' : DbFile} {b : Nat}
    {records : List (List Nat × List Nat)}
    (h : DbFile.clear_bucket fuel s b = some (s', records)) : DirEq s s' := by
  obtain ⟨sa, all, sb, pid, ha, _, hbr, _, hw⟩ := clear_bucket_spec h
  have d1 : DirEq s sa := (all_records_meta ha).toDirEq
  have d2 : DirEq sa sb := by
    rcases hbr with ⟨_, last, sa', _, hg, he⟩ | ⟨_, he⟩
    · subst he
      have h0 : DirEq sa { sa with free_list := some last.1 } := ⟨rfl, rfl, rfl, rfl⟩
      have h1 := (get_page_meta hg).toDirEq
      exact DirEq_trans (DirEq_trans h0 h1) ⟨rfl, rfl, rfl, rfl⟩
    · subst he; exact DirEq_refl _
  have d3 : DirEq sb s' := by
    have h2 := (write_buffer_meta hw).toDirEq
    have h1 : DirEq sb { sb with
        buffer := { Page.new sb.keysize sb.valsize with id := pid }
        page_id := some pid
        dirty := false } := ⟨rfl, rfl, rfl, rfl⟩
    exact DirEq_trans h1 h2
  exact DirEq_trans (DirEq_trans d1 d2) d3

/-- Structural characterization of a successful `allocate_new_bucket`. -/
theorem allocate_new_bucket_spec {s s' : DbFile} (h : s.allocate_new_bucket = some s') :
    ∃ sa pid, s.allocate_new_page = some (sa, pid) ∧
      s' = { sa with bucket_to_page := sa.bucket_to_page ++ [pid] } := by
  rw [DbFile.allocate_new_bucket] at h
  cases ha : s.allocate_new_page with
  | none => rw [ha] at h; exact absurd h (by simp)
  | some aq =>
    obtain ⟨sa, pid⟩ := aq
    rw [ha] at h
    simp only [Option.bind_eq_bind, Option.some_bind, Option.some_inj] at h
    exact ⟨sa, pid, rfl, h.symm⟩

/-! ## C7: the directory/bucket invariant -/

/-- Invariants 1–2/4 of the spec: `nbuckets` matches the directory
length and `nbits` is the smallest sufficient address width. -/
def dirInv (h : LinHash) : Prop :=
  h.nbuckets = h.buckets.bucket_to_page.length ∧
    2 ^ (h.nbits - 1) < h.nbuckets ∧ h.nbuckets ≤ 2 ^ h.nbits

theorem dirInv_bucketsEq {h : LinHash} {d : DbFile} (hd : dirInv h)
    (he : d.bucket_to_page = h.buckets.bucket_to_page) :
    dirInv { h with buckets := d } :=
  ⟨hd.1.trans (congrArg List.length he).symm, hd.2.1, hd.2.2⟩

theorem dirInv_nitems {h : LinHash} {n : Nat} (hd : dirInv h) :
    dirInv { h with nitems := n } := hd

theorem reinsertAllAux_dirInv (putf : LinHash → List Nat → List Nat → Option LinHash)
    (hputf : ∀ h k v h', putf h k v = some h' → dirInv h → dirInv h') :
    ∀ (l : List (List Nat × List Nat)) (h h' : LinHash),
      LinHash.reinsertAllAux putf h l = some h' → dirInv h → dirInv h' := by
  intro l
  induction l with
  | nil =>
    intro h h' he hd
    rw [LinHash.reinsertAllAux] at he
    cases he
    exact hd
  | cons kv rest ih =>
    obtain ⟨k, v⟩ := kv
    intro h h' he hd
    rw [LinHash.reinsertAllAux] at he
    cases hp : putf h k v with
    | none => rw [hp] at he; exact absurd he (by simp)
    | some h₁ =>
      rw [hp] at he
      simp only [Option.bind_eq_bind, Option.some_bind] at he
      exact ih _ _ he (dirInv_nitems (hputf _ _ _ _ hp hd))

theorem maybe_splitAux_dirInv (wf : Nat)
    (putf : LinHash → List Nat → List Nat → Option LinHash)
    (hputf : ∀ h k v h', putf h k v = some h' → dirInv h → dirInv h')
    (h h' : LinHash) (he : LinHash.maybe_splitAux wf putf h = some h')
    (hd : dirInv h) : dirInv h' := by
  rw [LinHash.maybe_splitAux] at he
  by_cases hs : h.split_needed = true
  · rw [if_pos hs] at he
    simp only [Option.bind_eq_bind] at he
    obtain ⟨d, ha, he⟩ := Option.bind_eq_some.mp he
    obtain ⟨sa, pid, hap, hd'⟩ := allocate_new_bucket_spec ha
    have hlen : d.bucket_to_page.length = h.buckets.bucket_to_page.length + 1 := by
      rw [hd']
      have hbtp := (allocate_new_page_dir hap).btp
      simp [hbtp]
    by_cases hc : 1 <<< h.nbits < h.nbuckets + 1
    · rw [if_pos hc] at he
      dsimp only at he
      obtain ⟨r, hcl, he⟩ := Option.bind_eq_some.mp he
      have hrl : r.1.bucket_to_page.length = d.bucket_to_page.length := by
        obtain ⟨rs, rr⟩ := r
        exact congrArg List.length (clear_bucket_dir hcl).btp
      rw [Nat.one_shiftLeft] at hc
      refine reinsertAllAux_dirInv putf hputf _ _ _ he ⟨?_, ?_, ?_⟩
      · show h.nbuckets + 1 = r.1.bucket_to_page.length
        rw [hrl, hlen, hd.1]
      · show 2 ^ (h.nbits + 1 - 1) < h.nbuckets + 1
        have e1 : h.nbits + 1 - 1 = h.nbits := by omega
        rw [e1]
        exact hc
      · show h.nbuckets + 1 ≤ 2 ^ (h.nbits + 1)
        have hpow : (2 : Nat) ^ (h.nbits + 1) = 2 * 2 ^ h.nbits := by ring
        have h22 := hd.2.2
        have hp1 : 0 < 2 ^ h.nbits := Nat.pos_pow_of_pos _ (by norm_num)
        omega
    · rw [if_neg hc] at he
      dsimp only at he
      obtain ⟨r, hcl, he⟩ := Option.bind_eq_some.mp he
      have hrl : r.1.bucket_to_page.length = d.bucket_to_page.length := by
        obtain ⟨rs, rr⟩ := r
        exact congrArg List.length (clear_bucket_dir hcl).btp
      rw [Nat.one_shiftLeft] at hc
      refine reinsertAllAux_dirInv putf hputf _ _ _ he ⟨?_, ?_, ?_⟩
      · show h.nbuckets + 1 = r.1.bucket_to_page.length
        rw [hrl, hlen, hd.1]
      · show 2 ^ (h.nbits - 1) < h.nbuckets + 1
        exact Nat.lt_succ_of_lt hd.2.1
      · show h.nbuckets + 1 ≤ 2 ^ h.nbits
        omega
  · rw [if_neg hs] at he
    cases he
    exact hd

theorem put_dirInv (hash : List Nat → Nat) :
    ∀ (fuel : Nat) (h : LinHash) (key val : List Nat) (h' : LinHash),
      LinHash.put hash fuel h key val = some h' → dirInv h → dirInv h' := by
  intro fuel
  induction fuel with
  | zero =>
    intro h k v h' he
    exact absurd he (by simp [LinHash.put])
  | succ f ih =>
    intro h k v h' he hd
    rw [LinHash.put] at he
    simp only [Option.bind_eq_bind] at he
    obtain ⟨r, hs, he⟩ := Option.bind_eq_some.mp he
    have hd1 : dirInv { h with buckets := r.1 } := by
      obtain ⟨d, sr⟩ := r
      exact dirInv_bucketsEq hd (search_bucket_meta hs).btp
    have hfin : ∀ h₃, LinHash.maybe_splitAux (f + 1) (LinHash.put hash f) h₃ = some h' →
        dirInv h₃ → dirInv h' := by
      intro h₃ hms hd₃
      exact maybe_splitAux_dirInv (f + 1) (LinHash.put hash f)
        (fun a b c dd hp hq => ih a b c dd hp hq) h₃ h' hms hd₃
    have hfin' : ∀ h₃, ((LinHash.maybe_splitAux (f + 1) (LinHash.put hash f) h₃).bind
        fun y => some (LinHash.writeCtrl y)) = some h' → dirInv h₃ → dirInv h' := by
      intro h₃ hms hd₃
      obtain ⟨h₄, hm4, he4⟩ := Option.bind_eq_some.mp hms
      simp only [Option.some_inj] at he4
      have hd4 : dirInv h₄ := maybe_splitAux_dirInv (f + 1) (LinHash.put hash f)
        (fun a b c dd hp hq => ih a b c dd hp hq) h₃ h₄ hm4 hd₃
      subst he4
      exact ⟨hd4.1.trans (congrArg List.length
          (write_ctrlpage_meta h₄.buckets (h₄.nbits, h₄.nitems, h₄.nbuckets)).btp).symm,
        hd4.2.1, hd4.2.2⟩
    cases hpi : r.2.page_id with
    | none =>
      rw [hpi] at he
      cases hrn : r.2.row_num with
      | none => rw [hrn] at he; exact absurd he (by simp)
      | some pos => rw [hrn] at he; exact absurd he (by simp)
    | some pg =>
      rw [hpi] at he
      cases hrn : r.2.row_num with
      | some pos =>
        rw [hrn] at he
        cases hvv : r.2.val with
        | none =>
          rw [hvv] at he
          dsimp only at he
          obtain ⟨d2, hw, he⟩ := Option.bind_eq_some.mp he
          simp only [Option.some_bind] at he
          refine hfin' _ he ?_
          exact ⟨hd1.1.trans (congrArg List.length (write_record_incr_meta hw).btp).symm,
            hd1.2.1, hd1.2.2⟩
        | some ov => rw [hvv] at he; exact absurd he (by simp)
      | none =>
        rw [hrn] at he
        cases hvv : r.2.val with
        | none =>
          rw [hvv] at he
          dsimp only at he
          obtain ⟨ov, hov, he⟩ := Option.bind_eq_some.mp he
          obtain ⟨h₂, hput, he⟩ := Option.bind_eq_some.mp he
          have hdov : dirInv { h with buckets := ov.1 } := by
            obtain ⟨d2, q⟩ := ov
            exact dirInv_bucketsEq hd ((DirEq_trans (search_bucket_meta hs).toDirEq
              (allocate_overflow_dir hov)).btp)
          have hd2 : dirInv h₂ := ih _ _ _ _ hput hdov
          exact hfin' _ he hd2
        | some ov => rw [hvv] at he; exact absurd he (by simp)

/-- The public operations of `LinHash` (after open). -/
inductive Op where
  | putOp (key val : List Nat)
  | updateOp (key val : List Nat)
  | getOp (key : List Nat)
  | containsOp (key : List Nat)
  | closeOp

/-- Run one public operation, keeping only the state. -/
def stepOp (hash : List Nat → Nat) (fuel : Nat) (h : LinHash) : Op → Option LinHash
  | Op.putOp k v => LinHash.put hash fuel h k v
  | Op.updateOp k v => (LinHash.update hash fuel h k v).map Prod.fst
  | Op.getOp k => (LinHash.get hash fuel h k).map Prod.fst
  | Op.containsOp k => (LinHash.contains hash fuel h k).map Prod.fst
  | Op.closeOp => LinHash.close h

/-- Run a sequence of public operations. -/
def runOps (hash : List Nat → Nat) (fuel : Nat) : LinHash → List Op → Option LinHash
  | h, [] => some h
  | h, op :: rest => (stepOp hash fuel h op).bind fun h' => runOps hash fuel h' rest

theorem update_dirInv {hash : List Nat → Nat} {fuel : Nat} {h : LinHash}
    {key val : List Nat} {r : LinHash × Bool}
    (he : LinHash.update hash fuel h key val = some r) (hd : dirInv h) : dirInv r.1 := by
  rw [LinHash.update] at he
  simp only [Option.bind_eq_bind] at he
  obtain ⟨sr, hs, he⟩ := Option.bind_eq_some.mp he
  have hd1 : dirInv { h with buckets := sr.1 } := by
    obtain ⟨d, q⟩ := sr
    exact dirInv_bucketsEq hd (search_bucket_meta hs).btp
  cases hpi : sr.2.page_id with
  | none =>
    rw [hpi] at he
    dsimp only at he
    cases he
    exact hd1
  | some pg =>
    rw [hpi] at he
    cases hrn : sr.2.row_num with
    | none =>
      rw [hrn] at he
      dsimp only at he
      cases he
      exact hd1
    | some rn =>
      rw [hrn] at he
      cases hvv : sr.2.val with
      | none =>
        rw [hvv] at he
        dsimp only at he
        cases he
        exact hd1
      | some v₀ =>
        rw [hvv] at he
        dsimp only at he
        obtain ⟨d2, hw, he⟩ := Option.bind_eq_some.mp he
        cases he
        exact ⟨hd1.1.trans (congrArg List.length (write_record_meta hw).btp).symm,
          hd1.2.1, hd1.2.2⟩

theorem get_dirInv {hash : List Nat → Nat} {fuel : Nat} {h : LinHash}
    {key : List Nat} {r : LinHash × Option (List Nat)}
    (he : LinHash.get hash fuel h key = some r) (hd : dirInv h) : dirInv r.1 := by
  rw [LinHash.get] at he
  simp only [Option.bind_eq_bind] at he
  obtain ⟨sr, hs, he⟩ := Option.bind_eq_some.mp he
  cases he
  obtain ⟨d, q⟩ := sr
  exact dirInv_bucketsEq hd (search_bucket_meta hs).btp

theorem contains_dirInv {hash : List Nat → Nat} {fuel : Nat} {h : LinHash}
    {key : List Nat} {r : LinHash × Bool}
    (he : LinHash.contains hash fuel h key = some r) (hd : dirInv h) : dirInv r.1 := by
  rw [LinHash.contains] at he
  simp only [Option.bind_eq_bind] at he
  obtain ⟨gr, hg, he⟩ := Option.bind_eq_some.mp he
  cases he
  exact get_dirInv hg hd

theorem close_dirInv {h h' : LinHash} (he : LinHash.close h = some h')
    (hd : dirInv h) : dirInv h' := by
  rw [LinHash.close] at he
  simp only [Option.bind_eq_bind] at he
  obtain ⟨d, hc, he⟩ := Option.bind_eq_some.mp he
  cases he
  have m1 : MetaEq h.buckets (LinHash.writeCtrl h).buckets :=
    write_ctrlpage_meta h.buckets (h.nbits, h.nitems, h.nbuckets)
  have m2 : MetaEq (LinHash.writeCtrl h).buckets d := close_meta hc
  exact ⟨hd.1.trans (congrArg List.length (m2.btp.trans m1.btp)).symm, hd.2.1, hd.2.2⟩

theorem stepOp_dirInv {hash : List Nat → Nat} {fuel : Nat} {h h' : LinHash} {op : Op}
    (he : stepOp hash fuel h op = some h') (hd : dirInv h) : dirInv h' := by
  cases op with
  | putOp k v => exact put_dirInv hash fuel h k v h' he hd
  | updateOp k v =>
    rw [stepOp] at he
    obtain ⟨r, hr, he⟩ := Option.map_eq_some'.mp he
    subst he
    exact update_dirInv hr hd
  | getOp k =>
    rw [stepOp] at he
    obtain ⟨r, hr, he⟩ := Option.map_eq_some'.mp he
    subst he
    exact get_dirInv hr hd
  | containsOp k =>
    rw [stepOp] at he
    obtain ⟨r, hr, he⟩ := Option.map_eq_some'.mp he
    subst he
    exact contains_dirInv hr hd
  | closeOp => exact close_dirInv he hd

theorem runOps_dirInv {hash : List Nat → Nat} {fuel : Nat} :
    ∀ {ops : List Op} {h h' : LinHash},
      runOps hash fuel h ops = some h' → dirInv h → dirInv h' := by
  intro ops
  induction ops with
  | nil =>
    intro h h' he hd
    rw [runOps] at he
    cases he
    exact hd
  | cons op rest ih =>
    intro h h' he hd
    rw [runOps] at he
    obtain ⟨h₁, h1, he⟩ := Option.bind_eq_some.mp he
    exact ih he (stepOp_dirInv h1 hd)

theorem dirInv_openNew (keysize valsize : Nat) : dirInv (LinHash.openNew keysize valsize) :=
  ⟨rfl, by show (2 : Nat) ^ (1 - 1) < 2; decide, by show 2 ≤ (2 : Nat) ^ 1; decide⟩

/-- C7 (amended): within a session started by opening a fresh file,
after every completed sequence of top-level operations (`put`,
`update`, `get`, `contains`, `close`) the state satisfies
`nbuckets = len(bucket_to_page)` and `2^(nbits−1) < nbuckets ≤ 2^nbits`.
(As stated, the claim also covers `open` of an existing file, where
the directory-length equation fails; see the counterexample.) -/
theorem c7_dir_invariant_in_session (hash : List Nat → Nat) (fuel keysize valsize : Nat)
    (ops : List Op) (h' : LinHash)
    (he : runOps hash fuel (LinHash.openNew keysize valsize) ops = some h') :
    h'.nbuckets = h'.buckets.bucket_to_page.length ∧
      2 ^ (h'.nbits - 1) < h'.nbuckets ∧ h'.nbuckets ≤ 2 ^ h'.nbits :=
  runOps_dirInv he (dirInv_openNew keysize valsize)

def c7W : LinHash :=
  (runOps hashC 3 (LinHash.openNew 1 1) [Op.putOp [5] [7], Op.getOp [5]]).getD
    (LinHash.openNew 1 1)

/-- Witness for the amended C7 on a concrete run. -/
theorem c7_witness :
    runOps hashC 3 (LinHash.openNew 1 1) [Op.putOp [5] [7], Op.getOp [5]] = some c7W ∧
      (c7W.nbuckets = c7W.buckets.bucket_to_page.length ∧
        2 ^ (c7W.nbits - 1) < c7W.nbuckets ∧ c7W.nbuckets ≤ 2 ^ c7W.nbits) :=
  ⟨rfl, c7_dir_invariant_in_session hashC 3 1 1 [Op.putOp [5] [7], Op.getOp [5]] c7W rfl⟩

def c7File : Nat → Nat → Nat :=
  (((LinHash.put hashC 3 (LinHash.openNew 1 1) [5] [7]).bind LinHash.close).getD
    (LinHash.openNew 1 1)).buckets.file

def c7Reopened : LinHash := LinHash.openExisting 1 1 c7File

/-- Counterexample for C7 as stated: after a completed `put` and
`close`, re-opening the same file yields `nbuckets = 2` but a
directory of 508 entries, so the invariant
`nbuckets == len(bucket_to_page)` does not hold after the completed
`open` of an existing file. -/
theorem c7_counterexample :
    ((LinHash.put hashC 3 (LinHash.openNew 1 1) [5] [7]).bind LinHash.close).isSome = true ∧
      c7Reopened.nbuckets = 2 ∧
      c7Reopened.buckets.bucket_to_page.length = 508 ∧
      c7Reopened.nbuckets ≠ c7Reopened.buckets.bucket_to_page.length := by
  refine ⟨rfl, rfl, ?_, ?_⟩
  · show (LinHash.openExisting 1 1 c7File).buckets.bucket_to_page.length = 508
    simp [LinHash.openExisting, DbFile.read_ctrlpage, DbFile.decodeDirectory, PAGE_SIZE]
  · intro hEq
    have h2 : c7Reopened.nbuckets = 2 := rfl
    have h508 : c7Reopened.buckets.bucket_to_page.length = 508 := by
      show (LinHash.openExisting 1 1 c7File).buckets.bucket_to_page.length = 508
      simp [LinHash.openExisting, DbFile.read_ctrlpage, DbFile.decodeDirectory, PAGE_SIZE]
    rw [h2, h508] at hEq
    exact absurd hEq (by norm_num)

/-! ## C8: write ordering (ghost log) -/

theorem writeCtrl_log (h : LinHash) :
    (LinHash.writeCtrl h).buckets.log = h.buckets.log ++ [0] := rfl

theorem write_buffer_log {s s' : DbFile} (h : s.write_buffer = some s') :
    ∃ p, s.page_id = some p ∧ s'.log = s.log ++ [p] ∧ s'.dirty = false ∧
      s'.page_id = s.page_id := by
  rw [DbFile.write_buffer] at h
  cases hp : s.page_id with
  | none => rw [hp] at h; exact absurd h (by simp)
  | some pid =>
    rw [hp] at h
    simp only [Option.some_inj] at h
    subst h
    exact ⟨pid, rfl, rfl, rfl, rfl⟩

/-- One buffered-page load flushes at most the previously buffered
dirty page; afterwards the buffer is clean (or the state unchanged). -/
def FlushStep (s s' : DbFile) : Prop :=
  (s'.log = s.log ∨ (s.dirty = true ∧ ∃ p, s.page_id = some p ∧ s'.log = s.log ++ [p])) ∧
    (s' = s ∨ s'.dirty = false)

theorem FlushStep_refl (s : DbFile) : FlushStep s s := ⟨Or.inl rfl, Or.inl rfl⟩

theorem FlushStep.comp {s s₁ s₂ : DbFile} (h1 : FlushStep s s₁) (h2 : FlushStep s₁ s₂) :
    FlushStep s s₂ := by
  rcases h1.2 with he | hcl
  · subst he; exact h2
  · rcases h2.1 with hl | ⟨hdt, _⟩
    · refine ⟨?_, ?_⟩
      · rcases h1.1 with hl1 | ⟨hd1, p, hp, hlp⟩
        · exact Or.inl (hl.trans hl1)
        · exact Or.inr ⟨hd1, p, hp, hl.trans hlp⟩
      · rcases h2.2 with he2 | hcl2
        · subst he2; exact Or.inr hcl
        · exact Or.inr hcl2
    · rw [hcl] at hdt; exact absurd hdt (by simp)

theorem get_page_flushStep {s s' : DbFile} {pid : Nat} (h : s.get_page pid = some s') :
    FlushStep s s' := by
  rw [DbFile.get_page] at h
  by_cases he : s.page_id = some pid
  · rw [if_pos he] at h
    cases h
    exact FlushStep_refl s
  · rw [if_neg he] at h
    by_cases hd : s.dirty = true
    · rw [if_pos hd] at h
      cases hw : s.write_buffer with
      | none => rw [hw] at h; exact absurd h (by simp)
      | some s₁ =>
        rw [hw] at h
        simp only [Option.bind_eq_bind, Option.some_bind, Option.some_inj] at h
        subst h
        obtain ⟨p, hp, hl, _, _⟩ := write_buffer_log hw
        exact ⟨Or.inr ⟨hd, p, hp, hl⟩, Or.inr rfl⟩
    · rw [if_neg hd] at h
      simp only [Option.bind_eq_bind, Option.some_bind, Option.some_inj] at h
      subst h
      exact ⟨Or.inl rfl, Or.inr rfl⟩

theorem get_bucket_flushStep {s s' : DbFile} {b : Nat} (h : s.get_bucket b = some s') :
    FlushStep s s' := by
  rw [DbFile.get_bucket] at h
  obtain ⟨pid, hb, hg⟩ := Option.bind_eq_some.mp h
  exact get_page_flushStep hg

theorem allRecordsAux_flushStep {fuel : Nat} :
    ∀ {s s' : DbFile} {acc res : List (Nat × List (List Nat × List Nat))},
      DbFile.allRecordsAux fuel s acc = some (s', res) → FlushStep s s' := by
  induction fuel with
  | zero => intro s s' acc res h; exact absurd h (by simp [DbFile.allRecordsAux])
  | succ f ih =>
    intro s s' acc res h
    rw [DbFile.allRecordsAux] at h
    cases hn : s.buffer.next with
    | none => rw [hn] at h; cases h; exact FlushStep_refl _
    | some pid =>
      rw [hn] at h
      dsimp only at h
      by_cases hz : pid = 0
      · rw [if_pos hz] at h; cases h; exact FlushStep_refl _
      · rw [if_neg hz] at h
        obtain ⟨s₁, hg, h⟩ := Option.bind_eq_some.mp h
        exact (get_page_flushStep hg).comp (ih h)

theorem all_records_flushStep {fuel : Nat} {s s' : DbFile} {b : Nat}
    {res : List (Nat × List (List Nat × List Nat))}
    (h : DbFile.all_records_in_bucket fuel s b = some (s', res)) : FlushStep s s' := by
  rw [DbFile.all_records_in_bucket] at h
  obtain ⟨s₁, hb, h⟩ := Option.bind_eq_some.mp h
  obtain ⟨pid, hp, h⟩ := Option.bind_eq_some.mp h
  exact (get_bucket_flushStep hb).comp (allRecordsAux_flushStep h)

theorem search_bucket_flushStep {fuel : Nat} {s s' : DbFile} {b : Nat} {key : List Nat}
    {r : SearchResult} (h : DbFile.search_bucket fuel s b key = some (s', r)) :
    FlushStep s s' := by
  rw [DbFile.search_bucket] at h
  obtain ⟨p, ha, h⟩ := Option.bind_eq_some.mp h
  obtain ⟨sa, res⟩ := p
  simp only [Option.some_inj] at h
  have h1 : sa = s' := congrArg Prod.fst h
  subst h1
  exact all_records_flushStep ha

/-- C8 (amended): `put` re-persists the control page and its final
disk write — the last entry of the write log — is page 0; `update`
performs no control-page write at all: it either writes nothing, or
only flushes the previously buffered dirty data page during its page
loads. -/
theorem c8_put_ends_with_ctrl_write_update_writes_none (hash : List Nat → Nat) :
    (∀ (fuel : Nat) (h : LinHash) (key val : List Nat) (h' : LinHash),
        LinHash.put hash fuel h key val = some h' →
        h'.buckets.log.getLast? = some 0) ∧
    (∀ (fuel : Nat) (h : LinHash) (key val : List Nat) (r : LinHash × Bool),
        LinHash.update hash fuel h key val = some r →
        r.1.buckets.log = h.buckets.log ∨
          ∃ p, h.buckets.page_id = some p ∧
            r.1.buckets.log = h.buckets.log ++ [p]) := by
  constructor
  · intro fuel h k v h' he
    cases fuel with
    | zero => exact absurd he (by simp [LinHash.put])
    | succ f =>
      rw [LinHash.put] at he
      simp only [Option.bind_eq_bind] at he
      obtain ⟨r, hs, he⟩ := Option.bind_eq_some.mp he
      have hfin : ∀ h₄ : LinHash, h' = LinHash.writeCtrl h₄ →
          h'.buckets.log.getLast? = some 0 := by
        intro h₄ hh
        rw [hh, writeCtrl_log]
        exact List.getLast?_concat _
      cases hpi : r.2.page_id with
      | none =>
        rw [hpi] at he
        cases hrn : r.2.row_num with
        | none => rw [hrn] at he; exact absurd he (by simp)
        | some pos => rw [hrn] at he; exact absurd he (by simp)
      | some pg =>
        rw [hpi] at he
        cases hrn : r.2.row_num with
        | some pos =>
          rw [hrn] at he
          cases hvv : r.2.val with
          | none =>
            rw [hvv] at he
            dsimp only at he
            obtain ⟨d2, hw, he⟩ := Option.bind_eq_some.mp he
            simp only [Option.some_bind] at he
            obtain ⟨h₄, hm4, he4⟩ := Option.bind_eq_some.mp he
            simp only [Option.some_inj] at he4
            exact hfin h₄ he4.symm
          | some ov => rw [hvv] at he; exact absurd he (by simp)
        | none =>
          rw [hrn] at he
          cases hvv : r.2.val with
          | none =>
            rw [hvv] at he
            dsimp only at he
            obtain ⟨ov, hov, he⟩ := Option.bind_eq_some.mp he
            obtain ⟨h₂, hput, he⟩ := Option.bind_eq_some.mp he
            obtain ⟨h₄, hm4, he4⟩ := Option.bind_eq_some.mp he
            simp only [Option.some_inj] at he4
            exact hfin h₄ he4.symm
          | some ov => rw [hvv] at he; exact absurd he (by simp)
  · intro fuel h k v r he
    rw [LinHash.update] at he
    simp only [Option.bind_eq_bind] at he
    obtain ⟨sr, hs, he⟩ := Option.bind_eq_some.mp he
    obtain ⟨d, q⟩ := sr
    have hfs : FlushStep h.buckets d := search_bucket_flushStep hs
    cases hpi : q.page_id with
    | none =>
      rw [hpi] at he
      dsimp only at he
      cases he
      rcases hfs.1 with hl | ⟨_, p, hp, hl⟩
      · exact Or.inl hl
      · exact Or.inr ⟨p, hp, hl⟩
    | some pg =>
      rw [hpi] at he
      cases hrn : q.row_num with
      | none =>
        rw [hrn] at he
        dsimp only at he
        cases he
        rcases hfs.1 with hl | ⟨_, p, hp, hl⟩
        · exact Or.inl hl
        · exact Or.inr ⟨p, hp, hl⟩
      | some rn =>
        rw [hrn] at he
        cases hvv : q.val with
        | none =>
          rw [hvv] at he
          dsimp only at he
          cases he
          rcases hfs.1 with hl | ⟨_, p, hp, hl⟩
          · exact Or.inl hl
          · exact Or.inr ⟨p, hp, hl⟩
        | some v₀ =>
          rw [hvv] at he
          dsimp only at he
          obtain ⟨d2, hw, he⟩ := Option.bind_eq_some.mp he
          cases he
          rw [DbFile.write_record] at hw
          obtain ⟨d3, hg, hw⟩ := Option.bind_eq_some.mp hw
          simp only [Option.some_inj] at hw
          have hfs2 : FlushStep h.buckets d3 := hfs.comp (get_page_flushStep hg)
          subst hw
          rcases hfs2.1 with hl | ⟨_, p, hp, hl⟩
          · exact Or.inl hl
          · exact Or.inr ⟨p, hp, hl⟩

def c8U : LinHash :=
  ((LinHash.update hashC 3 c9State [5] [9]).getD (c9State, false)).1

/-- Counterexample for C8 as stated: a completed `update` performs no
disk write at all — its write log is unchanged — so in particular no
control page is re-persisted before it returns. -/
theorem c8_counterexample :
    LinHash.update hashC 3 c9State [5] [9] = some (c8U, true) ∧
      c8U.buckets.log = c9State.buckets.log :=
  ⟨rfl, rfl⟩

/-- Witness for the amended C8 on concrete runs. -/
theorem c8_witness :
    c9State.buckets.log.getLast? = some 0 ∧
      (c8U.buckets.log = c9State.buckets.log ∨
        ∃ p, c9State.buckets.page_id = some p ∧
          c8U.buckets.log = c9State.buckets.log ++ [p]) :=
  ⟨(c8_put_ends_with_ctrl_write_update_writes_none hashC).1 3
      (LinHash.openNew 1 1) [5] [7] c9State rfl,
   (c8_put_ends_with_ctrl_write_update_writes_none hashC).2 3
      c9State [5] [9] (c8U, true) rfl⟩

/-! ## Byte-codec lemmas -/

theorem usize_to_bytearray_length (n : Nat) : (usize_to_bytearray n).length = 8 := by
  simp [usize_to_bytearray]

theorem usize_to_bytearray_getD {i : Nat} (n : Nat) (h : i < 8) :
    (usize_to_bytearray n).getD i 0 = n / 256 ^ i % 256 := by
  rw [usize_to_bytearray]
  rw [List.getD_eq_getElem?_getD]
  rw [List.getElem?_map]
  rw [List.getElem?_range h]
  rfl

theorem memMove_outside {st : Nat → Nat} {off dlen : Nat} {src : List Nat} {i : Nat}
    (h : i < off ∨ off + min dlen src.length ≤ i) : memMove st off dlen src i = st i := by
  rw [memMove]
  rcases h with h | h
  · rw [if_neg]; omega
  · rw [if_neg]; omega

theorem memMove_inside {st : Nat → Nat} {off dlen : Nat} {src : List Nat} {i : Nat}
    (h1 : off ≤ i) (h2 : i < off + min dlen src.length) :
    memMove st off dlen src i = src.getD (i - off) 0 := by
  rw [memMove, if_pos ⟨h1, h2⟩]

theorem decode64_eq (st : Nat → Nat) (off : Nat) :
    decode64 st off = st (off + 0) + 256 * (st (off + 1) + 256 * (st (off + 2) +
      256 * (st (off + 3) + 256 * (st (off + 4) + 256 * (st (off + 5) +
      256 * (st (off + 6) + 256 * (st (off + 7) + 256 * 0))))))) := rfl

theorem decode64_congr {st1 st2 : Nat → Nat} {off : Nat}
    (h : ∀ i, i < 8 → st1 (off + i) = st2 (off + i)) : decode64 st1 off = decode64 st2 off := by
  rw [decode64_eq, decode64_eq, h 0 (by norm_num), h 1 (by norm_num), h 2 (by norm_num),
    h 3 (by norm_num), h 4 (by norm_num), h 5 (by norm_num), h 6 (by norm_num),
    h 7 (by norm_num)]

theorem foldr_bytes (n : Nat) : ∀ (k : Nat) (A : Nat),
    (List.range k).foldr (fun i acc => n / 256 ^ i % 256 + 256 * acc) A =
      n % 256 ^ k + A * 256 ^ k := by
  intro k
  induction k with
  | zero => intro A; simp [Nat.mod_one]
  | succ m ih =>
    intro A
    rw [List.range_succ, List.foldr_append]
    rw [ih]
    have h1 : n % 256 ^ (m + 1) = n % 256 ^ m + 256 ^ m * (n / 256 ^ m % 256) := by
      rw [pow_succ]
      exact Nat.mod_mul
    rw [h1]
    simp only [List.foldr_cons, List.foldr_nil]
    ring

theorem decode64_memMove_encode {st : Nat → Nat} (off n : Nat) :
    decode64 (memMove st off 8 (usize_to_bytearray n)) off = n % 2 ^ 64 := by
  have hpt : ∀ i, i < 8 → memMove st off 8 (usize_to_bytearray n) (off + i) =
      n / 256 ^ i % 256 := by
    intro i hi
    rw [memMove_inside (by omega) (by rw [usize_to_bytearray_length]; omega)]
    rw [Nat.add_sub_cancel_left]
    exact usize_to_bytearray_getD n hi
  have hc : decode64 (memMove st off 8 (usize_to_bytearray n)) off =
      decode64 (fun i => n / 256 ^ (i - off) % 256) off := by
    apply decode64_congr
    intro i hi
    rw [hpt i hi, Nat.add_sub_cancel_left]
  rw [hc]
  have : decode64 (fun i => n / 256 ^ (i - off) % 256) off =
      (List.range 8).foldr (fun i acc => n / 256 ^ i % 256 + 256 * acc) 0 := by
    rw [decode64_eq]
    simp only [Nat.add_sub_cancel_left]
    norm_num [List.range_succ]
  rw [this, foldr_bytes]
  norm_num

theorem decode64_memMove_away {st : Nat → Nat} {off off' dlen : Nat} {src : List Nat}
    (h : off' + 8 ≤ off ∨ off + min dlen src.length ≤ off') :
    decode64 (memMove st off dlen src) off' = decode64 st off' := by
  apply decode64_congr
  intro i hi
  apply memMove_outside
  omega

/-! ## The virtual page view: buffer overlay over the file -/

/-- `0` encodes an absent page link (as in `read_header`). -/
def optOf (n : Nat) : Option Nat := if n ≠ 0 then some n else none

/-- The decoded view of one page: header fields plus raw bytes. -/
structure PageV where
  num_records : Nat
  next : Option Nat
  prev : Option Nat
  recs : Nat → Nat

/-- Decode a page from its on-disk bytes. -/
def decodePageV (bytes : Nat → Nat) : PageV :=
  { num_records := decode64 bytes 0
    next := optOf (decode64 bytes 8)
    prev := optOf (decode64 bytes 16)
    recs := bytes }

/-- The authoritative content of page `p`: the in-memory buffer if `p`
is buffered, the file bytes otherwise. -/
def pageView (s : DbFile) (p : Nat) : PageV :=
  if s.page_id = some p then
    { num_records := s.buffer.num_records
      next := s.buffer.next
      prev := s.buffer.prev
      recs := s.buffer.storage }
  else decodePageV (s.file p)

/-- Page views agree on the header fields and the record area (bytes
from `HEADER_SIZE` on); the raw header bytes may differ, they are
shadowed by the decoded fields. -/
def PageVEq (a b : PageV) : Prop :=
  a.num_records = b.num_records ∧ a.next = b.next ∧ a.prev = b.prev ∧
    ∀ i, HEADER_SIZE ≤ i → a.recs i = b.recs i

theorem PageVEq_refl (a : PageV) : PageVEq a a := ⟨rfl, rfl, rfl, fun _ _ => rfl⟩

theorem PageVEq_trans {a b c : PageV} (h1 : PageVEq a b) (h2 : PageVEq b c) : PageVEq a c :=
  ⟨h1.1.trans h2.1, h1.2.1.trans h2.2.1, h1.2.2.1.trans h2.2.2.1,
   fun i hi => (h1.2.2.2 i hi).trans (h2.2.2.2 i hi)⟩

/-- All page views of `s'` agree with those of `s`. -/
def ViewsEq (s s' : DbFile) : Prop := ∀ q, PageVEq (pageView s' q) (pageView s q)

theorem ViewsEq_refl (s : DbFile) : ViewsEq s s := fun _ => PageVEq_refl _

theorem ViewsEq_trans {s s₁ s₂ : DbFile} (h1 : ViewsEq s s₁) (h2 : ViewsEq s₁ s₂) :
    ViewsEq s s₂ := fun q => PageVEq_trans (h2 q) (h1 q)

def optBound (o : Option Nat) : Prop := ∀ q, o = some q → 0 < q ∧ q < 2 ^ 64

def bufWF (s : DbFile) : Prop :=
  s.buffer.num_records < 2 ^ 64 ∧ optBound s.buffer.next ∧ optBound s.buffer.prev

/-- Buffer/file coherence: a clean buffer agrees with its disk page, a
dirty buffer has a page to flush to, header bytes are genuine bytes,
and the buffered page's fields fit in 64 bits (so flushing is
lossless for them). -/
def Coherent (s : DbFile) : Prop :=
  (s.dirty = true → s.page_id ≠ none) ∧
  (s.page_id ≠ none → bufWF s) ∧
  (∀ p, s.page_id = some p → s.dirty = false →
      s.buffer.num_records = decode64 (s.file p) 0 ∧
      s.buffer.next = optOf (decode64 (s.file p) 8) ∧
      s.buffer.prev = optOf (decode64 (s.file p) 16) ∧
      ∀ i, s.buffer.storage i = s.file p i) ∧
  (∀ p i, i < HEADER_SIZE → s.file p i < 256) ∧
  (∀ i, i < HEADER_SIZE → s.buffer.storage i < 256) ∧
  s.buffer.keysize = s.keysize ∧ s.buffer.valsize = s.valsize

theorem optOf_getD_mod {o : Option Nat} (hb : optBound o) :
    optOf (o.getD 0 % 2 ^ 64) = o := by
  cases o with
  | none => simp [optOf]
  | some q =>
    obtain ⟨h1, h2⟩ := hb q rfl
    simp only [Option.getD_some]
    rw [Nat.mod_eq_of_lt h2]
    rw [optOf, if_pos (by omega)]

theorem decode64_lt {st : Nat → Nat} {off : Nat} (h : ∀ i, i < 8 → st (off + i) < 256) :
    decode64 st off < 2 ^ 64 := by
  rw [decode64_eq]
  have h0 := h 0 (by norm_num)
  have h1 := h 1 (by norm_num)
  have h2 := h 2 (by norm_num)
  have h3 := h 3 (by norm_num)
  have h4 := h 4 (by norm_num)
  have h5 := h 5 (by norm_num)
  have h6 := h 6 (by norm_num)
  have h7 := h 7 (by norm_num)
  have : (2 : Nat) ^ 64 = 18446744073709551616 := by norm_num
  omega

theorem usize_to_bytearray_getD_lt {n i : Nat} (h : i < 8) :
    (usize_to_bytearray n).getD i 0 < 256 := by
  rw [usize_to_bytearray_getD n h]
  exact Nat.mod_lt _ (by norm_num)

theorem write_header_storage (s : DbFile) :
    decode64 (DbFile.write_header s).buffer.storage 0 = s.buffer.num_records % 2 ^ 64 ∧
    decode64 (DbFile.write_header s).buffer.storage 8 = s.buffer.next.getD 0 % 2 ^ 64 ∧
    decode64 (DbFile.write_header s).buffer.storage 16 = s.buffer.prev.getD 0 % 2 ^ 64 ∧
    (∀ i, HEADER_SIZE ≤ i → (DbFile.write_header s).buffer.storage i = s.buffer.storage i) ∧
    (∀ i, i < HEADER_SIZE → (DbFile.write_header s).buffer.storage i < 256) := by
  rw [DbFile.write_header]
  dsimp only
  have hlen : ∀ n : Nat, min 8 (usize_to_bytearray n).length = 8 := by
    intro n; rw [usize_to_bytearray_length]; omega
  refine ⟨?_, ?_, ?_, ?_, ?_⟩
  · rw [decode64_memMove_away (by rw [hlen]; omega), decode64_memMove_away (by rw [hlen]; omega),
      decode64_memMove_encode]
  · rw [decode64_memMove_away (by rw [hlen]; omega), decode64_memMove_encode]
  · rw [decode64_memMove_encode]
  · intro i hi
    rw [HEADER_SIZE] at hi
    rw [memMove_outside (by rw [hlen]; omega), memMove_outside (by rw [hlen]; omega),
      memMove_outside (by rw [hlen]; omega)]
  · intro i hi
    rw [HEADER_SIZE] at hi
    by_cases h16 : 16 ≤ i
    · rw [memMove_inside h16 (by rw [hlen]; omega)]
      exact usize_to_bytearray_getD_lt (by omega)
    · rw [memMove_outside (by rw [hlen]; omega)]
      by_cases h8 : 8 ≤ i
      · rw [memMove_inside h8 (by rw [hlen]; omega)]
        exact usize_to_bytearray_getD_lt (by omega)
      · rw [memMove_outside (by rw [hlen]; omega)]
        rw [memMove_inside (by omega) (by rw [hlen]; omega)]
        exact usize_to_bytearray_getD_lt (by omega)

/-- Core effect of `write_header` followed by `write_page` of the
buffered page (the body of `write_buffer`). -/
theorem flush_core {t : DbFile} {p : Nat} (hp : t.page_id = some p)
    (htd : t.dirty = false) (hwf : bufWF t)
    (hhdrF : ∀ q i, i < HEADER_SIZE → t.file q i < 256)
    (hkv1 : t.buffer.keysize = t.keysize) (hkv2 : t.buffer.valsize = t.valsize) :
    Coherent (t.write_header.write_page p t.write_header.buffer.storage) ∧
      (t.write_header.write_page p t.write_header.buffer.storage).page_id = some p ∧
      (t.write_header.write_page p t.write_header.buffer.storage).dirty = false ∧
      ViewsEq t (t.write_header.write_page p t.write_header.buffer.storage) ∧
      MetaEq t (t.write_header.write_page p t.write_header.buffer.storage) ∧
      (t.write_header.write_page p t.write_header.buffer.storage).log = t.log ++ [p] ∧
      (t.write_header.write_page p t.write_header.buffer.storage).buffer.num_records =
        t.buffer.num_records ∧
      (t.write_header.write_page p t.write_header.buffer.storage).buffer.next = t.buffer.next ∧
      (t.write_header.write_page p t.write_header.buffer.storage).buffer.prev = t.buffer.prev ∧
      (∀ q, q ≠ p → ∀ i,
        (t.write_header.write_page p t.write_header.buffer.storage).file q i = t.file q i) := by
  obtain ⟨hd0, hd8, hd16, hge, hlt⟩ := write_header_storage t
  have hfileP : ∀ i,
      (t.write_header.write_page p t.write_header.buffer.storage).file p i =
        t.write_header.buffer.storage i := by
    intro i
    simp only [DbFile.write_page, eq_self_iff_true, if_true]
  have hfileQ : ∀ q, q ≠ p → ∀ i,
      (t.write_header.write_page p t.write_header.buffer.storage).file q i = t.file q i := by
    intro q hq i
    simp only [DbFile.write_page]
    rw [if_neg hq]
    rfl
  have hbufeq : ∀ i,
      (t.write_header.write_page p t.write_header.buffer.storage).buffer.storage i =
        t.write_header.buffer.storage i := fun i => rfl
  have hpid : (t.write_header.write_page p t.write_header.buffer.storage).page_id = some p := hp
  have hdirty : (t.write_header.write_page p t.write_header.buffer.storage).dirty = false := htd
  refine ⟨?_, hpid, hdirty, ?_, ⟨rfl, rfl, rfl, rfl, rfl, rfl, rfl⟩, rfl, rfl, rfl, rfl, hfileQ⟩
  · refine ⟨fun hh => by rw [hpid]; simp, ?_, ?_, ?_, ?_, hkv1, hkv2⟩
    · intro _
      exact ⟨hwf.1, hwf.2.1, hwf.2.2⟩
    · intro q hq _
      have hq2 : p = q := Option.some_inj.mp (hpid.symm.trans hq)
      subst hq2
      refine ⟨?_, ?_, ?_, ?_⟩
      · rw [decode64_congr fun i _ => hfileP (0 + i), hd0, Nat.mod_eq_of_lt hwf.1]
        rfl
      · rw [decode64_congr fun i _ => hfileP (8 + i), hd8, optOf_getD_mod hwf.2.1]
        rfl
      · rw [decode64_congr fun i _ => hfileP (16 + i), hd16, optOf_getD_mod hwf.2.2]
        rfl
      · intro i
        rw [hbufeq i, hfileP i]
    · intro q i hi
      by_cases hq : q = p
      · subst hq
        rw [hfileP i]
        exact hlt i hi
      · rw [hfileQ q hq i]
        exact hhdrF q i hi
    · intro i hi
      rw [hbufeq i]
      exact hlt i hi
  · intro q
    by_cases hq : q = p
    · subst hq
      rw [pageView, pageView, if_pos hp, if_pos hpid]
      exact ⟨rfl, rfl, rfl, fun i hi => (hbufeq i).trans (hge i hi)⟩
    · have hnq : ¬ t.page_id = some q := by
        rw [hp]
        intro hcon
        exact hq (Option.some_inj.mp hcon).symm
      have hnq2 : ¬ (t.write_header.write_page p t.write_header.buffer.storage).page_id =
          some q := hnq
      have hFq : (t.write_header.write_page p t.write_header.buffer.storage).file q =
          t.file q := funext (hfileQ q hq)
      rw [pageView, pageView, if_neg hnq, if_neg hnq2, hFq]
      exact PageVEq_refl _

theorem optBound_optOf {n : Nat} (h : n < 2 ^ 64) : optBound (optOf n) := by
  intro q hq
  rw [optOf] at hq
  split at hq
  · cases hq
    constructor <;> omega
  · exact Option.noConfusion hq

theorem write_buffer_eq {s : DbFile} {p : Nat} (hp : s.page_id = some p) :
    s.write_buffer = some (({ s with dirty := false }).write_header.write_page p
      ({ s with dirty := false }).write_header.buffer.storage) := by
  simp only [DbFile.write_buffer]
  rw [hp]

/-- `write_buffer` on a buffered page flushes it: views and metadata are
preserved, the buffer header fields survive, the log grows by `p`, and
the state is coherent and clean afterwards. -/
theorem write_buffer_ok {s : DbFile} {p : Nat} (hp : s.page_id = some p)
    (hwf : bufWF s) (hhdrF : ∀ q i, i < HEADER_SIZE → s.file q i < 256)
    (hkv1 : s.buffer.keysize = s.keysize) (hkv2 : s.buffer.valsize = s.valsize) :
    ∃ s', s.write_buffer = some s' ∧ Coherent s' ∧ s'.page_id = some p ∧
      s'.dirty = false ∧ ViewsEq s s' ∧ MetaEq s s' ∧ s'.log = s.log ++ [p] ∧
      s'.buffer.num_records = s.buffer.num_records ∧
      s'.buffer.next = s.buffer.next ∧ s'.buffer.prev = s.buffer.prev ∧
      (∀ q, q ≠ p → ∀ i, s'.file q i = s.file q i) := by
  obtain ⟨h1, h2, h3, h4, h5, h6, h7, h8, h9, h10⟩ :=
    @flush_core { s with dirty := false } p hp rfl hwf hhdrF hkv1 hkv2
  exact ⟨_, write_buffer_eq hp, h1, h2, h3, h4,
    ⟨h5.btp, h5.fp, h5.fl, h5.nf, h5.rpp, h5.ks, h5.vs⟩, h6, h7, h8, h9, h10⟩

/-- The state after `get_page` reads page `pid` from the file into the
buffer (the miss path of `get_page`, after any flush). -/
def loadState (t : DbFile) (pid : Nat) : DbFile :=
  let t := { t with dirty := false }
  let t := { t with buffer := { t.buffer with storage := t.file pid, id := pid }
                    page_id := some pid }
  t.read_header

theorem get_page_eq_same {s : DbFile} {pid : Nat} (h : s.page_id = some pid) :
    s.get_page pid = some s := by
  simp only [DbFile.get_page]
  rw [if_pos h]

theorem get_page_eq_clean {s : DbFile} {pid : Nat} (h : ¬ s.page_id = some pid)
    (hd : s.dirty = false) : s.get_page pid = some (loadState s pid) := by
  simp only [DbFile.get_page]
  rw [if_neg h, hd]
  rfl

theorem get_page_eq_dirty {s s₁ : DbFile} {pid : Nat} (h : ¬ s.page_id = some pid)
    (hd : s.dirty = true) (hwb : s.write_buffer = some s₁) :
    s.get_page pid = some (loadState s₁ pid) := by
  simp only [DbFile.get_page]
  rw [if_neg h, hd]
  show s.write_buffer >>= _ = _
  rw [hwb]
  rfl

theorem loadState_next {t : DbFile} {pid : Nat} :
    (loadState t pid).buffer.next = optOf (decode64 (t.file pid) 8) := by
  simp only [loadState, DbFile.read_header, optOf]

theorem loadState_prev {t : DbFile} {pid : Nat} :
    (loadState t pid).buffer.prev = optOf (decode64 (t.file pid) 16) := by
  simp only [loadState, DbFile.read_header, optOf]

/-- Reading a page into the buffer from a clean state preserves all
views and metadata, and loads the decoded header of page `pid`. -/
theorem loadState_ok {t : DbFile} {pid : Nat} (hne : ¬ t.page_id = some pid)
    (htd : t.dirty = false) (hc : Coherent t) :
    Coherent (loadState t pid) ∧ (loadState t pid).page_id = some pid ∧
    (loadState t pid).dirty = false ∧ ViewsEq t (loadState t pid) ∧
    MetaEq t (loadState t pid) ∧ (loadState t pid).log = t.log ∧
    (loadState t pid).buffer.num_records = decode64 (t.file pid) 0 ∧
    (loadState t pid).buffer.next = optOf (decode64 (t.file pid) 8) ∧
    (loadState t pid).buffer.prev = optOf (decode64 (t.file pid) 16) ∧
    (∀ i, (loadState t pid).buffer.storage i = t.file pid i) ∧
    (∀ q i, (loadState t pid).file q i = t.file q i) := by
  have hhdr := hc.2.2.2.1
  have hfe : (loadState t pid).file = t.file := rfl
  refine ⟨⟨fun _ hn => Option.noConfusion hn, fun _ => ?_, ?_, hhdr, ?_,
      hc.2.2.2.2.2.1, hc.2.2.2.2.2.2⟩, rfl, rfl, ?_,
      ⟨rfl, rfl, rfl, rfl, rfl, rfl, rfl⟩, rfl, rfl, loadState_next, loadState_prev,
      fun _ => rfl, fun _ _ => rfl⟩
  · refine ⟨decode64_lt fun i _ => hhdr pid (0 + i) (by rw [HEADER_SIZE]; omega), ?_, ?_⟩
    · rw [loadState_next]
      exact optBound_optOf (decode64_lt fun i _ => hhdr pid (8 + i) (by rw [HEADER_SIZE]; omega))
    · rw [loadState_prev]
      exact optBound_optOf (decode64_lt fun i _ => hhdr pid (16 + i) (by rw [HEADER_SIZE]; omega))
  · intro p' hp' _
    have hpp : some pid = some p' := hp'
    cases Option.some_inj.mp hpp
    rw [hfe]
    exact ⟨rfl, loadState_next, loadState_prev, fun _ => rfl⟩
  · intro i _
    exact hhdr pid i (by assumption)
  · intro q
    by_cases hq : q = pid
    · subst hq
      have hpr : (loadState t q).page_id = some q := rfl
      rw [pageView, pageView, if_pos hpr, if_neg hne, loadState_next, loadState_prev]
      refine ⟨?_, ?_, ?_, fun i _ => ?_⟩ <;> dsimp only [decodePageV] <;> rfl
    · have hn1 : ¬ (loadState t pid).page_id = some q := by
        intro hcon
        have h2 : some pid = some q := hcon
        exact hq (Option.some_inj.mp h2).symm
      rw [pageView, pageView, if_neg hn1, hfe]
      by_cases htq : t.page_id = some q
      · rw [if_pos htq]
        obtain ⟨e1, e2, e3, e4⟩ := hc.2.2.1 q htq htd
        refine ⟨?_, ?_, ?_, fun i _ => ?_⟩ <;> dsimp only [decodePageV]
        · exact e1.symm
        · exact e2.symm
        · exact e3.symm
        · exact (e4 i).symm
      · rw [if_neg htq]
        exact PageVEq_refl _

/-- `get_page` succeeds from any coherent state: it buffers page `pid`,
preserves all page views and the metadata, and the buffer header fields
equal the authoritative view of page `pid`. -/
theorem get_page_ok {s : DbFile} {pid : Nat} (hc : Coherent s) :
    ∃ s', s.get_page pid = some s' ∧ Coherent s' ∧ s'.page_id = some pid ∧
      ViewsEq s s' ∧ MetaEq s s' ∧
      s'.buffer.num_records = (pageView s pid).num_records ∧
      s'.buffer.next = (pageView s pid).next ∧
      s'.buffer.prev = (pageView s pid).prev ∧
      (∀ i, HEADER_SIZE ≤ i → s'.buffer.storage i = (pageView s pid).recs i) ∧
      (s.dirty = false → s'.dirty = false) := by
  by_cases hsp : s.page_id = some pid
  · refine ⟨s, get_page_eq_same hsp, hc, hsp, ViewsEq_refl s, MetaEq_refl s, ?_, ?_, ?_, ?_,
      fun h => h⟩
    · rw [pageView, if_pos hsp]
    · rw [pageView, if_pos hsp]
    · rw [pageView, if_pos hsp]
    · intro i _
      rw [pageView, if_pos hsp]
  · have hpv : pageView s pid = decodePageV (s.file pid) := by
      rw [pageView, if_neg hsp]
    by_cases hdt : s.dirty = true
    · have hpn : s.page_id ≠ none := hc.1 hdt
      obtain ⟨p0, hpo⟩ : ∃ p, s.page_id = some p := by
        cases hpid : s.page_id with
        | none => exact absurd hpid hpn
        | some p => exact ⟨p, rfl⟩
      have hne0 : p0 ≠ pid := fun h => hsp (h ▸ hpo)
      obtain ⟨s₁, hwb, hc₁, hp₁, hd₁, hv₁, hm₁, hlog₁, hnr₁, hnx₁, hpv₁, hfq₁⟩ :=
        write_buffer_ok hpo (hc.2.1 hpn) hc.2.2.2.1 hc.2.2.2.2.2.1 hc.2.2.2.2.2.2
      have hne₁ : ¬ s₁.page_id = some pid := by
        rw [hp₁]
        exact fun hcon => hne0 (Option.some_inj.mp hcon)
      obtain ⟨lc, lp, ld, lv, lm, llog, l7, l8, l9, l10, l11⟩ := loadState_ok hne₁ hd₁ hc₁
      have hFile : s₁.file pid = s.file pid :=
        funext fun i => hfq₁ pid (fun h => hne0 h.symm) i
      refine ⟨loadState s₁ pid, get_page_eq_dirty hsp hdt hwb, lc, lp,
        ViewsEq_trans hv₁ lv, MetaEq_trans hm₁ lm, ?_, ?_, ?_, ?_, fun _ => ld⟩
      · rw [hpv]
        dsimp only [decodePageV]
        rw [l7, hFile]
      · rw [hpv]
        dsimp only [decodePageV]
        rw [l8, hFile]
      · rw [hpv]
        dsimp only [decodePageV]
        rw [l9, hFile]
      · intro i _
        rw [hpv]
        dsimp only [decodePageV]
        exact (l10 i).trans (hfq₁ pid (fun h => hne0 h.symm) i)
    · have hdf : s.dirty = false := by
        cases hd : s.dirty
        · rfl
        · exact absurd hd hdt
      obtain ⟨lc, lp, ld, lv, lm, llog, l7, l8, l9, l10, l11⟩ := loadState_ok hsp hdf hc
      refine ⟨loadState s pid, get_page_eq_clean hsp hdf, lc, lp, lv, lm, ?_, ?_, ?_, ?_,
        fun _ => ld⟩
      · rw [hpv]
        dsimp only [decodePageV]
        rw [l7]
      · rw [hpv]
        dsimp only [decodePageV]
        rw [l8]
      · rw [hpv]
        dsimp only [decodePageV]
        rw [l9]
      · intro i _
        rw [hpv]
        dsimp only [decodePageV]
        exact l10 i

/-- Following the spec's words for `search_bucket`: scan one page's live
slots and return the first full-key byte match with its row number and
value. -/
def specRowHit (key : List Nat) (recs : List (List Nat × List Nat)) :
    Option (Nat × List Nat) :=
  recs.enum.findSome? fun rkv => if slices_eq rkv.2.1 key then some (rkv.1, rkv.2.2) else none

/-- Following the spec's words for `search_bucket`: walk the chain's
pages in order; on the first page with a key match return its page id,
row number and value; when the key is absent, describe the last page of
the chain, with `row_num = some num_records` when that page has a free
slot and `row_num = none` when it is full, and no value. -/
def searchSpecResult (rpp : Nat) (key : List Nat)
    (chain : List (Nat × List (List Nat × List Nat))) : SearchResult :=
  match chain.findSome? (fun ip => (specRowHit key ip.2).map fun rv =>
      ({ page_id := some ip.1, row_num := some rv.1, val := some rv.2 } : SearchResult)) with
  | some r => r
  | none =>
    match chain.getLast? with
    | none => { page_id := none, row_num := none, val := none }
    | some ip =>
      { page_id := some ip.1
        row_num := if ip.2.length < rpp then some ip.2.length else none
        val := none }

theorem specRowHit_eq_findRow (key : List Nat) (recs : List (List Nat × List Nat)) :
    specRowHit key recs = DbFile.findRow recs key := rfl

theorem searchScan_spec (rpp : Nat) (key : List Nat)
    (pages : List (Nat × List (List Nat × List Nat))) :
    ∀ ffr : SearchResult,
    DbFile.searchScan rpp key pages ffr =
      match pages.findSome? (fun ip => (DbFile.findRow ip.2 key).map fun rv =>
          ({ page_id := some ip.1, row_num := some rv.1, val := some rv.2 } : SearchResult)) with
      | some r => r
      | none =>
        match pages.getLast? with
        | none => ffr
        | some ip =>
          { page_id := some ip.1
            row_num := if ip.2.length < rpp then some ip.2.length else none
            val := none } := by
  induction pages with
  | nil => intro ffr; rfl
  | cons hd rest ih =>
    obtain ⟨i, pr⟩ := hd
    intro ffr
    simp only [DbFile.searchScan, List.findSome?_cons]
    cases hfr : DbFile.findRow pr key with
    | some rv =>
      simp only [hfr, Option.map_some']
    | none =>
      simp only [hfr, Option.map_none']
      rw [ih]
      cases rest with
      | nil => rfl
      | cons b l =>
        rw [List.getLast?_cons_cons]
        cases hfs : List.findSome? (fun ip => (DbFile.findRow ip.2 key).map fun rv =>
            ({ page_id := some ip.1, row_num := some rv.1, val := some rv.2 } :
              SearchResult)) (b :: l) with
        | some r => rfl
        | none =>
          cases hgl : (b :: l).getLast? with
          | some ip => rfl
          | none => exact absurd (List.getLast?_eq_none_iff.mp hgl) (List.cons_ne_nil b l)

theorem search_bucket_spec_eq {fuel : Nat} {s : DbFile} {bucket_id : Nat}
    {key : List Nat} {s' : DbFile} {all : List (Nat × List (List Nat × List Nat))}
    (h : DbFile.all_records_in_bucket fuel s bucket_id = some (s', all)) :
    DbFile.search_bucket fuel s bucket_id key =
      some (s', searchSpecResult s'.records_per_page key all) := by
  simp only [DbFile.search_bucket, h, Option.bind_eq_bind, Option.some_bind]
  rw [searchScan_spec]
  simp only [searchSpecResult, specRowHit_eq_findRow]

/-- C6: `search_bucket` walks the chain from the head page and returns
exactly the spec's result: whenever the chain walk
(`all_records_in_bucket`) completes with the chain's per-page records
`all`, the search returns, on a full-key byte match, the first matching
page's id, row number and value; when the key is absent it returns the
last page of the chain with `row_num = some num_records` if that page
has a free slot and `row_num = none` if it is full, with no value
(`searchSpecResult` is written from the spec's words). -/
theorem c6_search_bucket_follows_spec {fuel : Nat} {s : DbFile} {bucket_id : Nat}
    {key : List Nat} {s' : DbFile} {all : List (Nat × List (List Nat × List Nat))}
    (h : DbFile.all_records_in_bucket fuel s bucket_id = some (s', all)) :
    DbFile.search_bucket fuel s bucket_id key =
      some (s', searchSpecResult s'.records_per_page key all) :=
  search_bucket_spec_eq h

/-- The completed chain walk behind the C6 witness. -/
def c6Walk : DbFile × List (Nat × List (List Nat × List Nat)) :=
  (DbFile.all_records_in_bucket 3 c9State.buckets 1).getD (DbFile.new 1 1, [])

/-- Witness for C6 at a concrete store: one record ([5] ↦ [7]) in
bucket 1. -/
theorem c6_witness :
    DbFile.all_records_in_bucket 3 c9State.buckets 1 = some c6Walk ∧
    DbFile.search_bucket 3 c9State.buckets 1 [5] =
      some (c6Walk.1, searchSpecResult c6Walk.1.records_per_page [5] c6Walk.2) :=
  ⟨rfl, c6_search_bucket_follows_spec rfl⟩

/-! ## C5: split mechanics -/

theorem reinsertAllAux_nitems (putf : LinHash → List Nat → List Nat → Option LinHash)
    (hputf : ∀ h k v h', putf h k v = some h' → h'.nitems = h.nitems + 1) :
    ∀ (l : List (List Nat × List Nat)) (h h' : LinHash),
      LinHash.reinsertAllAux putf h l = some h' → h'.nitems = h.nitems := by
  intro l
  induction l with
  | nil =>
    intro h h' he
    rw [LinHash.reinsertAllAux] at he
    cases he
    rfl
  | cons kv rest ih =>
    obtain ⟨k, v⟩ := kv
    intro h h' he
    rw [LinHash.reinsertAllAux] at he
    cases hp : putf h k v with
    | none => rw [hp] at he; exact absurd he (by simp)
    | some h₁ =>
      rw [hp] at he
      simp only [Option.bind_eq_bind, Option.some_bind] at he
      have h2 := hputf _ _ _ _ hp
      have h3 := ih _ _ he
      have h4 : ({ h₁ with nitems := h₁.nitems - 1 } : LinHash).nitems = h₁.nitems - 1 := rfl
      rw [h4] at h3
      omega

theorem maybe_splitAux_nitems (wf : Nat)
    (putf : LinHash → List Nat → List Nat → Option LinHash)
    (hputf : ∀ h k v h', putf h k v = some h' → h'.nitems = h.nitems + 1)
    (h h' : LinHash) (he : LinHash.maybe_splitAux wf putf h = some h') :
    h'.nitems = h.nitems := by
  rw [LinHash.maybe_splitAux] at he
  by_cases hs : h.split_needed = true
  · rw [if_pos hs] at he
    simp only [Option.bind_eq_bind] at he
    obtain ⟨d, ha, he⟩ := Option.bind_eq_some.mp he
    by_cases hc : 1 <<< h.nbits < h.nbuckets + 1
    · rw [if_pos hc] at he
      dsimp only at he
      obtain ⟨r, hcl, he⟩ := Option.bind_eq_some.mp he
      have hx := reinsertAllAux_nitems putf hputf r.2 _ h' he
      exact hx
    · rw [if_neg hc] at he
      dsimp only at he
      obtain ⟨r, hcl, he⟩ := Option.bind_eq_some.mp he
      have hx := reinsertAllAux_nitems putf hputf r.2 _ h' he
      exact hx
  · rw [if_neg hs] at he
    cases he
    rfl

/-- A successful `put` increases `nitems` by exactly one: the direct
insert counts once, the overflow retry defers to the recursive `put`,
and the split's reinsertions are `nitems`-neutral. -/
theorem put_nitems (hash : List Nat → Nat) :
    ∀ (fuel : Nat) (h : LinHash) (key val : List Nat) (h' : LinHash),
      LinHash.put hash fuel h key val = some h' → h'.nitems = h.nitems + 1 := by
  intro fuel
  induction fuel with
  | zero =>
    intro h k v h' he
    exact absurd he (by simp [LinHash.put])
  | succ f ih =>
    intro h k v h' he
    rw [LinHash.put] at he
    simp only [Option.bind_eq_bind] at he
    obtain ⟨r, hs, he⟩ := Option.bind_eq_some.mp he
    have hfin : ∀ h₃ : LinHash, ((LinHash.maybe_splitAux (f + 1) (LinHash.put hash f) h₃).bind
        fun y => some (LinHash.writeCtrl y)) = some h' → h'.nitems = h₃.nitems := by
      intro h₃ hms
      obtain ⟨h₄, hm4, he4⟩ := Option.bind_eq_some.mp hms
      simp only [Option.some_inj] at he4
      subst he4
      exact maybe_splitAux_nitems (f + 1) (LinHash.put hash f)
        (fun a b c d hp => ih a b c d hp) h₃ h₄ hm4
    cases hpi : r.2.page_id with
    | none =>
      rw [hpi] at he
      cases hrn : r.2.row_num with
      | none => rw [hrn] at he; exact absurd he (by simp)
      | some pos => rw [hrn] at he; exact absurd he (by simp)
    | some pg =>
      rw [hpi] at he
      cases hrn : r.2.row_num with
      | some pos =>
        rw [hrn] at he
        cases hvv : r.2.val with
        | none =>
          rw [hvv] at he
          dsimp only at he
          obtain ⟨d2, hw, he⟩ := Option.bind_eq_some.mp he
          simp only [Option.some_bind] at he
          exact hfin _ he
        | some ov => rw [hvv] at he; exact absurd he (by simp)
      | none =>
        rw [hrn] at he
        cases hvv : r.2.val with
        | none =>
          rw [hvv] at he
          dsimp only at he
          obtain ⟨ov, hov, he⟩ := Option.bind_eq_some.mp he
          obtain ⟨h₂, hput, he⟩ := Option.bind_eq_some.mp he
          have h21 := ih _ _ _ _ hput
          have h22 := hfin _ he
          have h23 : ({ h with buckets := ov.1 } : LinHash).nitems = h.nitems := rfl
          rw [h21, h23] at h22
          exact h22
        | some ov => rw [hvv] at he; exact absurd he (by simp)

/-- C5: when the post-insert load factor exceeds 0.8 (`split_needed`,
the exact-rational model of the source's f32 comparison), `maybe_split`
splits: `nbuckets` grows by one, a newly allocated page is appended to
the directory, `nbits` is incremented exactly when the new `nbuckets`
exceeds `2^nbits`, bucket `(nbuckets − 1) XOR 2^(nbits−1)` (new values)
is cleared and its records are reinserted from the grown state, and the
whole split leaves `nitems` unchanged; when the load factor does not
exceed 0.8 no split occurs and the state is returned unchanged. -/
theorem c5_split_mechanics (hash : List Nat → Nat) (fuel : Nat) (h h' : LinHash)
    (he : LinHash.maybe_split hash fuel h = some h') :
    (h.split_needed = false → h' = h) ∧
    (h.split_needed = true →
      ∃ sa pg r,
        h.buckets.allocate_new_page = some (sa, pg) ∧
        sa.bucket_to_page = h.buckets.bucket_to_page ∧
        DbFile.clear_bucket (fuel + 1) { sa with bucket_to_page := sa.bucket_to_page ++ [pg] }
            ((h.nbuckets + 1 - 1) ^^^
              2 ^ ((if 2 ^ h.nbits < h.nbuckets + 1 then h.nbits + 1 else h.nbits) - 1)) =
          some r ∧
        LinHash.reinsertAllAux (LinHash.put hash fuel)
            { h with
                nbuckets := h.nbuckets + 1
                nbits := if 2 ^ h.nbits < h.nbuckets + 1 then h.nbits + 1 else h.nbits
                buckets := r.1 }
            r.2 = some h') ∧
    h'.nitems = h.nitems := by
  have hnit : h'.nitems = h.nitems :=
    maybe_splitAux_nitems (fuel + 1) (LinHash.put hash fuel)
      (fun a b c d hp => put_nitems hash fuel a b c d hp) h h' he
  refine ⟨?_, ?_, hnit⟩
  · intro hsf
    rw [LinHash.maybe_split, LinHash.maybe_splitAux, hsf] at he
    simp only [Bool.false_eq_true, if_false] at he
    exact (Option.some_inj.mp he).symm
  · intro hst
    rw [LinHash.maybe_split, LinHash.maybe_splitAux, if_pos hst] at he
    simp only [Option.bind_eq_bind] at he
    obtain ⟨d, ha, he⟩ := Option.bind_eq_some.mp he
    obtain ⟨sa, pid, hap, hd'⟩ := allocate_new_bucket_spec ha
    have hbtp := (allocate_new_page_dir hap).btp
    subst hd'
    by_cases hc : 1 <<< h.nbits < h.nbuckets + 1
    · rw [if_pos hc] at he
      dsimp only at he
      obtain ⟨r, hcl, he⟩ := Option.bind_eq_some.mp he
      have hc2 : 2 ^ h.nbits < h.nbuckets + 1 := by rwa [Nat.one_shiftLeft] at hc
      refine ⟨sa, pid, r, hap, hbtp, ?_, ?_⟩
      · rw [if_pos hc2]
        rw [Nat.one_shiftLeft] at hcl
        exact hcl
      · rw [if_pos hc2]
        exact he
    · rw [if_neg hc] at he
      dsimp only at he
      obtain ⟨r, hcl, he⟩ := Option.bind_eq_some.mp he
      have hc2 : ¬ 2 ^ h.nbits < h.nbuckets + 1 := by rwa [Nat.one_shiftLeft] at hc
      refine ⟨sa, pid, r, hap, hbtp, ?_, ?_⟩
      · rw [if_neg hc2]
        rw [Nat.one_shiftLeft] at hcl
        exact hcl
      · rw [if_neg hc2]
        exact he

def c5M : LinHash := (LinHash.maybe_split hashC 3 c9State).getD c9State

/-- Witness for C5 at a concrete store below the load threshold. -/
theorem c5_witness :
    LinHash.maybe_split hashC 3 c9State = some c5M ∧
      (c9State.split_needed = false → c5M = c9State) ∧ c5M.nitems = c9State.nitems :=
  ⟨rfl, (c5_split_mechanics hashC 3 c9State c5M rfl).1,
    (c5_split_mechanics hashC 3 c9State c5M rfl).2.2⟩

/-! ## C1 infrastructure: slot-level byte lemmas -/

theorem readBytes_length (st : Nat → Nat) (off len : Nat) :
    (readBytes st off len).length = len := by
  simp [readBytes]

theorem readBytes_congr {st1 st2 : Nat → Nat} {off len : Nat}
    (h : ∀ i, i < len → st1 (off + i) = st2 (off + i)) :
    readBytes st1 off len = readBytes st2 off len := by
  unfold readBytes
  refine List.map_congr_left fun i hi => h i (List.mem_range.mp hi)

theorem map_getD_range (l : List Nat) :
    (List.range l.length).map (fun i => l.getD i 0) = l := by
  induction l with
  | nil => rfl
  | cons a t ih =>
    rw [List.length_cons, List.range_succ_eq_map, List.map_cons, List.map_map]
    simp only [List.getD_cons_zero]
    have hstep : (List.range t.length).map ((fun i => (a :: t).getD i 0) ∘ Nat.succ)
        = (List.range t.length).map (fun i => t.getD i 0) :=
      List.map_congr_left fun i _ => by simp [List.getD_cons_succ]
    rw [hstep, ih]

theorem readBytes_memMove_self {st : Nat → Nat} {off : Nat} {src : List Nat} {len : Nat}
    (h : src.length = len) : readBytes (memMove st off len src) off len = src := by
  subst h
  unfold readBytes
  calc (List.range src.length).map (fun i => memMove st off src.length src (off + i))
      = (List.range src.length).map (fun i => src.getD i 0) := by
        refine List.map_congr_left fun i hi => ?_
        have hi' := List.mem_range.mp hi
        rw [memMove_inside (by omega) (by omega)]
        congr 1
        omega
    _ = src := map_getD_range src

theorem readBytes_memMove_away {st : Nat → Nat} {off dlen : Nat} {src : List Nat}
    {off' len' : Nat} (h : off' + len' ≤ off ∨ off + min dlen src.length ≤ off') :
    readBytes (memMove st off dlen src) off' len' = readBytes st off' len' := by
  refine readBytes_congr fun i hi => ?_
  refine memMove_outside ?_
  rcases h with h | h
  · exact Or.inl (by omega)
  · exact Or.inr (by omega)

/-! ## C1 infrastructure: record slots -/

theorem read_record_eq (p : Page) (r : Nat) :
    p.read_record r =
      (readBytes p.storage (HEADER_SIZE + r * (p.keysize + p.valsize)) p.keysize,
       readBytes p.storage (HEADER_SIZE + r * (p.keysize + p.valsize) + p.keysize)
         p.valsize) := rfl

theorem write_record_storage (p : Page) (r : Nat) (k v : List Nat) :
    (p.write_record r k v).storage =
      memMove (memMove p.storage (HEADER_SIZE + r * (p.keysize + p.valsize)) p.keysize k)
        (HEADER_SIZE + r * (p.keysize + p.valsize) + p.keysize) p.valsize v := rfl

theorem read_record_write_record_same {p : Page} {r : Nat} {k v : List Nat}
    (hk : k.length = p.keysize) (hv : v.length = p.valsize) :
    (p.write_record r k v).read_record r = (k, v) := by
  rw [read_record_eq, write_record_storage]
  have hks : (p.write_record r k v).keysize = p.keysize := rfl
  have hvs : (p.write_record r k v).valsize = p.valsize := rfl
  rw [hks, hvs]
  rw [Prod.mk.injEq]
  constructor
  · show readBytes _ _ _ = k
    rw [readBytes_memMove_away (Or.inl (by omega)), readBytes_memMove_self hk]
  · show readBytes _ _ _ = v
    rw [readBytes_memMove_self hv]

theorem read_record_write_record_other {p : Page} {r r' : Nat} {k v : List Nat}
    (hne : r' ≠ r) :
    (p.write_record r k v).read_record r' = p.read_record r' := by
  rw [read_record_eq, write_record_storage, read_record_eq]
  have hks : (p.write_record r k v).keysize = p.keysize := rfl
  have hvs : (p.write_record r k v).valsize = p.valsize := rfl
  rw [hks, hvs]
  have ht : ∀ a b : Nat, a < b → (a + 1) * (p.keysize + p.valsize) ≤ b * (p.keysize + p.valsize) :=
    fun a b hab => Nat.mul_le_mul_right _ hab
  have hmin1 : min p.keysize k.length ≤ p.keysize := Nat.min_le_left _ _
  have hmin2 : min p.valsize v.length ≤ p.valsize := Nat.min_le_left _ _
  rcases Nat.lt_or_ge r' r with hlt | hge
  · have h1 := ht r' r hlt
    have h2 : (r' + 1) * (p.keysize + p.valsize) = r' * (p.keysize + p.valsize) +
        (p.keysize + p.valsize) := by ring
    rw [Prod.mk.injEq]
    constructor
    · show readBytes _ _ _ = readBytes _ _ _
      rw [readBytes_memMove_away (Or.inl (by omega)),
        readBytes_memMove_away (Or.inl (by omega))]
    · show readBytes _ _ _ = readBytes _ _ _
      rw [readBytes_memMove_away (Or.inl (by omega)),
        readBytes_memMove_away (Or.inl (by omega))]
  · have hlt : r < r' := by omega
    have h1 := ht r r' hlt
    have h2 : (r + 1) * (p.keysize + p.valsize) = r * (p.keysize + p.valsize) +
        (p.keysize + p.valsize) := by ring
    rw [Prod.mk.injEq]
    constructor
    · show readBytes _ _ _ = readBytes _ _ _
      rw [readBytes_memMove_away (Or.inr (by omega)),
        readBytes_memMove_away (Or.inr (by omega))]
    · show readBytes _ _ _ = readBytes _ _ _
      rw [readBytes_memMove_away (Or.inr (by omega)),
        readBytes_memMove_away (Or.inr (by omega))]

theorem pageRecordsOf_put_slot {p : Page} {k v : List Nat}
    (hk : k.length = p.keysize) (hv : v.length = p.valsize) :
    DbFile.pageRecordsOf ((p.incr_num_records).write_record p.num_records k v) =
      DbFile.pageRecordsOf p ++ [(k, v)] := by
  unfold DbFile.pageRecordsOf
  have hn : ((p.incr_num_records).write_record p.num_records k v).num_records =
      p.num_records + 1 := rfl
  rw [hn, List.range_succ, List.map_append, List.map_cons, List.map_nil]
  congr 1
  · refine List.map_congr_left fun i hi => ?_
    have hi' := List.mem_range.mp hi
    rw [read_record_write_record_other (by omega)]
    rfl
  · have hks : k.length = (p.incr_num_records).keysize := hk
    have hvs : v.length = (p.incr_num_records).valsize := hv
    rw [read_record_write_record_same hks hvs]

theorem slices_eq_iff (a b : List Nat) : slices_eq a b = true ↔ a = b := by
  simp [slices_eq]

theorem slices_eq_false {a b : List Nat} (h : a ≠ b) : slices_eq a b = false := by
  rw [← Bool.not_eq_true, slices_eq_iff]
  exact h

theorem findSomeRow_none {key : List Nat} :
    ∀ (l : List (Nat × (List Nat × List Nat))), (∀ x ∈ l, x.2.1 ≠ key) →
    (l.findSome? fun rkv =>
      if slices_eq rkv.2.1 key then some (rkv.1, rkv.2.2) else none) = none := by
  intro l
  induction l with
  | nil => intro _; rfl
  | cons x t ih =>
    intro h
    rw [List.findSome?_cons]
    rw [slices_eq_false (h x (List.mem_cons_self x t))]
    exact ih fun y hy => h y (List.mem_cons_of_mem x hy)

theorem findSomeRow_finds {key v : List Nat} :
    ∀ (l : List (Nat × (List Nat × List Nat))),
    (∃ x ∈ l, x.2.1 = key) → (∀ x ∈ l, x.2.1 = key → x.2.2 = v) →
    ∃ i, (l.findSome? fun rkv =>
      if slices_eq rkv.2.1 key then some (rkv.1, rkv.2.2) else none) = some (i, v) := by
  intro l
  induction l with
  | nil => intro hex _; exact absurd hex (by simp)
  | cons x t ih =>
    intro hex hdet
    rw [List.findSome?_cons]
    by_cases hx : x.2.1 = key
    · refine ⟨x.1, ?_⟩
      rw [(slices_eq_iff _ _).mpr hx, hdet x (List.mem_cons_self x t) hx]
      rfl
    · rw [slices_eq_false hx]
      refine ih ?_ fun y hy => hdet y (List.mem_cons_of_mem x hy)
      obtain ⟨y, hy, hyk⟩ := hex
      rcases List.mem_cons.mp hy with rfl | hyt
      · exact absurd hyk hx
      · exact ⟨y, hyt, hyk⟩

theorem findRow_eq_none {recs : List (List Nat × List Nat)} {key : List Nat}
    (h : ∀ kv ∈ recs, kv.1 ≠ key) : DbFile.findRow recs key = none := by
  unfold DbFile.findRow
  refine findSomeRow_none recs.enum fun x hx => ?_
  have hg := List.mem_enum_iff_get?.mp hx
  exact h x.2 (List.get?_mem hg)

theorem findRow_finds {recs : List (List Nat × List Nat)} {key v : List Nat}
    (hmem : (key, v) ∈ recs) (hdet : ∀ kv ∈ recs, kv.1 = key → kv.2 = v) :
    ∃ i, DbFile.findRow recs key = some (i, v) := by
  unfold DbFile.findRow
  refine findSomeRow_finds recs.enum ?_ fun x hx hxk => ?_
  · obtain ⟨n, hn⟩ := List.mem_iff_get?.mp hmem
    exact ⟨(n, (key, v)), List.mem_enum_iff_get?.mpr hn, rfl⟩
  · exact hdet x.2 (List.get?_mem (List.mem_enum_iff_get?.mp hx)) hxk

/-! ## C1 infrastructure: chains of pages -/

/-- The records of one page, read from its authoritative view. -/
def viewRecords (ks vs : Nat) (v : PageV) : List (List Nat × List Nat) :=
  (List.range v.num_records).map fun r =>
    (readBytes v.recs (HEADER_SIZE + r * (ks + vs)) ks,
     readBytes v.recs (HEADER_SIZE + r * (ks + vs) + ks) vs)

/-- `l` is a bucket chain: consecutive pages linked by their `next`
fields, the last page ending the chain (`next` absent or 0). -/
def chainOK (s : DbFile) : List Nat → Prop
  | [] => True
  | [p] => (pageView s p).next = none ∨ (pageView s p).next = some 0
  | p :: q :: rest => (pageView s p).next = some q ∧ q ≠ 0 ∧ chainOK s (q :: rest)

theorem viewRecords_congr {ks vs : Nat} {a b : PageV} (h : PageVEq a b) :
    viewRecords ks vs a = viewRecords ks vs b := by
  unfold viewRecords
  rw [h.1]
  refine List.map_congr_left fun r _ => ?_
  have h4 := h.2.2.2
  rw [Prod.mk.injEq]
  constructor
  · refine readBytes_congr fun i _ => h4 _ (by rw [HEADER_SIZE]; omega)
  · refine readBytes_congr fun i _ => h4 _ (by rw [HEADER_SIZE]; omega)

theorem chainOK_congr {s s' : DbFile} (hv : ViewsEq s s') :
    ∀ l, chainOK s l → chainOK s' l := by
  intro l
  induction l with
  | nil => intro _; trivial
  | cons p rest ih =>
    cases rest with
    | nil =>
      intro h
      rcases h with h | h
      · exact Or.inl (by rw [(hv p).2.1, h])
      · exact Or.inr (by rw [(hv p).2.1, h])
    | cons q rest' =>
      intro h
      exact ⟨by rw [(hv p).2.1]; exact h.1, h.2.1, ih h.2.2⟩

theorem pageRecords_eq_view {buf : Page} {v : PageV} {ks vs : Nat}
    (h7 : buf.num_records = v.num_records)
    (h10 : ∀ i, HEADER_SIZE ≤ i → buf.storage i = v.recs i)
    (hks : buf.keysize = ks) (hvs : buf.valsize = vs) :
    DbFile.pageRecordsOf buf = viewRecords ks vs v := by
  unfold DbFile.pageRecordsOf viewRecords
  rw [h7]
  refine List.map_congr_left fun r _ => ?_
  rw [read_record_eq, hks, hvs, Prod.mk.injEq]
  constructor
  · refine readBytes_congr fun i _ => h10 _ (by rw [HEADER_SIZE]; omega)
  · refine readBytes_congr fun i _ => h10 _ (by rw [HEADER_SIZE]; omega)

/-- Walking the rest of a chain with `allRecordsAux` collects exactly
the per-page records of the chain's views, preserves all views and
metadata, and leaves the last chain page buffered. -/
theorem allRecordsAux_walk :
    ∀ (rest : List Nat) (fuel : Nat) (s : DbFile) (p : Nat)
      (acc : List (Nat × List (List Nat × List Nat))),
      Coherent s → s.page_id = some p →
      s.buffer.num_records = (pageView s p).num_records →
      s.buffer.next = (pageView s p).next →
      (∀ i, HEADER_SIZE ≤ i → s.buffer.storage i = (pageView s p).recs i) →
      chainOK s (p :: rest) → rest.length < fuel →
      ∃ s', DbFile.allRecordsAux fuel s acc =
          some (s', acc ++ rest.map fun q =>
            (q, viewRecords s.keysize s.valsize (pageView s q))) ∧
        Coherent s' ∧ ViewsEq s s' ∧ MetaEq s s' ∧
        s'.page_id = some ((p :: rest).getLast (List.cons_ne_nil p rest)) ∧
        s'.buffer.num_records =
          (pageView s ((p :: rest).getLast (List.cons_ne_nil p rest))).num_records ∧
        s'.buffer.next = (pageView s ((p :: rest).getLast (List.cons_ne_nil p rest))).next ∧
        (∀ i, HEADER_SIZE ≤ i →
          s'.buffer.storage i =
            (pageView s ((p :: rest).getLast (List.cons_ne_nil p rest))).recs i) ∧
        (s.dirty = false → s'.dirty = false) := by
  intro rest
  induction rest with
  | nil =>
    intro fuel s p acc hc hp h7 h8 h10 hch hfuel
    cases fuel with
    | zero => omega
    | succ f =>
      refine ⟨s, ?_, hc, ViewsEq_refl s, MetaEq_refl s, hp, h7, h8, h10, fun h => h⟩
      rw [List.map_nil, List.append_nil, DbFile.allRecordsAux]
      rcases hch with hn | hn
      · rw [h8, hn]
      · rw [h8, hn]
        rfl
  | cons q rest' ih =>
    intro fuel s p acc hc hp h7 h8 h10 hch hfuel
    obtain ⟨hn, hq0, hch'⟩ := hch
    cases fuel with
    | zero => exact absurd hfuel (by simp)
    | succ f =>
      obtain ⟨s₁, hg, hc₁, hp₁, hv₁, hm₁, g7, g8, g9, g10, gd⟩ := @get_page_ok _ q hc
      have heq : DbFile.allRecordsAux (f + 1) s acc =
          (s.get_page q).bind fun t =>
            DbFile.allRecordsAux f t (acc ++ [(q, DbFile.pageRecordsOf t.buffer)]) := by
        rw [DbFile.allRecordsAux, h8, hn]
        dsimp only
        rw [if_neg hq0]
        rfl
      rw [hg] at heq
      simp only [Option.some_bind] at heq
      have hks₁ : s₁.buffer.keysize = s.keysize :=
        hc₁.2.2.2.2.2.1.trans hm₁.ks
      have hvs₁ : s₁.buffer.valsize = s.valsize :=
        hc₁.2.2.2.2.2.2.trans hm₁.vs
      have hpr : DbFile.pageRecordsOf s₁.buffer =
          viewRecords s.keysize s.valsize (pageView s q) :=
        pageRecords_eq_view g7 g10 hks₁ hvs₁
      have h7' : s₁.buffer.num_records = (pageView s₁ q).num_records :=
        g7.trans (hv₁ q).1.symm
      have h8' : s₁.buffer.next = (pageView s₁ q).next :=
        g8.trans (hv₁ q).2.1.symm
      have h10' : ∀ i, HEADER_SIZE ≤ i → s₁.buffer.storage i = (pageView s₁ q).recs i :=
        fun i hi => (g10 i hi).trans ((hv₁ q).2.2.2 i hi).symm
      have hch₁ : chainOK s₁ (q :: rest') := chainOK_congr hv₁ _ hch'
      obtain ⟨s'', heq₂, hc'', hv'', hm'', hpl'', b7, b8, b10, bd⟩ :=
        ih f s₁ q (acc ++ [(q, DbFile.pageRecordsOf s₁.buffer)]) hc₁ hp₁ h7' h8' h10' hch₁
          (by simpa using hfuel)
      have hlast : (q :: rest').getLast (List.cons_ne_nil q rest') =
          (p :: q :: rest').getLast (List.cons_ne_nil p (q :: rest')) := rfl
      have hmap : rest'.map (fun r => (r, viewRecords s₁.keysize s₁.valsize (pageView s₁ r))) =
          rest'.map (fun r => (r, viewRecords s.keysize s.valsize (pageView s r))) := by
        refine List.map_congr_left fun r _ => ?_
        rw [hm₁.ks, hm₁.vs, viewRecords_congr (hv₁ r)]
      refine ⟨s'', ?_, hc'', ViewsEq_trans hv₁ hv'', MetaEq_trans hm₁ hm'', ?_, ?_, ?_, ?_,
        fun hds => bd (gd hds)⟩
      · rw [heq, heq₂, hmap, hpr]
        simp only [List.map_cons, List.append_assoc, List.singleton_append,
          List.cons_append, List.nil_append, List.append_nil]
      · rw [← hlast]
        exact hpl''
      · rw [← hlast]
        exact b7.trans (hv₁ _).1
      · rw [← hlast]
        exact b8.trans (hv₁ _).2.1
      · intro i hi
        rw [← hlast]
        exact (b10 i hi).trans ((hv₁ _).2.2.2 i hi)

/-- `all_records_in_bucket` on a well-formed chain returns exactly the
chain's per-page records (from the page views), preserving views and
metadata and leaving the last chain page buffered. -/
theorem all_records_walk {s : DbFile} {b p0 : Nat} {rest : List Nat} {fuel : Nat}
    (hc : Coherent s) (hb : s.bucketToPage b = some p0)
    (hch : chainOK s (p0 :: rest)) (hfuel : rest.length < fuel) :
    ∃ s', DbFile.all_records_in_bucket fuel s b =
        some (s', (p0 :: rest).map fun q =>
          (q, viewRecords s.keysize s.valsize (pageView s q))) ∧
      Coherent s' ∧ ViewsEq s s' ∧ MetaEq s s' ∧
      s'.page_id = some ((p0 :: rest).getLast (List.cons_ne_nil p0 rest)) ∧
      s'.buffer.num_records =
        (pageView s ((p0 :: rest).getLast (List.cons_ne_nil p0 rest))).num_records ∧
      s'.buffer.next = (pageView s ((p0 :: rest).getLast (List.cons_ne_nil p0 rest))).next ∧
      (∀ i, HEADER_SIZE ≤ i →
        s'.buffer.storage i =
          (pageView s ((p0 :: rest).getLast (List.cons_ne_nil p0 rest))).recs i) ∧
      (s.dirty = false → s'.dirty = false) := by
  obtain ⟨s₁, hg, hc₁, hp₁, hv₁, hm₁, g7, g8, g9, g10, gd⟩ := @get_page_ok _ p0 hc
  have hks₁ : s₁.buffer.keysize = s.keysize := hc₁.2.2.2.2.2.1.trans hm₁.ks
  have hvs₁ : s₁.buffer.valsize = s.valsize := hc₁.2.2.2.2.2.2.trans hm₁.vs
  have hpr : DbFile.pageRecordsOf s₁.buffer =
      viewRecords s.keysize s.valsize (pageView s p0) :=
    pageRecords_eq_view g7 g10 hks₁ hvs₁
  have h7' : s₁.buffer.num_records = (pageView s₁ p0).num_records :=
    g7.trans (hv₁ p0).1.symm
  have h8' : s₁.buffer.next = (pageView s₁ p0).next := g8.trans (hv₁ p0).2.1.symm
  have h10' : ∀ i, HEADER_SIZE ≤ i → s₁.buffer.storage i = (pageView s₁ p0).recs i :=
    fun i hi => (g10 i hi).trans ((hv₁ p0).2.2.2 i hi).symm
  have hch₁ : chainOK s₁ (p0 :: rest) := chainOK_congr hv₁ _ hch
  obtain ⟨s'', heq₂, hc'', hv'', hm'', hpl'', b7, b8, b10, bd⟩ :=
    allRecordsAux_walk rest fuel s₁ p0 [(p0, DbFile.pageRecordsOf s₁.buffer)]
      hc₁ hp₁ h7' h8' h10' hch₁ hfuel
  have heq : DbFile.all_records_in_bucket fuel s b =
      DbFile.allRecordsAux fuel s₁ [(p0, DbFile.pageRecordsOf s₁.buffer)] := by
    rw [DbFile.all_records_in_bucket, DbFile.get_bucket]
    simp only [hb, Option.bind_eq_bind, Option.some_bind]
    rw [hg]
    simp only [Option.some_bind, hp₁]
  have hmap : rest.map (fun r => (r, viewRecords s₁.keysize s₁.valsize (pageView s₁ r))) =
      rest.map (fun r => (r, viewRecords s.keysize s.valsize (pageView s r))) := by
    refine List.map_congr_left fun r _ => ?_
    rw [hm₁.ks, hm₁.vs, viewRecords_congr (hv₁ r)]
  refine ⟨s'', ?_, hc'', ViewsEq_trans hv₁ hv'', MetaEq_trans hm₁ hm'', hpl''.trans ?_,
    ?_, ?_, ?_, fun hds => bd (gd hds)⟩
  · rw [heq, heq₂, hmap, hpr]
    simp only [List.map_cons, List.append_assoc, List.singleton_append,
      List.cons_append, List.nil_append, List.append_nil]
  · rfl
  · exact b7.trans (hv₁ _).1
  · exact b8.trans (hv₁ _).2.1
  · intro i hi
    exact (b10 i hi).trans ((hv₁ _).2.2.2 i hi)

theorem findSome?_none_of {α β : Type} (f : α → Option β) :
    ∀ l : List α, (∀ x ∈ l, f x = none) → l.findSome? f = none := by
  intro l
  induction l with
  | nil => intro _; rfl
  | cons x t ih =>
    intro h
    rw [List.findSome?_cons, h x (List.mem_cons_self x t)]
    exact ih fun y hy => h y (List.mem_cons_of_mem x hy)

theorem findSome?_ne_none {α β : Type} (f : α → Option β) :
    ∀ (l : List α) (x : α), x ∈ l → f x ≠ none → l.findSome? f ≠ none := by
  intro l
  induction l with
  | nil => intro x hx; exact absurd hx (by simp)
  | cons y t ih =>
    intro x hx hfx
    rw [List.findSome?_cons]
    cases hfy : f y with
    | some b =>
      intro hcon
      exact Option.noConfusion hcon
    | none =>
      rcases List.mem_cons.mp hx with rfl | hxt
      · exact absurd hfy hfx
      · exact ih x hxt hfx

theorem findSomeRow_some_mem {key : List Nat} :
    ∀ (l : List (Nat × (List Nat × List Nat))) {rv : Nat × List Nat},
    (l.findSome? fun rkv =>
      if slices_eq rkv.2.1 key then some (rkv.1, rkv.2.2) else none) = some rv →
    ∃ x ∈ l, x.2.1 = key ∧ x.2.2 = rv.2 := by
  intro l
  induction l with
  | nil => intro rv h; exact absurd h (by simp)
  | cons x t ih =>
    intro rv h
    rw [List.findSome?_cons] at h
    by_cases hx : x.2.1 = key
    · rw [(slices_eq_iff _ _).mpr hx, if_pos rfl] at h
      refine ⟨x, List.mem_cons_self x t, hx, ?_⟩
      have h2 := Option.some_inj.mp h
      rw [← h2]
    · rw [slices_eq_false hx, if_neg (by simp)] at h
      obtain ⟨y, hy, hyk, hyv⟩ := ih h
      exact ⟨y, List.mem_cons_of_mem x hy, hyk, hyv⟩

theorem findRow_some_mem {recs : List (List Nat × List Nat)} {key : List Nat}
    {rv : Nat × List Nat} (h : DbFile.findRow recs key = some rv) :
    ∃ kv ∈ recs, kv.1 = key ∧ kv.2 = rv.2 := by
  obtain ⟨x, hx, hxk, hxv⟩ := findSomeRow_some_mem recs.enum h
  exact ⟨x.2, List.get?_mem (List.mem_enum_iff_get?.mp hx), hxk, hxv⟩

theorem findRow_ne_none {recs : List (List Nat × List Nat)} {key : List Nat}
    {kv : List Nat × List Nat} (hkv : kv ∈ recs) (hk : kv.1 = key) :
    DbFile.findRow recs key ≠ none := by
  unfold DbFile.findRow
  obtain ⟨n, hn⟩ := List.mem_iff_get?.mp hkv
  refine findSome?_ne_none _ recs.enum (n, kv) (List.mem_enum_iff_get?.mpr hn) ?_
  rw [(slices_eq_iff _ _).mpr hk]
  simp

/-- When the key is on no page, the search result is the free-slot
descriptor of the last page. -/
theorem searchSpecResult_absent {rpp : Nat} {key : List Nat}
    {pages : List (Nat × List (List Nat × List Nat))}
    (hne : pages ≠ [])
    (h : ∀ ip ∈ pages, ∀ kv ∈ ip.2, kv.1 ≠ key) :
    searchSpecResult rpp key pages =
      { page_id := some (pages.getLast hne).1
        row_num := if (pages.getLast hne).2.length < rpp
          then some (pages.getLast hne).2.length else none
        val := none } := by
  unfold searchSpecResult
  have hfound : pages.findSome? (fun ip => (specRowHit key ip.2).map fun rv =>
      ({ page_id := some ip.1, row_num := some rv.1, val := some rv.2 } :
        SearchResult)) = none := by
    refine findSome?_none_of _ pages fun ip hip => ?_
    rw [specRowHit_eq_findRow, findRow_eq_none (h ip hip)]
    rfl
  rw [hfound, List.getLast?_eq_getLast_of_ne_nil hne]

/-- When the key is stored on some page and the key determines the
value, the search finds that value. -/
theorem searchSpecResult_found {rpp : Nat} {key v : List Nat} :
    ∀ pages : List (Nat × List (List Nat × List Nat)),
    (∃ ip ∈ pages, (key, v) ∈ ip.2) →
    (∀ ip ∈ pages, ∀ kv ∈ ip.2, kv.1 = key → kv.2 = v) →
    ∃ pg row, searchSpecResult rpp key pages =
      { page_id := some pg, row_num := some row, val := some v } := by
  intro pages
  induction pages with
  | nil => intro hmem _; exact absurd hmem (by simp)
  | cons ip rest ih =>
    intro hmem hdet
    unfold searchSpecResult
    rw [List.findSome?_cons]
    cases hfr : specRowHit key ip.2 with
    | some rv =>
      rw [specRowHit_eq_findRow] at hfr
      obtain ⟨kv, hkv, hk, hval⟩ := findRow_some_mem hfr
      have hv2 : rv.2 = v := by
        rw [← hval]
        exact hdet ip (List.mem_cons_self ip rest) kv hkv hk
      refine ⟨ip.1, rv.1, ?_⟩
      rw [Option.map_some', hv2]
    | none =>
      rw [Option.map_none']
      dsimp only
      have hmem' : ∃ jp ∈ rest, (key, v) ∈ jp.2 := by
        obtain ⟨jp, hjp, hjmem⟩ := hmem
        rcases List.mem_cons.mp hjp with rfl | hjr
        · exfalso
          rw [specRowHit_eq_findRow] at hfr
          exact findRow_ne_none hjmem rfl hfr
        · exact ⟨jp, hjr, hjmem⟩
      obtain ⟨pg, row, hres⟩ :=
        ih hmem' fun jp hjp kv hkv hk => hdet jp (List.mem_cons_of_mem ip hjp) kv hkv hk
      unfold searchSpecResult at hres
      cases hfs : rest.findSome? (fun jp => (specRowHit key jp.2).map fun rv =>
          ({ page_id := some jp.1, row_num := some rv.1, val := some rv.2 } :
            SearchResult)) with
      | none =>
        exfalso
        rw [hfs] at hres
        cases hgl : rest.getLast? with
        | none =>
          rw [hgl] at hres
          exact absurd (congrArg SearchResult.val hres) (by simp)
        | some jp =>
          rw [hgl] at hres
          exact absurd (congrArg SearchResult.val hres) (by simp)
      | some r =>
        rw [hfs] at hres
        dsimp only at hres
        exact ⟨pg, row, hres⟩

/-! ## C1 infrastructure: state operations at the view level -/

theorem write_record_incr_eq {s : DbFile} {pid row : Nat} {k v : List Nat}
    (hp : s.page_id = some pid) :
    DbFile.write_record_incr s pid row k v =
      some { s with dirty := true,
                    buffer := (s.buffer.incr_num_records).write_record row k v } := by
  rw [DbFile.write_record_incr, DbFile.write_record]
  have hp' : ({ s with buffer := s.buffer.incr_num_records } : DbFile).page_id =
      some pid := hp
  rw [get_page_eq_same hp']
  rfl

theorem write_ctrlpage_file0_bytes (s : DbFile) (t : Nat × Nat × Nat)
    (i : Nat) (hi : i < HEADER_SIZE) :
    (s.write_ctrlpage t).file 0 i < 256 := by
  have hfile : (s.write_ctrlpage t).file 0 i =
      memMove (memMove (memMove (memMove (memMove (memMove (memMove
        (s.file 0)
        0 8 (usize_to_bytearray t.1))
        8 8 (usize_to_bytearray t.2.1))
        16 8 (usize_to_bytearray t.2.2))
        24 8 (usize_to_bytearray s.free_page))
        32 8 (usize_to_bytearray (s.free_list.getD 0)))
        40 8 (usize_to_bytearray s.num_free))
        32 (PAGE_SIZE - 32) (usize_vec_to_bytevec s.bucket_to_page) i := by
    rw [DbFile.write_ctrlpage]
    simp only [DbFile.write_page, DbFile.get_ctrl_page, eq_self_iff_true, if_true]
  rw [HEADER_SIZE] at hi
  rw [hfile]
  rw [memMove_outside (Or.inl (by omega)), memMove_outside (Or.inl (by omega)),
    memMove_outside (Or.inl (by omega))]
  have hlen : ∀ n : Nat, (usize_to_bytearray n).length = 8 := usize_to_bytearray_length
  by_cases h16 : 16 ≤ i
  · rw [memMove_outside (Or.inl (by omega))]
    rw [memMove_inside h16 (by rw [hlen]; omega)]
    exact usize_to_bytearray_getD_lt (by omega)
  · rw [memMove_outside (Or.inl (by omega)), memMove_outside (by rw [hlen]; omega)]
    by_cases h8 : 8 ≤ i
    · rw [memMove_inside h8 (by rw [hlen]; omega)]
      exact usize_to_bytearray_getD_lt (by omega)
    · rw [memMove_outside (by rw [hlen]; omega)]
      rw [memMove_inside (by omega) (by rw [hlen]; omega)]
      exact usize_to_bytearray_getD_lt (by omega)

theorem write_ctrlpage_state (s : DbFile) (t : Nat × Nat × Nat) :
    (s.write_ctrlpage t).page_id = s.page_id ∧
    (s.write_ctrlpage t).dirty = s.dirty ∧
    (s.write_ctrlpage t).buffer = s.buffer ∧
    (∀ q, q ≠ 0 → ∀ i, (s.write_ctrlpage t).file q i = s.file q i) := by
  refine ⟨rfl, rfl, rfl, fun q hq i => ?_⟩
  rw [DbFile.write_ctrlpage]
  simp only [DbFile.write_page, DbFile.get_ctrl_page]
  rw [if_neg hq]

/-- `write_ctrlpage` preserves coherence and the views of all data
pages (the buffer never holds page 0 under the invariant). -/
theorem write_ctrlpage_ok {s : DbFile} (t : Nat × Nat × Nat) (hc : Coherent s)
    (hbuf : ∀ p, s.page_id = some p → p ≠ 0) :
    Coherent (s.write_ctrlpage t) ∧
    (∀ q, q ≠ 0 → PageVEq (pageView (s.write_ctrlpage t) q) (pageView s q)) := by
  obtain ⟨e1, e2, e3, e4⟩ := write_ctrlpage_state s t
  constructor
  · refine ⟨?_, ?_, ?_, ?_, ?_, ?_, ?_⟩
    · intro hd
      rw [e2] at hd
      rw [e1]
      exact hc.1 hd
    · intro hpn
      rw [e1] at hpn
      have hw := hc.2.1 hpn
      rw [bufWF, e3]
      exact hw
    · intro p hp hd
      rw [e1] at hp
      rw [e2] at hd
      obtain ⟨c1, c2, c3, c4⟩ := hc.2.2.1 p hp hd
      have hp0 : p ≠ 0 := hbuf p hp
      rw [e3]
      refine ⟨?_, ?_, ?_, fun i => ?_⟩
      · rw [c1, decode64_congr fun i _ => e4 p hp0 (0 + i)]
      · rw [c2, decode64_congr fun i _ => e4 p hp0 (8 + i)]
      · rw [c3, decode64_congr fun i _ => e4 p hp0 (16 + i)]
      · rw [c4 i, e4 p hp0 i]
    · intro p i hi
      by_cases hp0 : p = 0
      · subst hp0
        exact write_ctrlpage_file0_bytes s t i hi
      · rw [e4 p hp0 i]
        exact hc.2.2.2.1 p i hi
    · intro i hi
      rw [e3]
      exact hc.2.2.2.2.1 i hi
    · rw [e3]
      exact hc.2.2.2.2.2.1
    · rw [e3]
      exact hc.2.2.2.2.2.2
  · intro q hq
    rw [pageView, pageView, e1, e3]
    by_cases hpq : s.page_id = some q
    · rw [if_pos hpq, if_pos hpq]
      exact PageVEq_refl _
    · rw [if_neg hpq, if_neg hpq]
      have hfq : (s.write_ctrlpage t).file q = s.file q := funext (e4 q hq)
      rw [hfq]
      exact PageVEq_refl _

/-- Appending a record to the buffered page (`write_record_incr` at the
first free row): the page's view gains exactly the new record, all
other views are untouched, and coherence is preserved. -/
theorem write_record_incr_ok {s : DbFile} {pid : Nat} {k v : List Nat}
    (hc : Coherent s) (hp : s.page_id = some pid)
    (hn64 : s.buffer.num_records + 1 < 2 ^ 64)
    (hk : k.length = s.keysize) (hv : v.length = s.valsize) :
    ∃ s₂, DbFile.write_record_incr s pid s.buffer.num_records k v = some s₂ ∧
      Coherent s₂ ∧ s₂.page_id = some pid ∧ s₂.dirty = true ∧ MetaEq s s₂ ∧
      s₂.log = s.log ∧
      (∀ q, q ≠ pid → PageVEq (pageView s₂ q) (pageView s q)) ∧
      (pageView s₂ pid).num_records = s.buffer.num_records + 1 ∧
      (pageView s₂ pid).next = s.buffer.next ∧
      viewRecords s.keysize s.valsize (pageView s₂ pid) =
        DbFile.pageRecordsOf s.buffer ++ [(k, v)] := by
  have hkb : k.length = s.buffer.keysize := hk.trans hc.2.2.2.2.2.1.symm
  have hvb : v.length = s.buffer.valsize := hv.trans hc.2.2.2.2.2.2.symm
  refine ⟨_, write_record_incr_eq hp, ?_, hp, rfl, ⟨rfl, rfl, rfl, rfl, rfl, rfl, rfl⟩,
    rfl, ?_, ?_, ?_, ?_⟩
  · refine ⟨fun _ => by rw [hp]; simp, fun _ => ?_, fun p hp' hd => ?_, hc.2.2.2.1, ?_,
      hc.2.2.2.2.2.1, hc.2.2.2.2.2.2⟩
    · obtain ⟨_, bn, bp⟩ := hc.2.1 (by rw [hp]; simp)
      exact ⟨hn64, bn, bp⟩
    · exact absurd hd (by simp)
    · intro i hi
      have hst := write_record_storage (s.buffer.incr_num_records) s.buffer.num_records k v
      show ((s.buffer.incr_num_records).write_record s.buffer.num_records k v).storage i < 256
      rw [hst, HEADER_SIZE] at *
      rw [memMove_outside (Or.inl (by omega)), memMove_outside (Or.inl (by omega))]
      exact hc.2.2.2.2.1 i (by rw [HEADER_SIZE]; omega)
  · intro q hq
    have hn1 : ¬ ({ s with dirty := true, buffer := (s.buffer.incr_num_records).write_record s.buffer.num_records k v } : DbFile).page_id = some q := by
      show ¬ s.page_id = some q
      rw [hp]
      exact fun hcon => hq (Option.some_inj.mp hcon).symm
    have hn2 : ¬ s.page_id = some q := hn1
    rw [pageView, pageView, if_neg hn1, if_neg hn2]
    exact PageVEq_refl _
  · have hpp : ({ s with dirty := true, buffer := (s.buffer.incr_num_records).write_record s.buffer.num_records k v } : DbFile).page_id = some pid := hp
    rw [pageView, if_pos hpp]
    rfl
  · have hpp : ({ s with dirty := true, buffer := (s.buffer.incr_num_records).write_record s.buffer.num_records k v } : DbFile).page_id = some pid := hp
    rw [pageView, if_pos hpp]
    rfl
  · have hpp : ({ s with dirty := true, buffer := (s.buffer.incr_num_records).write_record s.buffer.num_records k v } : DbFile).page_id = some pid := hp
    rw [pageView, if_pos hpp]
    have hpr : DbFile.pageRecordsOf
        ((s.buffer.incr_num_records).write_record s.buffer.num_records k v) =
        viewRecords s.keysize s.valsize { num_records := ((s.buffer.incr_num_records).write_record s.buffer.num_records k v).num_records, next := ((s.buffer.incr_num_records).write_record s.buffer.num_records k v).next, prev := ((s.buffer.incr_num_records).write_record s.buffer.num_records k v).prev, recs := ((s.buffer.incr_num_records).write_record s.buffer.num_records k v).storage } :=
      pageRecords_eq_view rfl (fun _ _ => rfl) hc.2.2.2.2.2.1 hc.2.2.2.2.2.2
    rw [← hpr, pageRecordsOf_put_slot hkb hvb]

/-- Replacing the buffer by a zeroed page for `pid` and flushing it:
page `pid`'s view becomes empty, all other views are preserved.
Stated for any state `t` whose buffer is empty and whose file is that
of the coherent clean predecessor `s`. -/
theorem rebuffer_zero_ok {s t : DbFile} {pid : Nat}
    (hp : t.page_id = some pid) (hfile : t.file = s.file)
    (hb0 : t.buffer.num_records = 0) (hbn : t.buffer.next = none)
    (hbp : t.buffer.prev = none)
    (hkv1 : t.buffer.keysize = t.keysize) (hkv2 : t.buffer.valsize = t.valsize)
    (hmt : MetaEq s t) (hlt : t.log = s.log)
    (hc : Coherent s) (hd : s.dirty = false) :
    ∃ s₃, t.write_buffer = some s₃ ∧ Coherent s₃ ∧ s₃.page_id = some pid ∧
      s₃.dirty = false ∧ MetaEq s s₃ ∧ s₃.log = s.log ++ [pid] ∧
      (∀ q, q ≠ pid → PageVEq (pageView s₃ q) (pageView s q)) ∧
      (pageView s₃ pid).num_records = 0 ∧ (pageView s₃ pid).next = none := by
  have hwf : bufWF t := by
    refine ⟨by rw [hb0]; norm_num, fun q hq => ?_, fun q hq => ?_⟩
    · rw [hbn] at hq
      exact absurd hq (by simp)
    · rw [hbp] at hq
      exact absurd hq (by simp)
  have hhdrF : ∀ q i, i < HEADER_SIZE → t.file q i < 256 := by
    rw [hfile]
    exact hc.2.2.2.1
  obtain ⟨s₃, hwb, hc₃, hp₃, hd₃, hv₃, hm₃, hlog₃, b7, b8, b9, bf⟩ :=
    write_buffer_ok hp hwf hhdrF hkv1 hkv2
  refine ⟨s₃, hwb, hc₃, hp₃, hd₃, MetaEq_trans hmt hm₃, ?_, ?_, ?_, ?_⟩
  · rw [hlog₃, hlt]
  · intro q hq
    refine PageVEq_trans (hv₃ q) ?_
    have hn1 : ¬ t.page_id = some q := by
      rw [hp]
      exact fun hcon => hq (Option.some_inj.mp hcon).symm
    rw [pageView, if_neg hn1, hfile]
    by_cases hsq : s.page_id = some q
    · rw [pageView, if_pos hsq]
      obtain ⟨c1, c2, c3, c4⟩ := hc.2.2.1 q hsq hd
      refine ⟨?_, ?_, ?_, fun i _ => ?_⟩ <;> dsimp only [decodePageV]
      · exact c1.symm
      · exact c2.symm
      · exact c3.symm
      · exact (c4 i).symm
    · rw [pageView, if_neg hsq]
      exact PageVEq_refl _
  · rw [pageView, if_pos hp₃]
    dsimp only
    rw [b7, hb0]
  · rw [pageView, if_pos hp₃]
    dsimp only
    rw [b8, hbn]

theorem pageView_free_page (s : DbFile) (fp q : Nat) :
    pageView { s with free_page := fp } q = pageView s q := rfl

/-- A successful `allocate_new_page` from a coherent state whose
free-list pages have no successor: the returned page has an empty view,
all other views survive, the directory is untouched, `free_page`
advances by one, and the page came from the frontier or the free-list
head. -/
theorem allocate_new_page_ok {s s' : DbFile} {pid : Nat}
    (h : s.allocate_new_page = some (s', pid)) (hc : Coherent s)
    (hfree : ∀ f, s.free_list = some f → (pageView s f).next = none) :
    Coherent s' ∧ s'.page_id = some pid ∧ s'.dirty = false ∧ DirEq s s' ∧
      s'.free_page = s.free_page + 1 ∧ s'.free_page < 2 ^ 64 ∧
      (∀ q, q ≠ pid → PageVEq (pageView s' q) (pageView s q)) ∧
      (pageView s' pid).num_records = 0 ∧ (pageView s' pid).next = none ∧
      ((s.num_free = 0 ∧ pid = s.free_page ∧ s'.free_list = s.free_list ∧
          s'.num_free = s.num_free) ∨
        (s.free_list = some pid ∧ s'.free_list = none ∧ s'.num_free = s.num_free - 1)) := by
  obtain ⟨s₁, s₂, s₃, hwb, hbr, hwb₂, hlt64, hs'⟩ := allocate_new_page_spec h
  obtain ⟨p₀, hp₀⟩ : ∃ p₀, s.page_id = some p₀ := by
    cases hpid : s.page_id with
    | none =>
      rw [DbFile.write_buffer, hpid] at hwb
      exact absurd hwb (by simp)
    | some p => exact ⟨p, rfl⟩
  obtain ⟨s₁x, hwbx, hc₁, hp₁, hd₁, hv₁, hm₁, _, _, _, _, _⟩ :=
    write_buffer_ok hp₀ (hc.2.1 (by rw [hp₀]; simp)) hc.2.2.2.1
      hc.2.2.2.2.2.1 hc.2.2.2.2.2.2
  obtain rfl : s₁x = s₁ := Option.some_inj.mp (hwbx.symm.trans hwb)
  -- facts about s₂ in both branches
  have hbranch : Coherent s₂ ∧ s₂.dirty = false ∧
      (∀ q, PageVEq (pageView s₂ q) (pageView s q)) ∧
      s₂.free_page = s.free_page ∧
      ((s.num_free = 0 ∧ pid = s.free_page ∧ s₂.free_list = s.free_list ∧
          s₂.num_free = s.num_free) ∨
        (s.free_list = some pid ∧ s₂.free_list = none ∧
          s₂.num_free = s.num_free - 1)) := by
    rcases hbr with ⟨hz, rfl, hpid⟩ | ⟨hz, p, s₁', hfl, hgp, hs₂, hpid⟩
    · exact ⟨hc₁, hd₁, hv₁, hm₁.fp, Or.inl ⟨hm₁.nf ▸ hz, hpid.trans hm₁.fp,
        hm₁.fl, hm₁.nf⟩⟩
    · obtain ⟨s₁'x, hgpx, hc₁', hp₁', hv₁', hm₁', g7, g8, g9, g10, gd⟩ :=
        @get_page_ok s₁x p hc₁
      obtain rfl : s₁'x = s₁' := Option.some_inj.mp (hgpx.symm.trans hgp)
      have hfls : s.free_list = some pid := by
        rw [hpid, ← hm₁.fl]
        exact hfl
      have hnext : s₁'x.buffer.next = none := by
        rw [g8]
        refine ((hv₁ p).2.1).trans (hfree p ?_)
        rw [← hpid]
        exact hfls
      subst hs₂
      refine ⟨hc₁', gd hd₁, ?_, ?_, Or.inr ⟨hfls, ?_, ?_⟩⟩
      · intro q
        exact PageVEq_trans (hv₁' q) (hv₁ q)
      · show s₁'x.free_page = s.free_page
        rw [hm₁'.fp, hm₁.fp]
      · exact hnext
      · show s₁'x.num_free - 1 = s.num_free - 1
        rw [hm₁'.nf, hm₁.nf]
  obtain ⟨hc₂, hd₂, hv₂, hfp₂, hdisj⟩ := hbranch
  obtain ⟨s₃x, hwb₂x, hc₃, hp₃, hd₃, hm₃, _, hvq₃, hz7, hz8⟩ :=
    @rebuffer_zero_ok s₂ { s₂ with buffer := { Page.new s₂.keysize s₂.valsize with id := pid }, page_id := some pid, dirty := false } pid
      rfl rfl rfl rfl rfl rfl rfl ⟨rfl, rfl, rfl, rfl, rfl, rfl, rfl⟩ rfl hc₂ hd₂
  obtain rfl : s₃x = s₃ := Option.some_inj.mp (hwb₂x.symm.trans hwb₂)
  subst hs'
  refine ⟨hc₃, hp₃, hd₃, allocate_new_page_dir h, ?_, hlt64, ?_, ?_, ?_, ?_⟩
  · show s₃x.free_page + 1 = s.free_page + 1
    rw [hm₃.fp, hfp₂]
  · intro q hq
    rw [pageView_free_page]
    exact PageVEq_trans (hvq₃ q hq) (hv₂ q)
  · rw [pageView_free_page]
    exact hz7
  · rw [pageView_free_page]
    exact hz8
  · rcases hdisj with ⟨a, b, c, d⟩ | ⟨a, b, c⟩
    · refine Or.inl ⟨a, b, ?_, ?_⟩
      · show s₃x.free_list = s.free_list
        rw [hm₃.fl]
        exact c
      · show s₃x.num_free = s.num_free
        rw [hm₃.nf]
        exact d
    · refine Or.inr ⟨a, ?_, ?_⟩
      · show s₃x.free_list = none
        rw [hm₃.fl]
        exact b
      · show s₃x.num_free = s.num_free - 1
        rw [hm₃.nf]
        exact c

/-- Replacing the buffered page's in-memory header fields (storage and
record count unchanged) and flushing: only page `pid`'s view header
changes; its byte area and all other views survive. -/
theorem modbuf_flush_ok {s : DbFile} {pid : Nat} (b' : Page)
    (hc : Coherent s) (hp : s.page_id = some pid)
    (hn : b'.num_records = s.buffer.num_records)
    (hst : ∀ i, b'.storage i = s.buffer.storage i)
    (hks : b'.keysize = s.buffer.keysize) (hvs : b'.valsize = s.buffer.valsize)
    (hb1 : b'.num_records < 2 ^ 64) (hb2 : optBound b'.next) (hb3 : optBound b'.prev) :
    ∃ u, ({ s with buffer := b' } : DbFile).write_buffer = some u ∧ Coherent u ∧
      u.page_id = some pid ∧ u.dirty = false ∧ MetaEq s u ∧
      u.log = s.log ++ [pid] ∧
      (∀ q, q ≠ pid → PageVEq (pageView u q) (pageView s q)) ∧
      u.buffer.num_records = s.buffer.num_records ∧
      u.buffer.next = b'.next ∧ u.buffer.prev = b'.prev ∧
      (∀ i, HEADER_SIZE ≤ i → u.buffer.storage i = s.buffer.storage i) ∧
      (pageView u pid).num_records = s.buffer.num_records ∧
      (pageView u pid).next = b'.next ∧
      (∀ i, HEADER_SIZE ≤ i → (pageView u pid).recs i = s.buffer.storage i) := by
  have hp' : ({ s with buffer := b' } : DbFile).page_id = some pid := hp
  have hwf : bufWF { s with buffer := b' } := ⟨hb1, hb2, hb3⟩
  have hhdrF : ∀ q i, i < HEADER_SIZE → ({ s with buffer := b' } : DbFile).file q i < 256 :=
    hc.2.2.2.1
  have hkv1 : ({ s with buffer := b' } : DbFile).buffer.keysize =
      ({ s with buffer := b' } : DbFile).keysize := hks.trans hc.2.2.2.2.2.1
  have hkv2 : ({ s with buffer := b' } : DbFile).buffer.valsize =
      ({ s with buffer := b' } : DbFile).valsize := hvs.trans hc.2.2.2.2.2.2
  obtain ⟨u, hwb, hcu, hpu, hdu, hvu, hmu, hlogu, b7, b8, b9, bf⟩ :=
    write_buffer_ok hp' hwf hhdrF hkv1 hkv2
  have hbst : ∀ i, HEADER_SIZE ≤ i → u.buffer.storage i = s.buffer.storage i := by
    intro i hi
    have h1 : ∀ j, HEADER_SIZE ≤ j →
        u.buffer.storage j = ({ s with buffer := b' } : DbFile).buffer.storage j := by
      intro j hj
      have hq := (hvu pid).2.2.2 j hj
      rw [pageView, pageView, if_pos hpu, if_pos hp'] at hq
      exact hq
    exact (h1 i hi).trans (hst i)
  refine ⟨u, hwb, hcu, hpu, hdu, MetaEq_trans
    (⟨rfl, rfl, rfl, rfl, rfl, rfl, rfl⟩ : MetaEq s { s with buffer := b' }) hmu,
    hlogu, ?_, b7.trans hn, b8, b9, hbst, ?_, ?_, ?_⟩
  · intro q hq
    refine PageVEq_trans (hvu q) ?_
    have hn1 : ¬ ({ s with buffer := b' } : DbFile).page_id = some q := by
      show ¬ s.page_id = some q
      rw [hp]
      exact fun hcon => hq (Option.some_inj.mp hcon).symm
    have hn2 : ¬ s.page_id = some q := hn1
    rw [pageView, pageView, if_neg hn1, if_neg hn2]
    exact PageVEq_refl _
  · rw [pageView, if_pos hpu]
    dsimp only
    rw [b7, hn]
  · rw [pageView, if_pos hpu]
    dsimp only
    rw [b8]
  · intro i hi
    rw [pageView, if_pos hpu]
    dsimp only
    exact hbst i hi

/-- `allocate_overflow` appends a fresh empty page after `last`: the
new page's view is empty with `next` absent, `last`'s view keeps its
records and now links to the new page, and every other view
survives. -/
theorem allocate_overflow_ok {s s' : DbFile} {b last : Nat} {pr : Nat × Nat}
    (h : s.allocate_overflow b last = some (s', pr)) (hc : Coherent s)
    (hfree : ∀ f, s.free_list = some f → (pageView s f).next = none)
    (hfree2 : ∀ f, s.free_list = some f → 0 < f ∧ f < s.free_page)
    (hlast1 : 0 < last) (hlast2 : last < s.free_page) (hlast64 : last < 2 ^ 64)
    (hlast_nfl : s.free_list ≠ some last) :
    ∃ np, pr = (np, 0) ∧ np ≠ last ∧ Coherent s' ∧ s'.page_id = some last ∧
      s'.dirty = false ∧ DirEq s s' ∧
      s'.free_page = s.free_page + 1 ∧ s'.free_page < 2 ^ 64 ∧
      ((s.num_free = 0 ∧ np = s.free_page ∧ s'.free_list = s.free_list ∧
          s'.num_free = s.num_free) ∨
        (s.free_list = some np ∧ s'.free_list = none ∧ s'.num_free = s.num_free - 1)) ∧
      (∀ q, q ≠ np → q ≠ last → PageVEq (pageView s' q) (pageView s q)) ∧
      (pageView s' np).num_records = 0 ∧ (pageView s' np).next = none ∧
      (pageView s' last).num_records = (pageView s last).num_records ∧
      (pageView s' last).next = some np ∧
      (∀ i, HEADER_SIZE ≤ i → (pageView s' last).recs i = (pageView s last).recs i) := by
  rw [DbFile.allocate_overflow] at h
  simp only [Option.bind_eq_bind] at h
  obtain ⟨ap, hA, h⟩ := Option.bind_eq_some.mp h
  obtain ⟨sA, np⟩ := ap
  dsimp only at h
  obtain ⟨sB, hB, h⟩ := Option.bind_eq_some.mp h
  obtain ⟨hcA, hpA, hdA, hdirA, hfpA, hfpA64, hvA, hnA7, hnA8, hdisjA⟩ :=
    allocate_new_page_ok hA hc hfree
  obtain rfl : sA = sB := Option.some_inj.mp ((get_page_eq_same hpA).symm.trans hB)
  obtain ⟨sC, hC, h⟩ := Option.bind_eq_some.mp h
  have hbufA_n : sA.buffer.num_records = 0 := by
    rw [pageView, if_pos hpA] at hnA7
    exact hnA7
  have hbufA_x : sA.buffer.next = none := by
    rw [pageView, if_pos hpA] at hnA8
    exact hnA8
  have hnp_ne : np ≠ last := by
    rcases hdisjA with ⟨_, hfp, _, _⟩ | ⟨hfl, _, _⟩
    · omega
    · intro hcon
      exact hlast_nfl (hcon ▸ hfl)
  have hnp64 : np < 2 ^ 64 := by
    rcases hdisjA with ⟨_, hfp, _, _⟩ | ⟨hfl, _, _⟩
    · omega
    · have := hfree2 np hfl
      omega
  have hnp0 : 0 < np := by
    rcases hdisjA with ⟨hz, hfp, _, _⟩ | ⟨hfl, _, _⟩
    · omega
    · exact (hfree2 np hfl).1
  obtain ⟨u, hwbu, hcu, hpu, hdu, hmu, hlogu, hvqu, u7, u8, u9, u10, uv7, uv8, uv10⟩ :=
    modbuf_flush_ok { sA.buffer with prev := some last } hcA hpA rfl
      (fun _ => rfl) rfl rfl (by rw [hbufA_n]; norm_num)
      (by show optBound sA.buffer.next; rw [hbufA_x]; intro q hq; exact absurd hq (by simp))
      (by intro q hq; obtain rfl := Option.some_inj.mp hq; omega)
  obtain rfl : sC = u := Option.some_inj.mp (hC.symm.trans hwbu)
  obtain ⟨sD, hD, h⟩ := Option.bind_eq_some.mp h
  obtain ⟨sDx, hDx, hcD, hpD, hvD, hmD, d7, d8, d9, d10, dd⟩ := @get_page_ok sC last hcu
  obtain rfl : sD = sDx := Option.some_inj.mp (hD.symm.trans hDx)
  obtain ⟨sE, hE, h⟩ := Option.bind_eq_some.mp h
  have hlastC : ¬ sC.page_id = some last := by
    rw [hpu]
    exact fun hcon => hnp_ne (Option.some_inj.mp hcon)
  have hviewC : pageView sC last = decodePageV (sC.file last) := by
    rw [pageView, if_neg hlastC]
  have hD7lt : sD.buffer.num_records < 2 ^ 64 := by
    rw [d7, hviewC]
    dsimp only [decodePageV]
    exact decode64_lt fun i _ => hcu.2.2.2.1 last (0 + i) (by rw [HEADER_SIZE]; omega)
  have hD9b : optBound sD.buffer.prev := by
    rw [d9, hviewC]
    dsimp only [decodePageV]
    exact optBound_optOf (decode64_lt fun i _ =>
      hcu.2.2.2.1 last (16 + i) (by rw [HEADER_SIZE]; omega))
  obtain ⟨w, hwbw, hcw, hpw, hdw, hmw, hlogw, hvqw, w7, w8, w9, w10, wv7, wv8, wv10⟩ :=
    modbuf_flush_ok { sD.buffer with next := some np } hcD hpD rfl
      (fun _ => rfl) rfl rfl hD7lt
      (by intro q hq; obtain rfl := Option.some_inj.mp hq; omega) hD9b
  obtain rfl : w = sE := Option.some_inj.mp (hwbw.symm.trans hE)
  simp only [Option.some_inj, Prod.mk.injEq] at h
  obtain ⟨rfl, rfl⟩ := h
  have hlast_np : last ≠ np := Ne.symm hnp_ne
  refine ⟨np, rfl, hnp_ne, hcw, hpw, hdw, ?_, ?_, ?_, ?_, ?_, ?_, ?_, ?_, ?_, ?_⟩
  · exact ⟨by rw [hmw.btp, hmD.btp, hmu.btp, hdirA.btp],
      by rw [hmw.rpp, hmD.rpp, hmu.rpp, hdirA.rpp],
      by rw [hmw.ks, hmD.ks, hmu.ks, hdirA.ks],
      by rw [hmw.vs, hmD.vs, hmu.vs, hdirA.vs]⟩
  · rw [hmw.fp, hmD.fp, hmu.fp, hfpA]
  · rw [hmw.fp, hmD.fp, hmu.fp]
    exact hfpA64
  · rcases hdisjA with ⟨a, bb, c, d⟩ | ⟨a, bb, c⟩
    · refine Or.inl ⟨a, bb, ?_, ?_⟩
      · rw [hmw.fl, hmD.fl, hmu.fl, c]
      · rw [hmw.nf, hmD.nf, hmu.nf, d]
    · refine Or.inr ⟨a, ?_, ?_⟩
      · rw [hmw.fl, hmD.fl, hmu.fl, bb]
      · rw [hmw.nf, hmD.nf, hmu.nf, c]
  · intro q hqn hql
    exact PageVEq_trans (hvqw q hql)
      (PageVEq_trans (hvD q) (PageVEq_trans (hvqu q hqn) (hvA q hqn)))
  · exact ((hvqw np hnp_ne).1.trans ((hvD np).1.trans (uv7.trans hbufA_n)))
  · exact ((hvqw np hnp_ne).2.1.trans ((hvD np).2.1.trans (uv8.trans hbufA_x)))
  · exact wv7.trans (d7.trans (((hvqu last hlast_np).1).trans ((hvA last hlast_np).1)))
  · exact wv8
  · intro i hi
    exact (wv10 i hi).trans ((d10 i hi).trans
      (((hvqu last hlast_np).2.2.2 i hi).trans ((hvA last hlast_np).2.2.2 i hi)))

theorem getLast_map_pt {α β : Type} (f : α → β) :
    ∀ (a : α) (l : List α),
      ((a :: l).map f).getLast? = some (f ((a :: l).getLast (List.cons_ne_nil a l))) := by
  intro a l
  induction l generalizing a with
  | nil => rfl
  | cons b t ih =>
    rw [List.map_cons, List.map_cons, List.getLast?_cons_cons, ← List.map_cons, ih b,
      List.getLast_cons_cons]

theorem bind_pair_eq_t {α β : Type} {X : Option α} {a : α} (g : α → β) (h : X = some a) :
    (X >>= fun u => some (g u)) = some (g a) := by
  rw [h]
  rfl

/-- View-level characterisation of `clear_bucket` on a coherent clean
state whose bucket `bid` heads the well-formed chain `p0 :: rest`: it
returns exactly the chain's records, resets the head page to an empty
view, pushes only the last chain page onto the free list (the temp link
is lost before any flush, the C3 defect), inflates `num_free` by the
chain length minus one, and leaves every other page's view unchanged. -/
theorem clear_bucket_ok {s : DbFile} {bid p0 : Nat} {rest : List Nat} {fuel : Nat}
    (hc : Coherent s) (hd : s.dirty = false)
    (hb : s.bucketToPage bid = some p0)
    (hch : chainOK s (p0 :: rest)) (hfuel : rest.length < fuel) :
    ∃ s', DbFile.clear_bucket fuel s bid =
        some (s', flatten ((p0 :: rest).map fun q =>
          (q, viewRecords s.keysize s.valsize (pageView s q)))) ∧
      Coherent s' ∧ s'.page_id = some p0 ∧ s'.dirty = false ∧
      DirEq s s' ∧ s'.free_page = s.free_page ∧
      (∀ q, q ≠ p0 → PageVEq (pageView s' q) (pageView s q)) ∧
      (pageView s' p0).num_records = 0 ∧ (pageView s' p0).next = none ∧
      ((rest = [] ∧ s'.free_list = s.free_list ∧ s'.num_free = s.num_free) ∨
        (rest ≠ [] ∧
          s'.free_list = some ((p0 :: rest).getLast (List.cons_ne_nil p0 rest)) ∧
          s'.num_free = s.num_free + rest.length)) := by
  obtain ⟨sW, hWeq, hcW, hvW, hmW, hplW, w7, w8, w10, wd⟩ := all_records_walk hc hb hch hfuel
  have hdW : sW.dirty = false := wd hd
  have hbW : sW.bucket_to_page.get? bid = some p0 := by
    rw [hmW.btp]
    exact hb
  unfold DbFile.clear_bucket
  rw [hWeq]
  simp only [Option.bind_eq_bind, Option.some_bind, List.length_map, List.length_cons,
    List.length_nil]
  cases rest with
  | nil =>
    have hcnil : ¬ (1 : Nat) < ([] : List Nat).length + 1 := by simp
    rw [if_neg hcnil]
    simp only [Option.bind_eq_bind, Option.some_bind, DbFile.bucketToPage]
    rw [hbW]
    simp only [Option.bind_eq_bind, Option.some_bind]
    obtain ⟨s₃, hwb, hc₃, hp₃, hd₃, hm₃, hlog₃, q7, q8, q9⟩ :=
      @rebuffer_zero_ok sW
        { sW with buffer := { Page.new sW.keysize sW.valsize with id := p0 }, page_id := some p0, dirty := false }
        p0 rfl rfl rfl rfl rfl rfl rfl ⟨rfl, rfl, rfl, rfl, rfl, rfl, rfl⟩ rfl hcW hdW
    refine ⟨s₃, ?_, hc₃, hp₃, hd₃, (MetaEq_trans hmW hm₃).toDirEq,
      (MetaEq_trans hmW hm₃).fp, ?_, q8, q9,
      Or.inl ⟨trivial, (MetaEq_trans hmW hm₃).fl, (MetaEq_trans hmW hm₃).nf⟩⟩
    · exact bind_pair_eq_t _ hwb
    · intro q hq
      exact PageVEq_trans (q7 q hq) (hvW q)
  | cons r1 rs =>
    have hccons : (1 : Nat) < (r1 :: rs).length + 1 := by simp
    rw [if_pos hccons]
    rw [getLast_map_pt _ p0 (r1 :: rs)]
    simp only [Option.bind_eq_bind, Option.some_bind]
    have hp1 : ({ sW with free_list := some ((p0 :: r1 :: rs).getLast (List.cons_ne_nil p0 (r1 :: rs))) } : DbFile).page_id = some ((p0 :: r1 :: rs).getLast (List.cons_ne_nil p0 (r1 :: rs))) := hplW
    rw [get_page_eq_same hp1]
    simp only [Option.bind_eq_bind, Option.some_bind, DbFile.bucketToPage]
    rw [hbW]
    simp only [Option.bind_eq_bind, Option.some_bind]
    obtain ⟨s₃, hwb, hc₃, hp₃, hd₃, hm₃, hlog₃, q7, q8, q9⟩ :=
      @rebuffer_zero_ok
        { sW with free_list := some ((p0 :: r1 :: rs).getLast (List.cons_ne_nil p0 (r1 :: rs))), num_free := sW.num_free + (rs.length + 1) }
        { sW with free_list := some ((p0 :: r1 :: rs).getLast (List.cons_ne_nil p0 (r1 :: rs))), num_free := sW.num_free + (rs.length + 1), buffer := { Page.new sW.keysize sW.valsize with id := p0 }, page_id := some p0, dirty := false }
        p0 rfl rfl rfl rfl rfl rfl rfl ⟨rfl, rfl, rfl, rfl, rfl, rfl, rfl⟩ rfl hcW hdW
    refine ⟨s₃, ?_, hc₃, hp₃, hd₃,
      ⟨hm₃.btp.trans hmW.btp, hm₃.rpp.trans hmW.rpp, hm₃.ks.trans hmW.ks, hm₃.vs.trans hmW.vs⟩,
      hm₃.fp.trans hmW.fp, ?_, q8, q9, Or.inr ⟨by simp, hm₃.fl, ?_⟩⟩
    · exact bind_pair_eq_t _ hwb
    · intro q hq
      exact PageVEq_trans (q7 q hq) (hvW q)
    · have h1 : s₃.num_free = sW.num_free + (rs.length + 1) := hm₃.nf
      rw [h1, hmW.nf, List.length_cons]

/-- `allocate_new_bucket` allocates a fresh (or recycled) page and
appends it to the bucket directory; everything else follows
`allocate_new_page`. -/
theorem allocate_new_bucket_ok {s s' : DbFile} (h : s.allocate_new_bucket = some s')
    (hc : Coherent s)
    (hfree : ∀ f, s.free_list = some f → (pageView s f).next = none) :
    ∃ pid, Coherent s' ∧ s'.page_id = some pid ∧ s'.dirty = false ∧
      s'.bucket_to_page = s.bucket_to_page ++ [pid] ∧
      s'.records_per_page = s.records_per_page ∧ s'.keysize = s.keysize ∧
      s'.valsize = s.valsize ∧
      s'.free_page = s.free_page + 1 ∧ s'.free_page < 2 ^ 64 ∧
      (∀ q, q ≠ pid → PageVEq (pageView s' q) (pageView s q)) ∧
      (pageView s' pid).num_records = 0 ∧ (pageView s' pid).next = none ∧
      ((s.num_free = 0 ∧ pid = s.free_page ∧ s'.free_list = s.free_list ∧
          s'.num_free = s.num_free) ∨
        (s.free_list = some pid ∧ s'.free_list = none ∧ s'.num_free = s.num_free - 1)) := by
  rw [DbFile.allocate_new_bucket] at h
  simp only [Option.bind_eq_bind] at h
  obtain ⟨ap, hA, h⟩ := Option.bind_eq_some.mp h
  obtain ⟨sA, pid⟩ := ap
  dsimp only at h
  obtain rfl : { sA with bucket_to_page := sA.bucket_to_page ++ [pid] } = s' :=
    Option.some_inj.mp h
  obtain ⟨hcA, hpA, hdA, hdirA, hfpA, hfpA64, hvA, hnA7, hnA8, hdisjA⟩ :=
    allocate_new_page_ok hA hc hfree
  refine ⟨pid, hcA, hpA, hdA, ?_, hdirA.rpp, hdirA.ks, hdirA.vs, hfpA, hfpA64,
    hvA, hnA7, hnA8, hdisjA⟩
  show sA.bucket_to_page ++ [pid] = s.bucket_to_page ++ [pid]
  rw [hdirA.btp]

theorem xor_two_pow_add {p t : Nat} (ht : t < 2 ^ p) : (2 ^ p + t) ^^^ 2 ^ p = t := by
  apply Nat.eq_of_testBit_eq
  intro i
  rw [Nat.testBit_xor]
  rcases lt_trichotomy i p with hip | rfl | hpi
  · rw [Nat.testBit_two_pow_add_gt hip, Nat.testBit_two_pow_of_ne (by omega)]
    simp
  · rw [Nat.testBit_two_pow_add_eq, Nat.testBit_two_pow_self,
      Nat.testBit_lt_two_pow ht]
    simp
  · have hpi2 : 2 ^ (p + 1) ≤ 2 ^ i := Nat.pow_le_pow_right (by norm_num) (by omega)
    have hpp : 2 ^ (p + 1) = 2 * 2 ^ p := by ring
    have h1 : 2 ^ p + t < 2 ^ i := by omega
    have h2 : t < 2 ^ i := by omega
    rw [Nat.testBit_lt_two_pow h1, Nat.testBit_two_pow_of_ne (by omega),
      Nat.testBit_lt_two_pow h2]
    simp

/-- The bucket-address computation of `LinHash::bucket` on a raw hash
value, with the mask rewritten as a mod (see `bucket_eq_mod`). -/
def mAddr (nbits nbuckets hv : Nat) : Nat :=
  if hv % 2 ^ nbits < nbuckets then hv % 2 ^ nbits
  else hv % 2 ^ nbits - 2 ^ (nbits - 1)

theorem bucket_eq_mAddr (hash : List Nat → Nat) (h : LinHash) (key : List Nat) :
    LinHash.bucket hash h key = mAddr h.nbits h.nbuckets (hash key) :=
  bucket_eq_mod hash h key

theorem mAddr_lt (b n hv : Nat) (h1 : 2 ^ (b - 1) < n) (h2 : n ≤ 2 ^ b) :
    mAddr b n hv < n := by
  have hb : 1 ≤ b := by
    rcases Nat.eq_zero_or_pos b with rfl | h
    · simp at h1 h2; omega
    · exact h
  have hpow : 2 ^ b = 2 * 2 ^ (b - 1) := by
    conv_lhs => rw [show b = (b - 1) + 1 by omega]
    rw [pow_succ']
  have hx : hv % 2 ^ b < 2 ^ b := Nat.mod_lt _ (Nat.two_pow_pos b)
  unfold mAddr
  by_cases hxn : hv % 2 ^ b < n
  · rw [if_pos hxn]
    exact hxn
  · rw [if_neg hxn]
    omega

/-- Split addressing, no-`nbits`-growth case (`n + 1 ≤ 2^b`): the split
bucket is `n − 2^(b−1)`; addresses outside it are unchanged by moving
from `n` to `n + 1` buckets, and keys addressed to it stay there or
move to the new bucket `n`. -/
theorem split_addr_nogrow (b n hv : Nat) (h1 : 2 ^ (b - 1) < n) (h2 : n + 1 ≤ 2 ^ b) :
    n ^^^ 2 ^ (b - 1) = n - 2 ^ (b - 1) ∧
    n ^^^ 2 ^ (b - 1) < n ∧
    (mAddr b n hv ≠ n ^^^ 2 ^ (b - 1) → mAddr b (n + 1) hv = mAddr b n hv) ∧
    (mAddr b n hv = n ^^^ 2 ^ (b - 1) →
      mAddr b (n + 1) hv = mAddr b n hv ∨ mAddr b (n + 1) hv = n) := by
  have hb : 1 ≤ b := by
    rcases Nat.eq_zero_or_pos b with rfl | h
    · simp at h1 h2; omega
    · exact h
  have hpow : 2 ^ b = 2 * 2 ^ (b - 1) := by
    conv_lhs => rw [show b = (b - 1) + 1 by omega]
    rw [pow_succ']
  have hp0 : 0 < 2 ^ (b - 1) := Nat.two_pow_pos _
  have hxor : n ^^^ 2 ^ (b - 1) = n - 2 ^ (b - 1) := by
    have hlt : n - 2 ^ (b - 1) < 2 ^ (b - 1) := by omega
    conv_lhs => rw [show n = 2 ^ (b - 1) + (n - 2 ^ (b - 1)) by omega]
    exact xor_two_pow_add hlt
  have hx : hv % 2 ^ b < 2 ^ b := Nat.mod_lt _ (Nat.two_pow_pos b)
  unfold mAddr
  by_cases hxn : hv % 2 ^ b < n
  · rw [if_pos hxn, if_pos (by omega)]
    exact ⟨hxor, by rw [hxor]; omega, fun _ => rfl, fun _ => Or.inl rfl⟩
  · rw [if_neg hxn]
    by_cases hxn1 : hv % 2 ^ b < n + 1
    · have hxeq : hv % 2 ^ b = n := by omega
      rw [if_pos hxn1]
      refine ⟨hxor, by rw [hxor]; omega, ?_, fun _ => Or.inr hxeq⟩
      intro hne
      exact absurd (by rw [hxeq, hxor] : hv % 2 ^ b - 2 ^ (b - 1) = n ^^^ 2 ^ (b - 1)) hne
    · rw [if_neg hxn1]
      exact ⟨hxor, by rw [hxor]; omega, fun _ => rfl, fun _ => Or.inl rfl⟩

/-- Split addressing, `nbits`-growth case (`n = 2^b`): the split bucket
is `0`; addresses other than `0` are unchanged by moving to `n + 1`
buckets over `b + 1` bits, and keys addressed to `0` stay there or move
to the new bucket `n`. -/
theorem split_addr_grow (b n hv : Nat) (hn : n = 2 ^ b) :
    n ^^^ 2 ^ (b + 1 - 1) = 0 ∧
    2 ^ (b + 1 - 1) < n + 1 ∧ n + 1 ≤ 2 ^ (b + 1) ∧
    (mAddr b n hv ≠ 0 → mAddr (b + 1) (n + 1) hv = mAddr b n hv) ∧
    (mAddr b n hv = 0 →
      mAddr (b + 1) (n + 1) hv = mAddr b n hv ∨ mAddr (b + 1) (n + 1) hv = n) := by
  subst hn
  have hx : hv % 2 ^ b < 2 ^ b := Nat.mod_lt _ (Nat.two_pow_pos b)
  have hpp : 2 ^ (b + 1) = 2 ^ b * 2 := pow_succ 2 b
  have hy : hv % 2 ^ (b + 1) = hv % 2 ^ b + 2 ^ b * (hv / 2 ^ b % 2) := by
    rw [hpp, Nat.mod_mul]
  have h01 : hv / 2 ^ b % 2 = 0 ∨ hv / 2 ^ b % 2 = 1 := Nat.mod_two_eq_zero_or_one _
  unfold mAddr
  simp only [Nat.add_sub_cancel]
  rw [if_pos hx]
  refine ⟨Nat.xor_self _, by omega, by omega, ?_, ?_⟩
  · intro hne
    rcases h01 with h0 | h1
    · rw [h0, Nat.mul_zero, Nat.add_zero] at hy
      rw [if_pos (by omega)]
      omega
    · rw [h1, Nat.mul_one] at hy
      rw [if_neg (by omega)]
      omega
  · intro heq
    rcases h01 with h0 | h1
    · rw [h0, Nat.mul_zero, Nat.add_zero] at hy
      rw [if_pos (by omega)]
      exact Or.inl (by omega)
    · rw [h1, Nat.mul_one] at hy
      rw [if_pos (by omega)]
      exact Or.inr (by omega)

/-- `viewRecords` reads only `num_records` and the record bytes. -/
theorem viewRecords_congr2 {ks vs : Nat} {a b : PageV}
    (h1 : a.num_records = b.num_records)
    (h4 : ∀ i, HEADER_SIZE ≤ i → a.recs i = b.recs i) :
    viewRecords ks vs a = viewRecords ks vs b := by
  unfold viewRecords
  rw [h1]
  refine List.map_congr_left fun r _ => ?_
  rw [Prod.mk.injEq]
  constructor
  · refine readBytes_congr fun i _ => h4 _ (by rw [HEADER_SIZE]; omega)
  · refine readBytes_congr fun i _ => h4 _ (by rw [HEADER_SIZE]; omega)

/-- If the chain walk loop succeeds, its fuel exceeded the remaining
chain length. -/
theorem allRecordsAux_fuel :
    ∀ (rest : List Nat) (fuel : Nat) (s : DbFile) (p : Nat)
      (acc : List (Nat × List (List Nat × List Nat)))
      (out : DbFile × List (Nat × List (List Nat × List Nat))),
      Coherent s → s.page_id = some p → chainOK s (p :: rest) →
      DbFile.allRecordsAux fuel s acc = some out → rest.length < fuel := by
  intro rest
  induction rest with
  | nil =>
    intro fuel s p acc out hc hp hch hout
    cases fuel with
    | zero => exact absurd hout (by simp [DbFile.allRecordsAux])
    | succ f => simp
  | cons q rest' ih =>
    intro fuel s p acc out hc hp hch hout
    obtain ⟨hn, hq0, hch'⟩ := hch
    cases fuel with
    | zero => exact absurd hout (by simp [DbFile.allRecordsAux])
    | succ f =>
      have hbn : s.buffer.next = some q := by
        rw [pageView, if_pos hp] at hn
        exact hn
      have heq : DbFile.allRecordsAux (f + 1) s acc =
          (s.get_page q).bind fun t =>
            DbFile.allRecordsAux f t (acc ++ [(q, DbFile.pageRecordsOf t.buffer)]) := by
        rw [DbFile.allRecordsAux, hbn]
        dsimp only
        rw [if_neg hq0]
        rfl
      rw [heq] at hout
      obtain ⟨s₁, hg, hrec⟩ := Option.bind_eq_some.mp hout
      obtain ⟨s₁x, hgx, hc₁, hp₁, hv₁, hm₁, _, _, _, _, _⟩ := @get_page_ok s q hc
      obtain rfl : s₁x = s₁ := Option.some_inj.mp (hgx.symm.trans hg)
      have := ih f s₁x q _ _ hc₁ hp₁ (chainOK_congr hv₁ _ hch') hrec
      simpa using Nat.succ_lt_succ this

/-- If `all_records_in_bucket` succeeds on a well-formed chain, the
fuel exceeded the chain's overflow length. -/
theorem all_records_fuel {s : DbFile} {b p0 : Nat} {rest : List Nat} {fuel : Nat}
    {out : DbFile × List (Nat × List (List Nat × List Nat))}
    (hc : Coherent s) (hb : s.bucketToPage b = some p0)
    (hch : chainOK s (p0 :: rest))
    (hout : DbFile.all_records_in_bucket fuel s b = some out) :
    rest.length < fuel := by
  rw [DbFile.all_records_in_bucket] at hout
  simp only [DbFile.get_bucket, hb, Option.bind_eq_bind, Option.some_bind] at hout
  obtain ⟨s₁, hg, hout⟩ := Option.bind_eq_some.mp hout
  obtain ⟨s₁x, hgx, hc₁, hp₁, hv₁, hm₁, _, _, _, _, _⟩ := @get_page_ok s p0 hc
  obtain rfl : s₁x = s₁ := Option.some_inj.mp (hgx.symm.trans hg)
  obtain ⟨pid, hpid, hout2⟩ := Option.bind_eq_some.mp hout
  obtain rfl : pid = p0 := Option.some_inj.mp ((hp₁.symm.trans hpid).symm)
  exact allRecordsAux_fuel rest fuel s₁x pid _ _ hc₁ hp₁ (chainOK_congr hv₁ _ hch) hout2

/-- The records of one bucket chain, page by page, from the views. -/
def chainRecs (s : DbFile) (ks vs : Nat) (l : List Nat) :
    List (List Nat × List Nat) :=
  flatten (l.map fun q => (q, viewRecords ks vs (pageView s q)))

/-- All records of the index, bucket by bucket. -/
def allPairs (h : LinHash) (chains : Nat → List Nat) :
    List (List Nat × List Nat) :=
  (List.range h.nbuckets).flatMap fun b =>
    chainRecs h.buckets h.buckets.keysize h.buckets.valsize (chains b)

/-- A sequence of `put` operations. -/
def runPuts (hash : List Nat → Nat) (fuel : Nat) :
    LinHash → List (List Nat × List Nat) → Option LinHash
  | h, [] => some h
  | h, (k, v) :: rest => do
    let h' ← LinHash.put hash fuel h k v
    runPuts hash fuel h' rest

/-- The state invariant of a live `LinHash` session, with `chains b`
the ghost list of page numbers of bucket `b`'s chain. -/
structure LHInv (hash : List Nat → Nat) (h : LinHash) (chains : Nat → List Nat) :
    Prop where
  coh : Coherent h.buckets
  dir : h.buckets.bucket_to_page.length = h.nbuckets
  bits_lo : 2 ^ (h.nbits - 1) < h.nbuckets
  bits_hi : h.nbuckets ≤ 2 ^ h.nbits
  rpp_pos : 1 ≤ h.buckets.records_per_page
  rpp64 : h.buckets.records_per_page + 1 < 2 ^ 64
  fp64 : h.buckets.free_page < 2 ^ 64
  buf_pos : ∀ p, h.buckets.page_id = some p → 0 < p
  chain_ne : ∀ b, b < h.nbuckets → chains b ≠ []
  chain_head : ∀ b, b < h.nbuckets → h.buckets.bucketToPage b = (chains b).head?
  chain_ok : ∀ b, b < h.nbuckets → chainOK h.buckets (chains b)
  chain_last : ∀ b, b < h.nbuckets → ∀ p, (chains b).getLast? = some p →
    (pageView h.buckets p).next = none
  chain_mem : ∀ b, b < h.nbuckets → ∀ p, p ∈ chains b →
    0 < p ∧ p < h.buckets.free_page
  chain_nodup : ∀ b, b < h.nbuckets → (chains b).Nodup
  chain_disj : ∀ b b', b < h.nbuckets → b' < h.nbuckets → b ≠ b' →
    ∀ p, p ∈ chains b → p ∉ chains b'
  page_cap : ∀ b, b < h.nbuckets → ∀ p, p ∈ chains b →
    (pageView h.buckets p).num_records ≤ h.buckets.records_per_page
  free_sound : ∀ f, h.buckets.free_list = some f →
    0 < f ∧ f < h.buckets.free_page ∧ (pageView h.buckets f).next = none ∧
    ∀ b, b < h.nbuckets → f ∉ chains b
  addr_ok : ∀ b, b < h.nbuckets →
    ∀ kv, kv ∈ chainRecs h.buckets h.buckets.keysize h.buckets.valsize (chains b) →
      mAddr h.nbits h.nbuckets (hash kv.1) = b ∧
      kv.1.length = h.buckets.keysize ∧ kv.2.length = h.buckets.valsize
  keys_nodup : ((allPairs h chains).map Prod.fst).Nodup

theorem decode64_zero (off : Nat) : decode64 (fun _ => 0) off = 0 := by
  rw [decode64_eq]

theorem decodePageV_zero_num : (decodePageV (fun _ => 0)).num_records = 0 := by
  show decode64 (fun _ => 0) 0 = 0
  rw [decode64_zero]

theorem decodePageV_zero_next : (decodePageV (fun _ => 0)).next = none := by
  show optOf (decode64 (fun _ => 0) 8) = none
  rw [decode64_zero]
  rfl

theorem viewRecords_zeroV (ks vs : Nat) :
    viewRecords ks vs (decodePageV (fun _ => 0)) = [] := by
  unfold viewRecords
  rw [decodePageV_zero_num]
  rfl

/-- A freshly opened index satisfies the invariant with the two
one-page chains `[1]` and `[2]`. -/
theorem openNew_inv (hash : List Nat → Nat) (ks vs : Nat)
    (h1 : 0 < ks + vs) (h2 : ks + vs ≤ PAGE_SIZE - HEADER_SIZE) :
    LHInv hash (LinHash.openNew ks vs) (fun b => [b + 1]) := by
  have hb2 : ∀ b : Nat, b < 2 → b = 0 ∨ b = 1 := by omega
  have hview : ∀ p : Nat, pageView (LinHash.openNew ks vs).buckets p =
      decodePageV (fun _ => 0) := by
    intro p
    rw [pageView, if_neg (fun hcon => Option.noConfusion hcon)]
    rfl
  have hnil : ∀ b : Nat,
      chainRecs (LinHash.openNew ks vs).buckets
        (LinHash.openNew ks vs).buckets.keysize
        (LinHash.openNew ks vs).buckets.valsize [b + 1] = [] := by
    intro b
    rw [chainRecs, List.map_cons, List.map_nil]
    unfold flatten
    simp only [List.flatMap_cons, List.flatMap_nil, List.append_nil]
    rw [hview (b + 1)]
    exact viewRecords_zeroV _ _
  refine ⟨?_, rfl, ?_, ?_, ?_, ?_, ?_, ?_, ?_, ?_, ?_, ?_, ?_, ?_, ?_, ?_, ?_, ?_, ?_⟩
  · exact ⟨fun hcon => Bool.noConfusion hcon, fun hcon => absurd rfl hcon,
      fun p hcon => Option.noConfusion hcon,
      fun p i _ => (by norm_num : (0 : Nat) < 256),
      fun i _ => (by norm_num : (0 : Nat) < 256), rfl, rfl⟩
  · norm_num [LinHash.openNew]
  · norm_num [LinHash.openNew]
  · show 1 ≤ (PAGE_SIZE - HEADER_SIZE) / (ks + vs)
    rw [Nat.one_le_div_iff h1]
    exact h2
  · show (PAGE_SIZE - HEADER_SIZE) / (ks + vs) + 1 < 2 ^ 64
    have := Nat.div_le_self (PAGE_SIZE - HEADER_SIZE) (ks + vs)
    rw [PAGE_SIZE, HEADER_SIZE] at this ⊢
    omega
  · show (3 : Nat) < 2 ^ 64
    norm_num
  · intro p hcon
    exact Option.noConfusion hcon
  · intro b _
    simp
  · intro b hb
    rcases hb2 b (by simpa [LinHash.openNew] using hb) with rfl | rfl <;> rfl
  · intro b _
    refine Or.inl ?_
    rw [hview (b + 1)]
    exact decodePageV_zero_next
  · intro b _ p hp
    simp only [List.getLast?_singleton, Option.some_inj] at hp
    subst hp
    rw [hview (b + 1)]
    exact decodePageV_zero_next
  · intro b hb p hp
    simp only [List.mem_singleton] at hp
    subst hp
    have hblt : b < 2 := by simpa [LinHash.openNew] using hb
    show 0 < b + 1 ∧ b + 1 < 3
    omega
  · intro b _
    simp
  · intro b b' _ _ hne p hp hp'
    simp only [List.mem_singleton] at hp hp'
    omega
  · intro b _ p hp
    simp only [List.mem_singleton] at hp
    subst hp
    rw [hview (b + 1), decodePageV_zero_num]
    exact Nat.zero_le _
  · intro f hcon
    exact Option.noConfusion hcon
  · intro b _ kv hkv
    rw [hnil b] at hkv
    exact absurd hkv (List.not_mem_nil kv)
  · have hap : allPairs (LinHash.openNew ks vs) (fun b => [b + 1]) = [] := by
      rw [allPairs]
      rw [show List.range (LinHash.openNew ks vs).nbuckets = [0, 1] from rfl]
      simp only [List.flatMap_cons, List.flatMap_nil, List.append_nil]
      rw [hnil 0, hnil 1]
      rfl
    rw [hap]
    exact List.nodup_nil

theorem flatMap_congr_t {α β : Type} {l : List α} {f g : α → List β}
    (h : ∀ a ∈ l, f a = g a) : l.flatMap f = l.flatMap g := by
  induction l with
  | nil => rfl
  | cons a t ih =>
    simp only [List.flatMap_cons]
    rw [h a (List.mem_cons_self a t), ih fun x hx => h x (List.mem_cons_of_mem a hx)]

theorem chainRecs_congr {s d : DbFile} {ks vs : Nat} (hv : ViewsEq s d)
    (l : List Nat) : chainRecs d ks vs l = chainRecs s ks vs l := by
  unfold chainRecs
  refine congrArg flatten (List.map_congr_left fun q _ => ?_)
  rw [viewRecords_congr (hv q)]

theorem chainRecs_congr_mem {s d : DbFile} {ks vs : Nat} {l : List Nat}
    (h : ∀ q ∈ l, viewRecords ks vs (pageView d q) = viewRecords ks vs (pageView s q)) :
    chainRecs d ks vs l = chainRecs s ks vs l := by
  unfold chainRecs
  exact congrArg flatten (List.map_congr_left fun q hq => by rw [h q hq])

theorem chainRecs_append (s : DbFile) (ks vs : Nat) (l₁ l₂ : List Nat) :
    chainRecs s ks vs (l₁ ++ l₂) = chainRecs s ks vs l₁ ++ chainRecs s ks vs l₂ := by
  unfold chainRecs flatten
  rw [List.map_append, List.flatMap_append]

theorem chainRecs_singleton (s : DbFile) (ks vs : Nat) (p : Nat) :
    chainRecs s ks vs [p] = viewRecords ks vs (pageView s p) := by
  unfold chainRecs flatten
  simp only [List.map_cons, List.map_nil, List.flatMap_cons, List.flatMap_nil,
    List.append_nil]

theorem chainRecs_last_append {s s' : DbFile} {ks vs : Nat} {l : List Nat} {lp : Nat}
    {x : List Nat × List Nat}
    (hne : l ≠ []) (hlast : l.getLast hne = lp) (hnd : l.Nodup)
    (hother : ∀ q ∈ l, q ≠ lp →
      viewRecords ks vs (pageView s' q) = viewRecords ks vs (pageView s q))
    (hlp : viewRecords ks vs (pageView s' lp) =
      viewRecords ks vs (pageView s lp) ++ [x]) :
    chainRecs s' ks vs l = chainRecs s ks vs l ++ [x] := by
  have hdec : l.dropLast ++ [lp] = l := by
    rw [← hlast]
    exact List.dropLast_append_getLast hne
  have hnotmem : lp ∉ l.dropLast := by
    have := hnd
    rw [← hdec] at this
    have hd := (List.nodup_append.mp this).2.2
    intro hcon
    exact hd hcon (List.mem_singleton_self lp)
  calc chainRecs s' ks vs l = chainRecs s' ks vs (l.dropLast ++ [lp]) := by rw [hdec]
    _ = chainRecs s' ks vs l.dropLast ++ chainRecs s' ks vs [lp] := chainRecs_append _ _ _ _ _
    _ = chainRecs s ks vs l.dropLast ++ (chainRecs s ks vs [lp] ++ [x]) := by
        rw [chainRecs_singleton, chainRecs_singleton, hlp]
        refine congrArg (· ++ _) (chainRecs_congr_mem fun q hq => ?_)
        refine hother q ?_ ?_
        · rw [← hdec]
          exact List.mem_append_left _ hq
        · exact fun hcon => hnotmem (hcon ▸ hq)
    _ = chainRecs s ks vs l ++ [x] := by
        rw [← List.append_assoc, ← chainRecs_append, hdec]

theorem mem_chainRecs_allPairs {h : LinHash} {chains : Nat → List Nat} {b : Nat}
    (hb : b < h.nbuckets) {kv : List Nat × List Nat}
    (hkv : kv ∈ chainRecs h.buckets h.buckets.keysize h.buckets.valsize (chains b)) :
    kv ∈ allPairs h chains := by
  rw [allPairs]
  exact List.mem_flatMap.mpr ⟨b, List.mem_range.mpr hb, hkv⟩

theorem flatMap_range_perm {β : Type} :
    ∀ (n bi : Nat), bi < n → ∀ (f g : Nat → List β) (x : β),
    (∀ b, b < n → b ≠ bi → g b = f b) → g bi = f bi ++ [x] →
    ((List.range n).flatMap g).Perm ((List.range n).flatMap f ++ [x]) := by
  intro n
  induction n with
  | zero => intro bi hbi; omega
  | succ m ih =>
    intro bi hbi f g x hother hbi'
    rw [List.range_succ, List.flatMap_append, List.flatMap_append,
      List.flatMap_cons, List.flatMap_nil, List.flatMap_cons, List.flatMap_nil,
      List.append_nil, List.append_nil]
    by_cases hbim : bi = m
    · subst hbim
      have hfg : (List.range bi).flatMap g = (List.range bi).flatMap f :=
        flatMap_congr_t fun b hb =>
          hother b (Nat.lt_succ_of_lt (List.mem_range.mp hb)) (Nat.ne_of_lt (List.mem_range.mp hb))
      rw [hfg, hbi', ← List.append_assoc]
    · have hperm := ih bi (by omega) f g x
        (fun b hb hne => hother b (Nat.lt_succ_of_lt hb) hne) hbi'
      have hgm : g m = f m := hother m (Nat.lt_succ_self m) (Ne.symm hbim)
      rw [hgm]
      have hp1 : ((List.range m).flatMap g ++ f m).Perm
          (((List.range m).flatMap f ++ [x]) ++ f m) := hperm.append_right _
      have hp2 : (((List.range m).flatMap f ++ [x]) ++ f m).Perm
          (((List.range m).flatMap f ++ f m) ++ [x]) := by
        rw [List.append_assoc, List.append_assoc]
        exact List.Perm.append_left _ List.perm_append_comm
      exact hp1.trans hp2

theorem chainOK_congr_next {s s' : DbFile} :
    ∀ l : List Nat,
      (∀ q ∈ l, (pageView s' q).next = (pageView s q).next) →
      chainOK s l → chainOK s' l := by
  intro l
  induction l with
  | nil => intro _ _; trivial
  | cons p t ih =>
    intro hn hch
    cases t with
    | nil =>
      rcases hch with h | h
      · exact Or.inl ((hn p (List.mem_singleton_self p)).trans h)
      · exact Or.inr ((hn p (List.mem_singleton_self p)).trans h)
    | cons q t' =>
      obtain ⟨h1, h2, h3⟩ := hch
      exact ⟨(hn p (List.mem_cons_self p _)).trans h1, h2,
        ih (fun r hr => hn r (List.mem_cons_of_mem p hr)) h3⟩

theorem viewRecords_length (ks vs : Nat) (v : PageV) :
    (viewRecords ks vs v).length = v.num_records := by
  unfold viewRecords
  rw [List.length_map, List.length_range]

theorem mem_chainRecs_of_page {s : DbFile} {ks vs : Nat} {l : List Nat} {q : Nat}
    (hq : q ∈ l) {kv : List Nat × List Nat}
    (hkv : kv ∈ viewRecords ks vs (pageView s q)) :
    kv ∈ chainRecs s ks vs l := by
  unfold chainRecs flatten
  exact List.mem_flatMap.mpr
    ⟨(q, viewRecords ks vs (pageView s q)), List.mem_map_of_mem _ hq, hkv⟩

theorem allPairs_congr {h : LinHash} {chains : Nat → List Nat} {d : DbFile}
    (hv : ViewsEq h.buckets d) (hks : d.keysize = h.buckets.keysize)
    (hvs : d.valsize = h.buckets.valsize) :
    allPairs { h with buckets := d } chains = allPairs h chains := by
  unfold allPairs
  refine flatMap_congr_t fun b _ => ?_
  show chainRecs d d.keysize d.valsize (chains b) = _
  rw [hks, hvs, chainRecs_congr hv]

/-- A views-and-metadata-preserving replacement of the disk state
preserves the session invariant with the same chains. -/
theorem LHInv_congr {hash : List Nat → Nat} {h : LinHash} {chains : Nat → List Nat}
    {d : DbFile} (inv : LHInv hash h chains)
    (hv : ViewsEq h.buckets d) (hm : MetaEq h.buckets d) (hc : Coherent d)
    (hbuf : ∀ p, d.page_id = some p → 0 < p) :
    LHInv hash { h with buckets := d } chains := by
  refine ⟨hc, ?_, inv.bits_lo, inv.bits_hi, ?_, ?_, ?_, hbuf, inv.chain_ne, ?_, ?_,
    ?_, ?_, inv.chain_nodup, inv.chain_disj, ?_, ?_, ?_, ?_⟩
  · rw [hm.btp]
    exact inv.dir
  · rw [hm.rpp]
    exact inv.rpp_pos
  · rw [hm.rpp]
    exact inv.rpp64
  · rw [hm.fp]
    exact inv.fp64
  · intro b hb
    rw [DbFile.bucketToPage, hm.btp]
    exact inv.chain_head b hb
  · intro b hb
    exact chainOK_congr hv _ (inv.chain_ok b hb)
  · intro b hb p hp
    exact (hv p).2.1.trans (inv.chain_last b hb p hp)
  · intro b hb p hp
    rw [hm.fp]
    exact inv.chain_mem b hb p hp
  · intro b hb p hp
    rw [(hv p).1, hm.rpp]
    exact inv.page_cap b hb p hp
  · intro f hf
    rw [hm.fl] at hf
    obtain ⟨a, b2, c, e⟩ := inv.free_sound f hf
    exact ⟨a, by rw [hm.fp]; exact b2, (hv f).2.1.trans c, e⟩
  · intro b hb kv hkv
    have hkv' : kv ∈ chainRecs h.buckets h.buckets.keysize h.buckets.valsize (chains b) := by
      have : chainRecs d d.keysize d.valsize (chains b) =
          chainRecs h.buckets h.buckets.keysize h.buckets.valsize (chains b) := by
        rw [hm.ks, hm.vs, chainRecs_congr hv]
      rw [← this]
      exact hkv
    obtain ⟨ha, hb2, hc2⟩ := inv.addr_ok b hb kv hkv'
    exact ⟨ha, by rw [hm.ks]; exact hb2, by rw [hm.vs]; exact hc2⟩
  · rw [allPairs_congr hv hm.ks hm.vs]
    exact inv.keys_nodup

/-- Appending a fresh record into the free slot of the last page of its
bucket's chain preserves the invariant and extends the logical
contents by that record. -/
theorem insert_arm {hash : List Nat → Nat} {h : LinHash} {chains : Nat → List Nat}
    (inv : LHInv hash h chains) {bi lp : Nat} {k v : List Nat} {s₁ d : DbFile}
    (hbi : bi < h.nbuckets)
    (hlp : (chains bi).getLast? = some lp)
    (haddr : mAddr h.nbits h.nbuckets (hash k) = bi)
    (hk : k.length = h.buckets.keysize) (hv2 : v.length = h.buckets.valsize)
    (hfresh : k ∉ (allPairs h chains).map Prod.fst)
    (hlt : (pageView h.buckets lp).num_records < h.buckets.records_per_page)
    (hv₁ : ViewsEq h.buckets s₁) (hm₁ : MetaEq h.buckets s₁)
    (hcd : Coherent d) (hpd : d.page_id = some lp)
    (hmd : MetaEq s₁ d)
    (hvd : ∀ q, q ≠ lp → PageVEq (pageView d q) (pageView s₁ q))
    (hdn7 : (pageView d lp).num_records = (pageView h.buckets lp).num_records + 1)
    (hdn8 : (pageView d lp).next = (pageView h.buckets lp).next)
    (hdrecs : viewRecords h.buckets.keysize h.buckets.valsize (pageView d lp) =
      viewRecords h.buckets.keysize h.buckets.valsize (pageView h.buckets lp) ++ [(k, v)]) :
    LHInv hash { h with buckets := d, nitems := h.nitems + 1 } chains ∧
    (allPairs { h with buckets := d, nitems := h.nitems + 1 } chains).Perm
      (allPairs h chains ++ [(k, v)]) := by
  have hmAll : MetaEq h.buckets d := MetaEq_trans hm₁ hmd
  have hne : chains bi ≠ [] := inv.chain_ne bi hbi
  have hlpmem : lp ∈ chains bi := by
    rw [List.getLast?_eq_getLast_of_ne_nil hne, Option.some_inj] at hlp
    rw [← hlp]
    exact List.getLast_mem hne
  have hgl : (chains bi).getLast hne = lp := by
    rw [List.getLast?_eq_getLast_of_ne_nil hne, Option.some_inj] at hlp
    exact hlp
  have hnextAll : ∀ q, (pageView d q).next = (pageView h.buckets q).next := by
    intro q
    by_cases hq : q = lp
    · subst hq
      exact hdn8
    · exact ((hvd q hq).2.1).trans ((hv₁ q).2.1)
  have hnumOther : ∀ q, q ≠ lp →
      (pageView d q).num_records = (pageView h.buckets q).num_records :=
    fun q hq => ((hvd q hq).1).trans ((hv₁ q).1)
  have hrecsOther : ∀ q, q ≠ lp →
      viewRecords h.buckets.keysize h.buckets.valsize (pageView d q) =
      viewRecords h.buckets.keysize h.buckets.valsize (pageView h.buckets q) :=
    fun q hq => (viewRecords_congr (hvd q hq)).trans (viewRecords_congr (hv₁ q))
  have hlp_notin : ∀ b, b < h.nbuckets → b ≠ bi → lp ∉ chains b :=
    fun b hb hbne => inv.chain_disj bi b hbi hb (fun hcon => hbne hcon.symm) lp hlpmem
  have hg_eq : ∀ b, b < h.nbuckets → b ≠ bi →
      chainRecs d h.buckets.keysize h.buckets.valsize (chains b) =
      chainRecs h.buckets h.buckets.keysize h.buckets.valsize (chains b) := by
    intro b hb hbne
    refine chainRecs_congr_mem fun q hq => ?_
    exact hrecsOther q (fun hcon => hlp_notin b hb hbne (hcon ▸ hq))
  have hg_bi : chainRecs d h.buckets.keysize h.buckets.valsize (chains bi) =
      chainRecs h.buckets h.buckets.keysize h.buckets.valsize (chains bi) ++ [(k, v)] :=
    chainRecs_last_append hne hgl (inv.chain_nodup bi hbi)
      (fun q hq hqlp => hrecsOther q hqlp) hdrecs
  have hperm : (allPairs { h with buckets := d, nitems := h.nitems + 1 } chains).Perm
      (allPairs h chains ++ [(k, v)]) := by
    unfold allPairs
    have hfix : ∀ b ∈ List.range h.nbuckets,
        chainRecs d d.keysize d.valsize (chains b) =
        chainRecs d h.buckets.keysize h.buckets.valsize (chains b) := by
      intro b _
      rw [hmAll.ks, hmAll.vs]
    rw [flatMap_congr_t hfix]
    exact flatMap_range_perm h.nbuckets bi hbi _ _ (k, v) hg_eq hg_bi
  have hkn : ((allPairs { h with buckets := d, nitems := h.nitems + 1 } chains).map
      Prod.fst).Nodup := by
    refine (List.Perm.nodup_iff (hperm.map Prod.fst)).mpr ?_
    rw [List.map_append]
    refine List.nodup_append.mpr ⟨inv.keys_nodup, List.nodup_singleton k, ?_⟩
    intro a ha hak
    simp only [List.map_cons, List.map_nil, List.mem_singleton] at hak
    subst hak
    exact hfresh ha
  refine ⟨⟨hcd, ?_, inv.bits_lo, inv.bits_hi, ?_, ?_, ?_, ?_, inv.chain_ne, ?_, ?_,
    ?_, ?_, inv.chain_nodup, inv.chain_disj, ?_, ?_, ?_, hkn⟩, hperm⟩
  · rw [hmAll.btp]
    exact inv.dir
  · rw [hmAll.rpp]
    exact inv.rpp_pos
  · rw [hmAll.rpp]
    exact inv.rpp64
  · rw [hmAll.fp]
    exact inv.fp64
  · intro p hp
    rw [hpd, Option.some_inj] at hp
    subst hp
    exact (inv.chain_mem bi hbi lp hlpmem).1
  · intro b hb
    rw [DbFile.bucketToPage, hmAll.btp]
    exact inv.chain_head b hb
  · intro b hb
    exact chainOK_congr_next _ (fun q _ => hnextAll q) (inv.chain_ok b hb)
  · intro b hb p hp
    rw [hnextAll p]
    exact inv.chain_last b hb p hp
  · intro b hb p hp
    rw [hmAll.fp]
    exact inv.chain_mem b hb p hp
  · intro b hb p hp
    rw [hmAll.rpp]
    by_cases hple : p = lp
    · subst hple
      rw [hdn7]
      omega
    · rw [hnumOther p hple]
      exact inv.page_cap b hb p hp
  · intro f hf
    rw [hmAll.fl] at hf
    obtain ⟨a, b2, c, e⟩ := inv.free_sound f hf
    refine ⟨a, by rw [hmAll.fp]; exact b2, ?_, e⟩
    rw [hnextAll f]
    exact c
  · intro b hb kv hkv
    have hkv2 : kv ∈ chainRecs d h.buckets.keysize h.buckets.valsize (chains b) := by
      rw [hmAll.ks, hmAll.vs] at hkv
      exact hkv
    by_cases hbbi : b = bi
    · subst hbbi
      rw [hg_bi] at hkv2
      rcases List.mem_append.mp hkv2 with hold | hnew
      · obtain ⟨ha, hb2, hc2⟩ := inv.addr_ok b hb kv hold
        exact ⟨ha, by rw [hmAll.ks]; exact hb2, by rw [hmAll.vs]; exact hc2⟩
      · rw [List.mem_singleton] at hnew
        subst hnew
        exact ⟨haddr, by rw [hmAll.ks]; exact hk, by rw [hmAll.vs]; exact hv2⟩
    · rw [hg_eq b hb hbbi] at hkv2
      obtain ⟨ha, hb2, hc2⟩ := inv.addr_ok b hb kv hkv2
      exact ⟨ha, by rw [hmAll.ks]; exact hb2, by rw [hmAll.vs]; exact hc2⟩

theorem viewRecords_nil_of_zero {ks vs : Nat} {v : PageV}
    (h : v.num_records = 0) : viewRecords ks vs v = [] := by
  unfold viewRecords
  rw [h]
  rfl

/-- Extending a chain by one page at its end. -/
theorem chainOK_snoc {s s' : DbFile} :
    ∀ (l : List Nat) (hne : l ≠ []) {np : Nat},
      l.Nodup →
      (∀ q ∈ l, q ≠ l.getLast hne → (pageView s' q).next = (pageView s q).next) →
      chainOK s l →
      (pageView s' (l.getLast hne)).next = some np → np ≠ 0 →
      ((pageView s' np).next = none ∨ (pageView s' np).next = some 0) →
      chainOK s' (l ++ [np]) := by
  intro l
  induction l with
  | nil => intro hne; exact absurd rfl hne
  | cons p t ih =>
    intro hne np hnd hother hch hlast hnp0 hnpnext
    cases t with
    | nil =>
      exact ⟨hlast, hnp0, hnpnext⟩
    | cons q t' =>
      obtain ⟨h1, h2, h3⟩ := hch
      have hgl : (q :: t').getLast (List.cons_ne_nil q t') =
          (p :: q :: t').getLast hne := rfl
      refine ⟨?_, h2, ?_⟩
      · have hpne : p ≠ (p :: q :: t').getLast hne := by
          have hglmem : (p :: q :: t').getLast hne ∈ q :: t' := by
            rw [← hgl]
            exact List.getLast_mem _
          intro hcon
          exact (List.nodup_cons.mp hnd).1 (hcon ▸ hglmem)
        rw [hother p (List.mem_cons_self p _) hpne]
        exact h1
      · refine ih (List.cons_ne_nil q t') (List.nodup_cons.mp hnd).2 ?_ h3 ?_ hnp0 hnpnext
        · intro r hr hrne
          exact hother r (List.mem_cons_of_mem p hr) (by rw [← hgl]; exact hrne)
        · rw [hgl]
          exact hlast

/-- Linking a fresh empty overflow page behind a full bucket chain
preserves the invariant (with the chain extended) and leaves the
logical contents unchanged. -/
theorem overflow_arm {hash : List Nat → Nat} {h : LinHash} {chains : Nat → List Nat}
    (inv : LHInv hash h chains) {bi lp np : Nat} {s₁ s₂ : DbFile}
    (hbi : bi < h.nbuckets)
    (hlp : (chains bi).getLast? = some lp)
    (hv₁ : ViewsEq h.buckets s₁) (hm₁ : MetaEq h.buckets s₁)
    (hc₂ : Coherent s₂) (hp₂ : s₂.page_id = some lp)
    (hdir₂ : DirEq s₁ s₂) (hfp₂ : s₂.free_page = s₁.free_page + 1)
    (hfp64 : s₂.free_page < 2 ^ 64)
    (hfl₂ : (s₁.num_free = 0 ∧ np = s₁.free_page ∧ s₂.free_list = s₁.free_list ∧
        s₂.num_free = s₁.num_free) ∨
      (s₁.free_list = some np ∧ s₂.free_list = none ∧ s₂.num_free = s₁.num_free - 1))
    (hv₂ : ∀ q, q ≠ np → q ≠ lp → PageVEq (pageView s₂ q) (pageView s₁ q))
    (hnp7 : (pageView s₂ np).num_records = 0) (hnp8 : (pageView s₂ np).next = none)
    (hlp7 : (pageView s₂ lp).num_records = (pageView s₁ lp).num_records)
    (hlp8 : (pageView s₂ lp).next = some np)
    (hlp10 : ∀ i, HEADER_SIZE ≤ i → (pageView s₂ lp).recs i = (pageView s₁ lp).recs i)
    (chains' : Nat → List Nat)
    (hch' : ∀ x, chains' x = if x = bi then chains bi ++ [np] else chains x) :
    LHInv hash { h with buckets := s₂ } chains' ∧
    allPairs { h with buckets := s₂ } chains' = allPairs h chains := by
  have hcbi : chains' bi = chains bi ++ [np] := by rw [hch' bi, if_pos rfl]
  have hcb : ∀ b, b ≠ bi → chains' b = chains b := fun b hb => by rw [hch' b, if_neg hb]
  have hmks : s₂.keysize = h.buckets.keysize := hdir₂.ks.trans hm₁.ks
  have hmvs : s₂.valsize = h.buckets.valsize := hdir₂.vs.trans hm₁.vs
  have hmbtp : s₂.bucket_to_page = h.buckets.bucket_to_page := hdir₂.btp.trans hm₁.btp
  have hmrpp : s₂.records_per_page = h.buckets.records_per_page := hdir₂.rpp.trans hm₁.rpp
  have hfp1 : s₁.free_page = h.buckets.free_page := hm₁.fp
  have hne : chains bi ≠ [] := inv.chain_ne bi hbi
  have hlpmem : lp ∈ chains bi := by
    rw [List.getLast?_eq_getLast_of_ne_nil hne, Option.some_inj] at hlp
    rw [← hlp]
    exact List.getLast_mem hne
  have hgl : (chains bi).getLast hne = lp := by
    rw [List.getLast?_eq_getLast_of_ne_nil hne, Option.some_inj] at hlp
    exact hlp
  have hlpb : 0 < lp ∧ lp < h.buckets.free_page := inv.chain_mem bi hbi lp hlpmem
  have hnpfacts : 0 < np ∧ np < s₂.free_page ∧ (∀ b, b < h.nbuckets → np ∉ chains b) := by
    rcases hfl₂ with ⟨hz, hnpfp, hfl, hnf⟩ | ⟨hfl, hfln, hnf⟩
    · subst hnpfp
      rw [hfp1]
      refine ⟨by omega, by rw [hfp₂, hfp1]; omega, ?_⟩
      intro b hb hmem
      have := (inv.chain_mem b hb _ hmem).2
      omega
    · rw [hm₁.fl] at hfl
      obtain ⟨a, b2, c, e⟩ := inv.free_sound np hfl
      exact ⟨a, by rw [hfp₂, hfp1]; omega, e⟩
  obtain ⟨hnp0, hnplt, hnpnotin⟩ := hnpfacts
  have hnp_nmem_bi : np ∉ chains bi := hnpnotin bi hbi
  have hviewOld : ∀ q, q ≠ np → q ≠ lp →
      PageVEq (pageView s₂ q) (pageView h.buckets q) :=
    fun q h1 h2 => PageVEq_trans (hv₂ q h1 h2) (hv₁ q)
  have hlp_recs : viewRecords h.buckets.keysize h.buckets.valsize (pageView s₂ lp) =
      viewRecords h.buckets.keysize h.buckets.valsize (pageView h.buckets lp) :=
    viewRecords_congr2 (hlp7.trans (hv₁ lp).1)
      (fun i hi => (hlp10 i hi).trans ((hv₁ lp).2.2.2 i hi))
  have hcr : ∀ b, b < h.nbuckets →
      chainRecs s₂ h.buckets.keysize h.buckets.valsize (chains b) =
      chainRecs h.buckets h.buckets.keysize h.buckets.valsize (chains b) := by
    intro b hb
    refine chainRecs_congr_mem fun q hq => ?_
    by_cases hqlp : q = lp
    · subst hqlp
      exact hlp_recs
    · exact viewRecords_congr (hviewOld q (fun hcon => hnpnotin b hb (hcon ▸ hq)) hqlp)
  have hcr' : ∀ b, b < h.nbuckets →
      chainRecs s₂ h.buckets.keysize h.buckets.valsize (chains' b) =
      chainRecs h.buckets h.buckets.keysize h.buckets.valsize (chains b) := by
    intro b hb
    by_cases hbbi : b = bi
    · subst hbbi
      rw [hcbi, chainRecs_append, chainRecs_singleton,
        viewRecords_nil_of_zero hnp7, List.append_nil]
      exact hcr b hb
    · rw [hcb b hbbi]
      exact hcr b hb
  have hAP : allPairs { h with buckets := s₂ } chains' = allPairs h chains := by
    unfold allPairs
    refine flatMap_congr_t fun b hb => ?_
    show chainRecs s₂ s₂.keysize s₂.valsize (chains' b) = _
    rw [hmks, hmvs]
    exact hcr' b (List.mem_range.mp hb)
  have hnextPres : ∀ q, q ≠ np → q ≠ lp →
      (pageView s₂ q).next = (pageView h.buckets q).next :=
    fun q h1 h2 => (hviewOld q h1 h2).2.1
  refine ⟨⟨hc₂, ?_, inv.bits_lo, inv.bits_hi, ?_, ?_, hfp64, ?_, ?_, ?_, ?_, ?_, ?_,
    ?_, ?_, ?_, ?_, ?_, ?_⟩, hAP⟩
  · rw [hmbtp]
    exact inv.dir
  · rw [hmrpp]
    exact inv.rpp_pos
  · rw [hmrpp]
    exact inv.rpp64
  · intro p hp
    rw [hp₂, Option.some_inj] at hp
    subst hp
    exact hlpb.1
  · intro b hb
    by_cases hbbi : b = bi
    · subst hbbi
      rw [hcbi]
      simp
    · rw [hcb b hbbi]
      exact inv.chain_ne b hb
  · intro b hb
    rw [DbFile.bucketToPage, hmbtp]
    by_cases hbbi : b = bi
    · subst hbbi
      rw [hcbi]
      obtain ⟨p0, rest, hpr⟩ : ∃ p0 rest, chains b = p0 :: rest := by
        cases hc0 : chains b with
        | nil => exact absurd hc0 (inv.chain_ne b hb)
        | cons a t => exact ⟨a, t, rfl⟩
      rw [hpr, List.cons_append, List.head?_cons]
      have := inv.chain_head b hb
      rw [DbFile.bucketToPage, hpr, List.head?_cons] at this
      exact this
    · rw [hcb b hbbi]
      exact inv.chain_head b hb
  · intro b hb
    by_cases hbbi : b = bi
    · subst hbbi
      rw [hcbi]
      refine chainOK_snoc (chains b) hne (inv.chain_nodup b hb) ?_ (inv.chain_ok b hb)
        ?_ (by omega) (Or.inl hnp8)
      · intro q hq hqgl
        refine hnextPres q (fun hcon => hnp_nmem_bi (hcon ▸ hq)) ?_
        rw [← hgl]
        exact hqgl
      · rw [hgl]
        exact hlp8
    · rw [hcb b hbbi]
      refine chainOK_congr_next _ ?_ (inv.chain_ok b hb)
      intro q hq
      refine hnextPres q (fun hcon => hnpnotin b hb (hcon ▸ hq))
        (fun hcon => inv.chain_disj bi b hbi hb (fun hx => hbbi hx.symm) lp hlpmem (hcon ▸ hq))
  · intro b hb p hp
    by_cases hbbi : b = bi
    · subst hbbi
      rw [hcbi, List.getLast?_concat, Option.some_inj] at hp
      subst hp
      exact hnp8
    · rw [hcb b hbbi] at hp
      have hpmem : p ∈ chains b := by
        cases hc0 : chains b with
        | nil => rw [hc0] at hp; exact absurd hp (by simp)
        | cons a t =>
          rw [hc0] at hp
          rw [List.getLast?_eq_getLast_of_ne_nil (List.cons_ne_nil a t), Option.some_inj] at hp
          rw [← hp]
          exact List.getLast_mem _
      rw [hnextPres p (fun hcon => hnpnotin b hb (hcon ▸ hpmem))
        (fun hcon => inv.chain_disj bi b hbi hb (fun hx => hbbi hx.symm) lp hlpmem (hcon ▸ hpmem))]
      exact inv.chain_last b hb p hp
  · intro b hb p hp
    rw [hfp₂, hfp1]
    by_cases hbbi : b = bi
    · subst hbbi
      rw [hcbi] at hp
      rcases List.mem_append.mp hp with hold | hnew
      · have := inv.chain_mem b hb p hold
        omega
      · rw [List.mem_singleton] at hnew
        subst hnew
        constructor
        · omega
        · rw [hfp₂, hfp1] at hnplt
          omega
    · rw [hcb b hbbi] at hp
      have := inv.chain_mem b hb p hp
      omega
  · intro b hb
    by_cases hbbi : b = bi
    · subst hbbi
      rw [hcbi]
      refine List.nodup_append.mpr ⟨inv.chain_nodup b hb, List.nodup_singleton np, ?_⟩
      intro a ha hak
      rw [List.mem_singleton] at hak
      subst hak
      exact hnp_nmem_bi ha
    · rw [hcb b hbbi]
      exact inv.chain_nodup b hb
  · intro b b2 hb hb2 hne2 p hp hp2
    by_cases hbbi : b = bi
    · subst hbbi
      rw [hcbi] at hp
      rw [hcb b2 (fun hcon => hne2 hcon.symm)] at hp2
      rcases List.mem_append.mp hp with hold | hnew
      · exact inv.chain_disj b b2 hb hb2 hne2 p hold hp2
      · rw [List.mem_singleton] at hnew
        subst hnew
        exact hnpnotin b2 hb2 hp2
    · rw [hcb b hbbi] at hp
      by_cases hbbi2 : b2 = bi
      · subst hbbi2
        rw [hcbi] at hp2
        rcases List.mem_append.mp hp2 with hold | hnew
        · exact inv.chain_disj b b2 hb hb2 hne2 p hp hold
        · rw [List.mem_singleton] at hnew
          subst hnew
          exact hnpnotin b hb hp
      · rw [hcb b2 hbbi2] at hp2
        exact inv.chain_disj b b2 hb hb2 hne2 p hp hp2
  · intro b hb p hp
    rw [hmrpp]
    by_cases hpnp : p = np
    · subst hpnp
      rw [hnp7]
      exact Nat.zero_le _
    · have hpmem : p ∈ chains b := by
        by_cases hbbi : b = bi
        · subst hbbi
          rw [hcbi] at hp
          rcases List.mem_append.mp hp with hold | hnew
          · exact hold
          · rw [List.mem_singleton] at hnew
            exact absurd hnew hpnp
        · rw [hcb b hbbi] at hp
          exact hp
      by_cases hplp : p = lp
      · subst hplp
        rw [hlp7.trans (hv₁ p).1]
        exact inv.page_cap b hb p hpmem
      · rw [(hviewOld p hpnp hplp).1]
        exact inv.page_cap b hb p hpmem
  · intro f hf
    rcases hfl₂ with ⟨hz, hnpfp, hfl, hnf⟩ | ⟨hfl, hfln, hnf⟩
    · rw [hfl, hm₁.fl] at hf
      obtain ⟨a, b2, c, e⟩ := inv.free_sound f hf
      have hfnp : f ≠ np := by
        subst hnpfp
        rw [hfp1]
        omega
      have hflp : f ≠ lp := fun hcon => (e bi hbi) (hcon ▸ hlpmem)
      refine ⟨a, by rw [hfp₂, hfp1]; omega, ?_, ?_⟩
      · rw [hnextPres f hfnp hflp]
        exact c
      · intro b hb
        by_cases hbbi : b = bi
        · subst hbbi
          rw [hcbi]
          intro hcon
          rcases List.mem_append.mp hcon with hold | hnew
          · exact e b hb hold
          · rw [List.mem_singleton] at hnew
            exact hfnp hnew
        · rw [hcb b hbbi]
          exact e b hb
    · rw [hfln] at hf
      exact Option.noConfusion hf
  · intro b hb kv hkv
    have hkv2 : kv ∈ chainRecs h.buckets h.buckets.keysize h.buckets.valsize (chains b) := by
      rw [hmks, hmvs, hcr' b hb] at hkv
      exact hkv
    obtain ⟨ha, hb2, hc2⟩ := inv.addr_ok b hb kv hkv2
    exact ⟨ha, by rw [hmks]; exact hb2, by rw [hmvs]; exact hc2⟩
  · rw [hAP]
    exact inv.keys_nodup

theorem flatMap_range_perm_del {β : Type} :
    ∀ (n bi : Nat), bi < n → ∀ (f g : Nat → List β),
    (∀ b, b < n → b ≠ bi → g b = f b) → g bi = [] →
    ((List.range n).flatMap g ++ f bi).Perm ((List.range n).flatMap f) := by
  intro n
  induction n with
  | zero => intro bi hbi; omega
  | succ m ih =>
    intro bi hbi f g hother hbi'
    rw [List.range_succ, List.flatMap_append, List.flatMap_append,
      List.flatMap_cons, List.flatMap_nil, List.flatMap_cons, List.flatMap_nil,
      List.append_nil, List.append_nil]
    by_cases hbim : bi = m
    · subst hbim
      have hfg : (List.range bi).flatMap g = (List.range bi).flatMap f :=
        flatMap_congr_t fun b hb =>
          hother b (Nat.lt_succ_of_lt (List.mem_range.mp hb)) (Nat.ne_of_lt (List.mem_range.mp hb))
      rw [hfg, hbi', List.append_nil]
    · have hperm := ih bi (by omega) f g
        (fun b hb hne => hother b (Nat.lt_succ_of_lt hb) hne) hbi'
      have hgm : g m = f m := hother m (Nat.lt_succ_self m) (Ne.symm hbim)
      rw [hgm]
      have hp1 : (((List.range m).flatMap g ++ f m) ++ f bi).Perm
          (((List.range m).flatMap g ++ f bi) ++ f m) := by
        rw [List.append_assoc, List.append_assoc]
        exact List.Perm.append_left _ List.perm_append_comm
      exact hp1.trans (hperm.append_right _)

theorem getLast?_mem_t {α : Type} {l : List α} {a : α}
    (h : l.getLast? = some a) : a ∈ l := by
  cases l with
  | nil => exact absurd h (by simp)
  | cons x t =>
    rw [List.getLast?_eq_getLast_of_ne_nil (List.cons_ne_nil x t), Option.some_inj] at h
    rw [← h]
    exact List.getLast_mem _

/-- The split phase of `maybe_split` up to (but not including) the
reinsertion loop: adding a directory page for the new bucket, bumping
`nbits` when needed, and clearing the split bucket yields an invariant
state whose contents plus the cleared records are the old contents. -/
theorem split_prepare {hash : List Nat → Nat} {h : LinHash} {chains : Nat → List Nat}
    (inv : LHInv hash h chains) {d : DbFile}
    (hd : h.buckets.allocate_new_bucket = some d)
    {b' : Nat}
    (hb' : b' = if 1 <<< h.nbits < h.nbuckets + 1 then h.nbits + 1 else h.nbits)
    {walkFuel : Nat} {r : DbFile × List (List Nat × List Nat)}
    (hr : DbFile.clear_bucket walkFuel d ((h.nbuckets + 1 - 1) ^^^ (1 <<< (b' - 1))) =
      some r) :
    ∃ chains₃,
      LHInv hash { buckets := r.1, nbits := b', nitems := h.nitems, nbuckets := h.nbuckets + 1 } chains₃ ∧
      (allPairs { buckets := r.1, nbits := b', nitems := h.nitems, nbuckets := h.nbuckets + 1 } chains₃ ++ r.2).Perm (allPairs h chains) ∧
      (∀ kv ∈ r.2, kv.1.length = h.buckets.keysize ∧ kv.2.length = h.buckets.valsize) ∧
      r.1.keysize = h.buckets.keysize ∧ r.1.valsize = h.buckets.valsize := by
  obtain ⟨pid, hcd, hpd, hdd, hbtpd, hrppd, hksd, hvsd, hfpd, hfpd64, hvd, hpid7, hpid8,
    hfld⟩ := allocate_new_bucket_ok hd inv.coh (fun f hf => (inv.free_sound f hf).2.2.1)
  have hn0 : 0 < h.nbuckets := lt_of_le_of_lt (Nat.zero_le _) inv.bits_lo
  have hfp_pos : 0 < h.buckets.free_page := by
    obtain ⟨p0, rest, hpr⟩ : ∃ p0 rest, chains 0 = p0 :: rest := by
      cases hc0 : chains 0 with
      | nil => exact absurd hc0 (inv.chain_ne 0 hn0)
      | cons a t => exact ⟨a, t, rfl⟩
    have := (inv.chain_mem 0 hn0 p0 (by rw [hpr]; exact List.mem_cons_self _ _)).2
    omega
  have hpidf : 0 < pid ∧ pid < d.free_page ∧ ∀ b, b < h.nbuckets → pid ∉ chains b := by
    rcases hfld with ⟨hz, hpfp, hfl, hnf⟩ | ⟨hfl, hfln, hnf⟩
    · subst hpfp
      refine ⟨hfp_pos, by rw [hfpd]; omega, ?_⟩
      intro b hb hmem
      have := (inv.chain_mem b hb _ hmem).2
      omega
    · obtain ⟨a, b2, c, e⟩ := inv.free_sound pid hfl
      exact ⟨a, by rw [hfpd]; omega, e⟩
  obtain ⟨hpid0, hpidlt, hpidnotin⟩ := hpidf
  have hcase : 2 ^ (b' - 1) < h.nbuckets + 1 ∧ h.nbuckets + 1 ≤ 2 ^ b' ∧
      ((h.nbuckets + 1 - 1) ^^^ (1 <<< (b' - 1))) < h.nbuckets ∧
      (∀ hv, mAddr h.nbits h.nbuckets hv ≠ ((h.nbuckets + 1 - 1) ^^^ (1 <<< (b' - 1))) →
        mAddr b' (h.nbuckets + 1) hv = mAddr h.nbits h.nbuckets hv) ∧
      (∀ hv, mAddr h.nbits h.nbuckets hv = ((h.nbuckets + 1 - 1) ^^^ (1 <<< (b' - 1))) →
        mAddr b' (h.nbuckets + 1) hv = mAddr h.nbits h.nbuckets hv ∨
        mAddr b' (h.nbuckets + 1) hv = h.nbuckets) := by
    rw [Nat.one_shiftLeft, Nat.add_sub_cancel]
    by_cases hcond : 1 <<< h.nbits < h.nbuckets + 1
    · rw [if_pos hcond] at hb'
      subst hb'
      rw [Nat.one_shiftLeft] at hcond
      have hn2 : h.nbuckets = 2 ^ h.nbits := by
        have := inv.bits_hi
        omega
      have hx0 := split_addr_grow h.nbits h.nbuckets 0 hn2
      rw [hx0.1]
      refine ⟨hx0.2.1, hx0.2.2.1, hn0, ?_, ?_⟩
      · exact fun hv hne => (split_addr_grow h.nbits h.nbuckets hv hn2).2.2.2.1 hne
      · exact fun hv heq => (split_addr_grow h.nbits h.nbuckets hv hn2).2.2.2.2 heq
    · rw [if_neg hcond] at hb'
      subst hb'
      rw [Nat.one_shiftLeft] at hcond
      have hle : h.nbuckets + 1 ≤ 2 ^ h.nbits := by omega
      have hx0 := split_addr_nogrow h.nbits h.nbuckets 0 inv.bits_lo hle
      refine ⟨by have := inv.bits_lo; omega, hle, hx0.2.1, ?_, ?_⟩
      · exact fun hv hne => (split_addr_nogrow h.nbits h.nbuckets hv inv.bits_lo hle).2.2.1 hne
      · exact fun hv heq => (split_addr_nogrow h.nbits h.nbuckets hv inv.bits_lo hle).2.2.2 heq
  obtain ⟨hbs1, hbs2, hbs_lt, htransfer, htobs⟩ := hcase
  obtain ⟨p0, rest, hpr⟩ : ∃ p0 rest,
      chains ((h.nbuckets + 1 - 1) ^^^ (1 <<< (b' - 1))) = p0 :: rest := by
    cases hc0 : chains ((h.nbuckets + 1 - 1) ^^^ (1 <<< (b' - 1))) with
    | nil => exact absurd hc0 (inv.chain_ne _ hbs_lt)
    | cons a t => exact ⟨a, t, rfl⟩
  have hp0mem : p0 ∈ chains ((h.nbuckets + 1 - 1) ^^^ (1 <<< (b' - 1))) := by
    rw [hpr]
    exact List.mem_cons_self _ _
  have hp0b := inv.chain_mem _ hbs_lt p0 hp0mem
  have hbsmem_nopid : ∀ q, q ∈ chains ((h.nbuckets + 1 - 1) ^^^ (1 <<< (b' - 1))) → q ≠ pid :=
    fun q hq hcon => hpidnotin _ hbs_lt (hcon ▸ hq)
  have hbtp_bs : d.bucketToPage ((h.nbuckets + 1 - 1) ^^^ (1 <<< (b' - 1))) = some p0 := by
    rw [DbFile.bucketToPage, hbtpd, List.get?_append (by rw [inv.dir]; exact hbs_lt)]
    have := inv.chain_head _ hbs_lt
    rw [DbFile.bucketToPage] at this
    rw [this, hpr, List.head?_cons]
  have hchd : chainOK d (p0 :: rest) := by
    rw [← hpr]
    refine chainOK_congr_next _ ?_ (inv.chain_ok _ hbs_lt)
    intro q hq
    exact (hvd q (hbsmem_nopid q hq)).2.1
  obtain ⟨out0, hWsucc⟩ : ∃ out0, DbFile.all_records_in_bucket walkFuel d
      ((h.nbuckets + 1 - 1) ^^^ (1 <<< (b' - 1))) = some out0 := by
    rw [DbFile.clear_bucket] at hr
    simp only [Option.bind_eq_bind] at hr
    obtain ⟨out0, hW, _⟩ := Option.bind_eq_some.mp hr
    exact ⟨out0, hW⟩
  have hfuelc : rest.length < walkFuel := all_records_fuel hcd hbtp_bs hchd hWsucc
  obtain ⟨s₃, hceq, hc₃, hp₃, hd₃, hdir₃, hfpeq₃, hv₃q, h₃num, h₃next, hfl₃⟩ :=
    clear_bucket_ok hcd hdd hbtp_bs hchd hfuelc
  have hr12 : r = (s₃, flatten ((p0 :: rest).map fun q =>
      (q, viewRecords d.keysize d.valsize (pageView d q)))) :=
    Option.some_inj.mp (hr.symm.trans hceq)
  subst hr12
  have hr2eq : chainRecs d d.keysize d.valsize
      (chains ((h.nbuckets + 1 - 1) ^^^ (1 <<< (b' - 1)))) =
      chainRecs h.buckets h.buckets.keysize h.buckets.valsize
        (chains ((h.nbuckets + 1 - 1) ^^^ (1 <<< (b' - 1)))) := by
    rw [hksd, hvsd]
    refine chainRecs_congr_mem fun q hq => ?_
    exact viewRecords_congr (hvd q (hbsmem_nopid q hq))
  have hr2form : (s₃, flatten ((p0 :: rest).map fun q =>
      (q, viewRecords d.keysize d.valsize (pageView d q)))).2 =
      chainRecs h.buckets h.buckets.keysize h.buckets.valsize
        (chains ((h.nbuckets + 1 - 1) ^^^ (1 <<< (b' - 1)))) := by
    show chainRecs d d.keysize d.valsize (p0 :: rest) = _
    rw [← hpr]
    exact hr2eq
  have hne_p0_pid : p0 ≠ pid := hbsmem_nopid p0 hp0mem
  have hks₃ : s₃.keysize = h.buckets.keysize := hdir₃.ks.trans hksd
  have hvs₃ : s₃.valsize = h.buckets.valsize := hdir₃.vs.trans hvsd
  have hrpp₃ : s₃.records_per_page = h.buckets.records_per_page := hdir₃.rpp.trans hrppd
  have hbtp₃ : s₃.bucket_to_page = h.buckets.bucket_to_page ++ [pid] :=
    hdir₃.btp.trans hbtpd
  have hfp₃v : s₃.free_page = h.buckets.free_page + 1 := hfpeq₃.trans hfpd
  have hviewOld : ∀ q, q ≠ p0 → q ≠ pid →
      PageVEq (pageView s₃ q) (pageView h.buckets q) :=
    fun q h1 h2 => PageVEq_trans (hv₃q q h1) (hvd q h2)
  have hnextOld : ∀ q, q ≠ p0 → q ≠ pid →
      (pageView s₃ q).next = (pageView h.buckets q).next :=
    fun q h1 h2 => (hviewOld q h1 h2).2.1
  have hpid_next : (pageView s₃ pid).next = none :=
    ((hv₃q pid (fun hcon => hne_p0_pid hcon.symm)).2.1).trans hpid8
  have hpid_num : (pageView s₃ pid).num_records = 0 :=
    ((hv₃q pid (fun hcon => hne_p0_pid hcon.symm)).1).trans hpid7
  refine ⟨fun x => if x = ((h.nbuckets + 1 - 1) ^^^ (1 <<< (b' - 1))) then [p0]
    else if x = h.nbuckets then [pid] else chains x, ?_⟩
  have hcbs : (fun x => if x = ((h.nbuckets + 1 - 1) ^^^ (1 <<< (b' - 1))) then [p0]
      else if x = h.nbuckets then [pid] else chains x)
      ((h.nbuckets + 1 - 1) ^^^ (1 <<< (b' - 1))) = [p0] := by
    dsimp only
    rw [if_pos rfl]
  have hcn : (fun x => if x = ((h.nbuckets + 1 - 1) ^^^ (1 <<< (b' - 1))) then [p0]
      else if x = h.nbuckets then [pid] else chains x) h.nbuckets = [pid] := by
    dsimp only
    rw [if_neg (by omega), if_pos rfl]
  have hcx : ∀ x, x ≠ ((h.nbuckets + 1 - 1) ^^^ (1 <<< (b' - 1))) → x ≠ h.nbuckets →
      (fun x => if x = ((h.nbuckets + 1 - 1) ^^^ (1 <<< (b' - 1))) then [p0]
      else if x = h.nbuckets then [pid] else chains x) x = chains x := by
    intro x h1 h2
    dsimp only
    rw [if_neg h1, if_neg h2]
  have hGbs : chainRecs s₃ h.buckets.keysize h.buckets.valsize [p0] = [] := by
    rw [chainRecs_singleton]
    exact viewRecords_nil_of_zero h₃num
  have hGn : chainRecs s₃ h.buckets.keysize h.buckets.valsize [pid] = [] := by
    rw [chainRecs_singleton]
    exact viewRecords_nil_of_zero hpid_num
  have hGx : ∀ x, x < h.nbuckets → x ≠ ((h.nbuckets + 1 - 1) ^^^ (1 <<< (b' - 1))) →
      chainRecs s₃ h.buckets.keysize h.buckets.valsize (chains x) =
      chainRecs h.buckets h.buckets.keysize h.buckets.valsize (chains x) := by
    intro x hx hxbs
    refine chainRecs_congr_mem fun q hq => ?_
    refine viewRecords_congr (hviewOld q ?_ ?_)
    · exact fun hcon => inv.chain_disj _ x hbs_lt hx (fun hy => hxbs hy.symm) p0 hp0mem
        (hcon ▸ hq)
    · exact fun hcon => hpidnotin x hx (hcon ▸ hq)
  have hchar : ∀ x, ∀ q, q ∈ ((fun x => if x = ((h.nbuckets + 1 - 1) ^^^ (1 <<< (b' - 1)))
      then [p0] else if x = h.nbuckets then [pid] else chains x) x) →
      (x = ((h.nbuckets + 1 - 1) ^^^ (1 <<< (b' - 1))) ∧ q = p0) ∨
      (x = h.nbuckets ∧ q = pid) ∨
      (x ≠ ((h.nbuckets + 1 - 1) ^^^ (1 <<< (b' - 1))) ∧ x ≠ h.nbuckets ∧ q ∈ chains x) := by
    intro x q hq
    by_cases h1 : x = ((h.nbuckets + 1 - 1) ^^^ (1 <<< (b' - 1)))
    · rw [h1, hcbs, List.mem_singleton] at hq
      exact Or.inl ⟨h1, hq⟩
    · by_cases h2 : x = h.nbuckets
      · rw [h2, hcn, List.mem_singleton] at hq
        exact Or.inr (Or.inl ⟨h2, hq⟩)
      · rw [hcx x h1 h2] at hq
        exact Or.inr (Or.inr ⟨h1, h2, hq⟩)
  have hcore : (((List.range (h.nbuckets + 1)).flatMap fun b =>
      chainRecs s₃ h.buckets.keysize h.buckets.valsize
        (if b = ((h.nbuckets + 1 - 1) ^^^ (1 <<< (b' - 1))) then [p0]
         else if b = h.nbuckets then [pid] else chains b)) ++
      chainRecs h.buckets h.buckets.keysize h.buckets.valsize
        (chains ((h.nbuckets + 1 - 1) ^^^ (1 <<< (b' - 1))))).Perm
      ((List.range h.nbuckets).flatMap fun b =>
        chainRecs h.buckets h.buckets.keysize h.buckets.valsize (chains b)) := by
    rw [List.range_succ, List.flatMap_append, List.flatMap_cons, List.flatMap_nil,
      List.append_nil]
    rw [show (if h.nbuckets = ((h.nbuckets + 1 - 1) ^^^ (1 <<< (b' - 1))) then [p0]
        else if h.nbuckets = h.nbuckets then [pid] else chains h.nbuckets) = [pid] by
      rw [if_neg (by omega), if_pos rfl]]
    rw [hGn, List.append_nil]
    refine flatMap_range_perm_del h.nbuckets _ hbs_lt
      (fun b => chainRecs h.buckets h.buckets.keysize h.buckets.valsize (chains b))
      (fun b => chainRecs s₃ h.buckets.keysize h.buckets.valsize
        (if b = ((h.nbuckets + 1 - 1) ^^^ (1 <<< (b' - 1))) then [p0]
         else if b = h.nbuckets then [pid] else chains b)) ?_ ?_
    · intro b hb hbbs
      show chainRecs s₃ h.buckets.keysize h.buckets.valsize _ =
        chainRecs h.buckets h.buckets.keysize h.buckets.valsize (chains b)
      rw [if_neg hbbs, if_neg (by omega)]
      exact hGx b hb hbbs
    · show chainRecs s₃ h.buckets.keysize h.buckets.valsize _ = []
      rw [if_pos rfl]
      exact hGbs
  have hform : allPairs { buckets := s₃, nbits := b', nitems := h.nitems, nbuckets := h.nbuckets + 1 }
      (fun x => if x = ((h.nbuckets + 1 - 1) ^^^ (1 <<< (b' - 1))) then [p0]
        else if x = h.nbuckets then [pid] else chains x) =
      (List.range (h.nbuckets + 1)).flatMap fun b =>
        chainRecs s₃ h.buckets.keysize h.buckets.valsize
          (if b = ((h.nbuckets + 1 - 1) ^^^ (1 <<< (b' - 1))) then [p0]
           else if b = h.nbuckets then [pid] else chains b) := by
    unfold allPairs
    refine flatMap_congr_t fun b _ => ?_
    show chainRecs s₃ s₃.keysize s₃.valsize _ = _
    rw [hks₃, hvs₃]
  have hperm : (allPairs { buckets := s₃, nbits := b', nitems := h.nitems, nbuckets := h.nbuckets + 1 }
        (fun x => if x = ((h.nbuckets + 1 - 1) ^^^ (1 <<< (b' - 1))) then [p0]
          else if x = h.nbuckets then [pid] else chains x) ++
      chainRecs h.buckets h.buckets.keysize h.buckets.valsize
        (chains ((h.nbuckets + 1 - 1) ^^^ (1 <<< (b' - 1))))).Perm (allPairs h chains) := by
    rw [hform]
    exact hcore
  refine ⟨⟨hc₃, ?_, hbs1, hbs2, ?_, ?_, ?_, ?_, ?_, ?_, ?_, ?_, ?_, ?_, ?_, ?_, ?_, ?_, ?_⟩,
    ?_, ?_, hks₃, hvs₃⟩
  · show s₃.bucket_to_page.length = h.nbuckets + 1
    rw [hbtp₃, List.length_append, inv.dir]
    rfl
  · show 1 ≤ s₃.records_per_page
    rw [hrpp₃]
    exact inv.rpp_pos
  · show s₃.records_per_page + 1 < 2 ^ 64
    rw [hrpp₃]
    exact inv.rpp64
  · show s₃.free_page < 2 ^ 64
    rw [hfpeq₃]
    exact hfpd64
  · intro p hp
    have hp' : s₃.page_id = some p := hp
    obtain rfl : p0 = p := Option.some_inj.mp (hp₃.symm.trans hp')
    exact hp0b.1
  · intro b hb
    by_cases h1 : b = ((h.nbuckets + 1 - 1) ^^^ (1 <<< (b' - 1)))
    · rw [h1, if_pos rfl]
      simp
    · by_cases h2 : b = h.nbuckets
      · rw [h2, if_neg (by omega), if_pos rfl]
        simp
      · have hb' : b < h.nbuckets + 1 := hb
        rw [if_neg h1, if_neg h2]
        exact inv.chain_ne b (by omega)
  · intro b hb
    have hb' : b < h.nbuckets + 1 := hb
    show DbFile.bucketToPage s₃ b = _
    by_cases h1 : b = ((h.nbuckets + 1 - 1) ^^^ (1 <<< (b' - 1)))
    · rw [h1, if_pos rfl, DbFile.bucketToPage, hbtp₃,
        List.get?_append (by rw [inv.dir]; exact hbs_lt)]
      have hch := inv.chain_head _ hbs_lt
      rw [DbFile.bucketToPage] at hch
      rw [hch, hpr, List.head?_cons, List.head?_cons]
    · by_cases h2 : b = h.nbuckets
      · rw [h2, if_neg (by omega), if_pos rfl, DbFile.bucketToPage, hbtp₃, ← inv.dir]
        exact List.get?_concat_length _ _
      · rw [if_neg h1, if_neg h2, DbFile.bucketToPage, hbtp₃,
          List.get?_append (by rw [inv.dir]; omega)]
        have hch := inv.chain_head b (by omega)
        rw [DbFile.bucketToPage] at hch
        exact hch
  · intro b hb
    by_cases h1 : b = ((h.nbuckets + 1 - 1) ^^^ (1 <<< (b' - 1)))
    · rw [h1, if_pos rfl]
      exact Or.inl h₃next
    · by_cases h2 : b = h.nbuckets
      · rw [h2, if_neg (by omega), if_pos rfl]
        exact Or.inl hpid_next
      · have hb' : b < h.nbuckets + 1 := hb
        rw [if_neg h1, if_neg h2]
        refine chainOK_congr_next _ ?_ (inv.chain_ok b (by omega))
        intro q hq
        refine hnextOld q ?_ ?_
        · exact fun hcon => inv.chain_disj _ b hbs_lt (by omega) (fun hy => h1 hy.symm)
            p0 hp0mem (hcon ▸ hq)
        · exact fun hcon => hpidnotin b (by omega) (hcon ▸ hq)
  · intro b hb p hp
    by_cases h1 : b = ((h.nbuckets + 1 - 1) ^^^ (1 <<< (b' - 1)))
    · rw [h1, if_pos rfl, List.getLast?_singleton, Option.some_inj] at hp
      subst hp
      exact h₃next
    · by_cases h2 : b = h.nbuckets
      · rw [h2, if_neg (by omega), if_pos rfl, List.getLast?_singleton,
          Option.some_inj] at hp
        subst hp
        exact hpid_next
      · have hb' : b < h.nbuckets + 1 := hb
        rw [if_neg h1, if_neg h2] at hp
        have hpm : p ∈ chains b := getLast?_mem_t hp
        rw [hnextOld p
          (fun hcon => inv.chain_disj _ b hbs_lt (by omega) (fun hy => h1 hy.symm)
            p0 hp0mem (hcon ▸ hpm))
          (fun hcon => hpidnotin b (by omega) (hcon ▸ hpm))]
        exact inv.chain_last b (by omega) p hp
  · intro b hb p hp
    have hb' : b < h.nbuckets + 1 := hb
    show 0 < p ∧ p < s₃.free_page
    rw [hfp₃v]
    rcases hchar b p hp with ⟨_, rfl⟩ | ⟨_, rfl⟩ | ⟨h1, h2, hpm⟩
    · exact ⟨hp0b.1, by omega⟩
    · have := hpidlt
      rw [hfpd] at this
      exact ⟨hpid0, by omega⟩
    · have := inv.chain_mem b (by omega) p hpm
      exact ⟨this.1, by omega⟩
  · intro b hb
    by_cases h1 : b = ((h.nbuckets + 1 - 1) ^^^ (1 <<< (b' - 1)))
    · rw [h1, if_pos rfl]
      exact List.nodup_singleton _
    · by_cases h2 : b = h.nbuckets
      · rw [h2, if_neg (by omega), if_pos rfl]
        exact List.nodup_singleton _
      · have hb' : b < h.nbuckets + 1 := hb
        rw [if_neg h1, if_neg h2]
        exact inv.chain_nodup b (by omega)
  · intro b b2 hb hb2 hbne p hp hp2
    have hb' : b < h.nbuckets + 1 := hb
    have hb2' : b2 < h.nbuckets + 1 := hb2
    rcases hchar b p hp with ⟨hx1, rfl⟩ | ⟨hx1, rfl⟩ | ⟨hx1, hx2, hpm⟩
    · rcases hchar b2 p hp2 with ⟨hy1, hy2⟩ | ⟨hy1, hy2⟩ | ⟨hy1, hy2, hpm2⟩
      · exact hbne (hx1.trans hy1.symm)
      · exact hne_p0_pid hy2
      · exact inv.chain_disj _ b2 hbs_lt (by omega) (fun hy => hy1 hy.symm) p hp0mem hpm2
    · rcases hchar b2 p hp2 with ⟨hy1, hy2⟩ | ⟨hy1, hy2⟩ | ⟨hy1, hy2, hpm2⟩
      · exact hne_p0_pid hy2.symm
      · exact hbne (hx1.trans hy1.symm)
      · exact hpidnotin b2 (by omega) hpm2
    · rcases hchar b2 p hp2 with ⟨hy1, rfl⟩ | ⟨hy1, rfl⟩ | ⟨hy1, hy2, hpm2⟩
      · exact inv.chain_disj _ b hbs_lt (by omega) (fun hy => hx1 hy.symm) p hp0mem hpm
      · exact hpidnotin b (by omega) hpm
      · exact inv.chain_disj b b2 (by omega) (by omega) hbne p hpm hpm2
  · intro b hb p hp
    have hb' : b < h.nbuckets + 1 := hb
    show (pageView s₃ p).num_records ≤ s₃.records_per_page
    rw [hrpp₃]
    rcases hchar b p hp with ⟨_, rfl⟩ | ⟨_, rfl⟩ | ⟨h1, h2, hpm⟩
    · rw [h₃num]
      exact Nat.zero_le _
    · rw [hpid_num]
      exact Nat.zero_le _
    · rw [(hviewOld p
        (fun hcon => inv.chain_disj _ b hbs_lt (by omega) (fun hy => h1 hy.symm)
          p0 hp0mem (hcon ▸ hpm))
        (fun hcon => hpidnotin b (by omega) (hcon ▸ hpm))).1]
      exact inv.page_cap b (by omega) p hpm
  · intro f hf
    have hf' : s₃.free_list = some f := hf
    rcases hfl₃ with ⟨hrnil, hfl3, hnf3⟩ | ⟨hrne, hfl3, hnf3⟩
    · rw [hfl3] at hf'
      rcases hfld with ⟨hz, hpfp, hfld2, hnfd⟩ | ⟨hfld2, hfldn, hnfd⟩
      · rw [hfld2] at hf'
        obtain ⟨a, b2, c, e⟩ := inv.free_sound f hf'
        have hfpid : f ≠ pid := by
          subst hpfp
          omega
        have hfp0 : f ≠ p0 := fun hcon => e _ hbs_lt (hcon ▸ hp0mem)
        refine ⟨a, ?_, ?_, ?_⟩
        · show f < s₃.free_page
          rw [hfp₃v]
          omega
        · rw [hnextOld f hfp0 hfpid]
          exact c
        · intro b hb hmem
          rcases hchar b f hmem with ⟨_, rfl⟩ | ⟨_, rfl⟩ | ⟨h1, h2, hpm⟩
          · exact hfp0 rfl
          · exact hfpid rfl
          · have hb' : b < h.nbuckets + 1 := hb
            exact e b (by omega) hpm
      · rw [hfldn] at hf'
        exact Option.noConfusion hf'
    · rw [hfl3] at hf'
      obtain rfl : (p0 :: rest).getLast (List.cons_ne_nil p0 rest) = f :=
        Option.some_inj.mp hf'
      have hlqmem : (p0 :: rest).getLast (List.cons_ne_nil p0 rest) ∈
          chains ((h.nbuckets + 1 - 1) ^^^ (1 <<< (b' - 1))) := by
        rw [hpr]
        exact List.getLast_mem _
      have hlq_ne_p0 : (p0 :: rest).getLast (List.cons_ne_nil p0 rest) ≠ p0 := by
        have hnd := inv.chain_nodup _ hbs_lt
        rw [hpr, List.nodup_cons] at hnd
        rw [List.getLast_cons hrne]
        intro hcon
        exact hnd.1 (hcon ▸ List.getLast_mem hrne)
      have hlq_ne_pid : (p0 :: rest).getLast (List.cons_ne_nil p0 rest) ≠ pid :=
        hbsmem_nopid _ hlqmem
      have hlqb := inv.chain_mem _ hbs_lt _ hlqmem
      refine ⟨hlqb.1, ?_, ?_, ?_⟩
      · show _ < s₃.free_page
        rw [hfp₃v]
        omega
      · rw [hnextOld _ hlq_ne_p0 hlq_ne_pid]
        refine inv.chain_last _ hbs_lt _ ?_
        rw [hpr, List.getLast?_eq_getLast_of_ne_nil (List.cons_ne_nil p0 rest)]
      · intro b hb hmem
        have hb' : b < h.nbuckets + 1 := hb
        rcases hchar b _ hmem with ⟨_, hcon⟩ | ⟨_, hcon⟩ | ⟨h1, h2, hpm⟩
        · exact hlq_ne_p0 hcon
        · exact hlq_ne_pid hcon
        · exact inv.chain_disj _ b hbs_lt (by omega) (fun hy => h1 hy.symm) _ hlqmem hpm
  · intro b hb kv hkv
    have hb' : b < h.nbuckets + 1 := hb
    have hkv2 : kv ∈ chainRecs s₃ s₃.keysize s₃.valsize
        (if b = ((h.nbuckets + 1 - 1) ^^^ (1 <<< (b' - 1))) then [p0]
         else if b = h.nbuckets then [pid] else chains b) := hkv
    rw [hks₃, hvs₃] at hkv2
    by_cases h1 : b = ((h.nbuckets + 1 - 1) ^^^ (1 <<< (b' - 1)))
    · rw [h1, if_pos rfl, hGbs] at hkv2
      exact absurd hkv2 (List.not_mem_nil kv)
    · by_cases h2 : b = h.nbuckets
      · rw [h2, if_neg (by omega), if_pos rfl, hGn] at hkv2
        exact absurd hkv2 (List.not_mem_nil kv)
      · rw [if_neg h1, if_neg h2, hGx b (by omega) h1] at hkv2
        obtain ⟨ha, hl1, hl2⟩ := inv.addr_ok b (by omega) kv hkv2
        refine ⟨?_, ?_, ?_⟩
        · show mAddr b' (h.nbuckets + 1) (hash kv.1) = b
          exact (htransfer _ (by rw [ha]; exact h1)).trans ha
        · show kv.1.length = s₃.keysize
          rw [hks₃]
          exact hl1
        · show kv.2.length = s₃.valsize
          rw [hvs₃]
          exact hl2
  · have hpm := hperm.map Prod.fst
    rw [List.map_append] at hpm
    have := (List.Perm.nodup_iff hpm).mpr inv.keys_nodup
    exact (List.nodup_append.mp this).1
  · show (allPairs _ _ ++ (s₃, flatten (List.map (fun q =>
      (q, viewRecords d.keysize d.valsize (pageView d q))) (p0 :: rest))).2).Perm _
    rw [hr2form]
    exact hperm
  · intro kv hkv
    rw [hr2form] at hkv
    obtain ⟨_, hl1, hl2⟩ := inv.addr_ok _ hbs_lt kv hkv
    exact ⟨hl1, hl2⟩

/-- The invariant only constrains data pages (all `> 0`), so any
replacement of the disk state that preserves the views of nonzero pages
and the metadata preserves it, with the same contents. -/
theorem LHInv_congr_pos {hash : List Nat → Nat} {h : LinHash} {chains : Nat → List Nat}
    {d : DbFile} (inv : LHInv hash h chains)
    (hv : ∀ q, q ≠ 0 → PageVEq (pageView d q) (pageView h.buckets q))
    (hm : MetaEq h.buckets d) (hc : Coherent d)
    (hbuf : ∀ p, d.page_id = some p → 0 < p) :
    LHInv hash { h with buckets := d } chains ∧
    allPairs { h with buckets := d } chains = allPairs h chains := by
  have hvmem : ∀ b, b < h.nbuckets → ∀ q, q ∈ chains b →
      PageVEq (pageView d q) (pageView h.buckets q) :=
    fun b hb q hq => hv q (by have := (inv.chain_mem b hb q hq).1; omega)
  have hcr : ∀ b, b < h.nbuckets →
      chainRecs d h.buckets.keysize h.buckets.valsize (chains b) =
      chainRecs h.buckets h.buckets.keysize h.buckets.valsize (chains b) :=
    fun b hb => chainRecs_congr_mem fun q hq => viewRecords_congr (hvmem b hb q hq)
  have hAP : allPairs { h with buckets := d } chains = allPairs h chains := by
    unfold allPairs
    refine flatMap_congr_t fun b hb => ?_
    show chainRecs d d.keysize d.valsize (chains b) = _
    rw [hm.ks, hm.vs]
    exact hcr b (List.mem_range.mp hb)
  refine ⟨⟨hc, ?_, inv.bits_lo, inv.bits_hi, ?_, ?_, ?_, hbuf, inv.chain_ne, ?_, ?_,
    ?_, ?_, inv.chain_nodup, inv.chain_disj, ?_, ?_, ?_, ?_⟩, hAP⟩
  · rw [hm.btp]
    exact inv.dir
  · rw [hm.rpp]
    exact inv.rpp_pos
  · rw [hm.rpp]
    exact inv.rpp64
  · rw [hm.fp]
    exact inv.fp64
  · intro b hb
    rw [DbFile.bucketToPage, hm.btp]
    exact inv.chain_head b hb
  · intro b hb
    exact chainOK_congr_next _ (fun q hq => (hvmem b hb q hq).2.1) (inv.chain_ok b hb)
  · intro b hb p hp
    rw [(hvmem b hb p (getLast?_mem_t hp)).2.1]
    exact inv.chain_last b hb p hp
  · intro b hb p hp
    rw [hm.fp]
    exact inv.chain_mem b hb p hp
  · intro b hb p hp
    rw [(hvmem b hb p hp).1, hm.rpp]
    exact inv.page_cap b hb p hp
  · intro f hf
    rw [hm.fl] at hf
    obtain ⟨a, b2, c, e⟩ := inv.free_sound f hf
    refine ⟨a, by rw [hm.fp]; exact b2, ?_, e⟩
    rw [(hv f (by omega)).2.1]
    exact c
  · intro b hb kv hkv
    have hkv2 : kv ∈ chainRecs h.buckets h.buckets.keysize h.buckets.valsize (chains b) := by
      rw [hm.ks, hm.vs, hcr b hb] at hkv
      exact hkv
    obtain ⟨ha, hl1, hl2⟩ := inv.addr_ok b hb kv hkv2
    exact ⟨ha, by rw [hm.ks]; exact hl1, by rw [hm.vs]; exact hl2⟩
  · rw [hAP]
    exact inv.keys_nodup

/-- The final control-page write of every mutating operation preserves
the invariant and the contents. -/
theorem writeCtrl_ok {hash : List Nat → Nat} {h : LinHash} {chains : Nat → List Nat}
    (inv : LHInv hash h chains) :
    LHInv hash (LinHash.writeCtrl h) chains ∧
    allPairs (LinHash.writeCtrl h) chains = allPairs h chains ∧
    (LinHash.writeCtrl h).buckets.keysize = h.buckets.keysize ∧
    (LinHash.writeCtrl h).buckets.valsize = h.buckets.valsize := by
  obtain ⟨e1, e2, e3, e4⟩ :=
    write_ctrlpage_state h.buckets (h.nbits, h.nitems, h.nbuckets)
  obtain ⟨hcc, hvv⟩ := write_ctrlpage_ok (h.nbits, h.nitems, h.nbuckets) inv.coh
    (fun p hp => by have := inv.buf_pos p hp; omega)
  have hmc : MetaEq h.buckets
      (h.buckets.write_ctrlpage (h.nbits, h.nitems, h.nbuckets)) :=
    ⟨rfl, rfl, rfl, rfl, rfl, rfl, rfl⟩
  have hbufc : ∀ p, (h.buckets.write_ctrlpage (h.nbits, h.nitems, h.nbuckets)).page_id =
      some p → 0 < p := by
    intro p hp
    rw [e1] at hp
    exact inv.buf_pos p hp
  obtain ⟨hi, hap⟩ := LHInv_congr_pos inv hvv hmc hcc hbufc
  exact ⟨hi, hap, rfl, rfl⟩

/-- `nitems` does not occur in the invariant. -/
theorem LHInv_nitems {hash : List Nat → Nat} {h : LinHash} {chains : Nat → List Nat}
    (inv : LHInv hash h chains) (x : Nat) :
    LHInv hash { h with nitems := x } chains :=
  ⟨inv.coh, inv.dir, inv.bits_lo, inv.bits_hi, inv.rpp_pos, inv.rpp64, inv.fp64,
   inv.buf_pos, inv.chain_ne, inv.chain_head, inv.chain_ok, inv.chain_last,
   inv.chain_mem, inv.chain_nodup, inv.chain_disj, inv.page_cap, inv.free_sound,
   inv.addr_ok, inv.keys_nodup⟩

/-- The induction statement for `put` at a given fuel: on an invariant
state, a fresh key's `put` either runs out of fuel or succeeds and adds
exactly the new pair to the contents. -/
def PutOK (hash : List Nat → Nat) (fuel : Nat) : Prop :=
  ∀ (h : LinHash) (chains : Nat → List Nat) (k v : List Nat) (h' : LinHash),
    LHInv hash h chains →
    k.length = h.buckets.keysize → v.length = h.buckets.valsize →
    k ∉ (allPairs h chains).map Prod.fst →
    LinHash.put hash fuel h k v = some h' →
    ∃ chains', LHInv hash h' chains' ∧
      (allPairs h' chains').Perm (allPairs h chains ++ [(k, v)]) ∧
      h'.buckets.keysize = h.buckets.keysize ∧
      h'.buckets.valsize = h.buckets.valsize

/-- The reinsertion loop preserves the invariant and re-adds exactly
the cleared records, given the `put` property at the enclosing fuel. -/
theorem reinsertAll_ok {hash : List Nat → Nat} {fuel : Nat} (IH : PutOK hash fuel) :
    ∀ (recs : List (List Nat × List Nat)) (h : LinHash) (chains : Nat → List Nat)
      (h' : LinHash),
      LHInv hash h chains →
      (∀ kv ∈ recs, kv.1.length = h.buckets.keysize ∧ kv.2.length = h.buckets.valsize) →
      ((allPairs h chains).map Prod.fst ++ recs.map Prod.fst).Nodup →
      LinHash.reinsertAllAux (LinHash.put hash fuel) h recs = some h' →
      ∃ chains', LHInv hash h' chains' ∧
        (allPairs h' chains').Perm (allPairs h chains ++ recs) ∧
        h'.buckets.keysize = h.buckets.keysize ∧
        h'.buckets.valsize = h.buckets.valsize := by
  intro recs
  induction recs with
  | nil =>
    intro h chains h' inv _ _ hrun
    obtain rfl : h = h' := Option.some_inj.mp hrun
    exact ⟨chains, inv, by simp, rfl, rfl⟩
  | cons kv rest ih =>
    obtain ⟨k, v⟩ := kv
    intro h chains h' inv hlen hnd hrun
    simp only [LinHash.reinsertAllAux, Option.bind_eq_bind] at hrun
    obtain ⟨h₁, hput, hrun⟩ := Option.bind_eq_some.mp hrun
    simp only [List.map_cons] at hnd
    have hfreshk : k ∉ (allPairs h chains).map Prod.fst := fun hkA =>
      (List.nodup_append.mp hnd).2.2 hkA (List.mem_cons_self _ _)
    obtain ⟨chains₁, inv₁, hperm₁, hks₁, hvs₁⟩ :=
      IH h chains k v h₁ inv (hlen (k, v) (List.mem_cons_self _ _)).1
        (hlen (k, v) (List.mem_cons_self _ _)).2 hfreshk hput
    have inv₂ : LHInv hash { h₁ with nitems := h₁.nitems - 1 } chains₁ :=
      LHInv_nitems inv₁ _
    have hperm₁' : (allPairs { h₁ with nitems := h₁.nitems - 1 } chains₁).Perm
        (allPairs h chains ++ [(k, v)]) := hperm₁
    have hnd₂ : ((allPairs { h₁ with nitems := h₁.nitems - 1 } chains₁).map Prod.fst ++
        rest.map Prod.fst).Nodup := by
      have hpk : ((allPairs h₁ chains₁).map Prod.fst ++ rest.map Prod.fst).Perm
          ((allPairs h chains).map Prod.fst ++ (k :: rest.map Prod.fst)) := by
        refine (List.Perm.append_right _ (hperm₁.map Prod.fst)).trans ?_
        rw [List.map_append, List.map_cons, List.map_nil, List.append_assoc,
          List.singleton_append]
      exact (hpk.nodup_iff).mpr hnd
    have hlen₂ : ∀ kv2 ∈ rest,
        kv2.1.length = ({ h₁ with nitems := h₁.nitems - 1 } : LinHash).buckets.keysize ∧
        kv2.2.length = ({ h₁ with nitems := h₁.nitems - 1 } : LinHash).buckets.valsize := by
      intro kv2 hkv2
      have := hlen kv2 (List.mem_cons_of_mem _ hkv2)
      exact ⟨by rw [show ({ h₁ with nitems := h₁.nitems - 1 } : LinHash).buckets.keysize =
          h.buckets.keysize from hks₁]; exact this.1,
        by rw [show ({ h₁ with nitems := h₁.nitems - 1 } : LinHash).buckets.valsize =
          h.buckets.valsize from hvs₁]; exact this.2⟩
    obtain ⟨chains', inv', hperm', hks', hvs'⟩ :=
      ih { h₁ with nitems := h₁.nitems - 1 } chains₁ h' inv₂ hlen₂ hnd₂ hrun
    refine ⟨chains', inv', ?_, hks'.trans hks₁, hvs'.trans hvs₁⟩
    refine hperm'.trans ?_
    refine (List.Perm.append_right _ hperm₁').trans ?_
    rw [List.append_assoc, List.singleton_append]

/-- `maybe_split` preserves the invariant and the contents (up to
permutation), given the `put` property at the reinsertion fuel. -/
theorem maybe_split_ok {hash : List Nat → Nat} {fuel : Nat} (IH : PutOK hash fuel)
    {walkFuel : Nat} {h : LinHash} {chains : Nat → List Nat} {h' : LinHash}
    (inv : LHInv hash h chains)
    (hms : LinHash.maybe_splitAux walkFuel (LinHash.put hash fuel) h = some h') :
    ∃ chains', LHInv hash h' chains' ∧
      (allPairs h' chains').Perm (allPairs h chains) ∧
      h'.buckets.keysize = h.buckets.keysize ∧
      h'.buckets.valsize = h.buckets.valsize := by
  rw [LinHash.maybe_splitAux] at hms
  cases hsn : h.split_needed with
  | false =>
    rw [hsn, if_neg Bool.false_ne_true] at hms
    obtain rfl : h = h' := Option.some_inj.mp hms
    exact ⟨chains, inv, List.Perm.refl _, rfl, rfl⟩
  | true =>
    rw [hsn, if_pos rfl] at hms
    simp only [Option.bind_eq_bind] at hms
    obtain ⟨d, hd, hms⟩ := Option.bind_eq_some.mp hms
    by_cases hcond : 1 <<< h.nbits < h.nbuckets + 1
    · rw [if_pos hcond] at hms
      simp only at hms
      obtain ⟨r, hr, hms⟩ := Option.bind_eq_some.mp hms
      obtain ⟨chains₃, invD, hpermD, hlenD, hksD, hvsD⟩ :=
        @split_prepare hash h chains inv d hd (h.nbits + 1) (by rw [if_pos hcond]) walkFuel r hr
      have hndD : ((allPairs { buckets := r.1, nbits := h.nbits + 1, nitems := h.nitems, nbuckets := h.nbuckets + 1 } chains₃).map Prod.fst ++ r.2.map Prod.fst).Nodup := by
        have hpk := hpermD.map Prod.fst
        rw [List.map_append] at hpk
        exact (hpk.nodup_iff).mpr inv.keys_nodup
      have hlenD' : ∀ kv ∈ r.2,
          kv.1.length = ({ buckets := r.1, nbits := h.nbits + 1, nitems := h.nitems, nbuckets := h.nbuckets + 1 } : LinHash).buckets.keysize ∧
          kv.2.length = ({ buckets := r.1, nbits := h.nbits + 1, nitems := h.nitems, nbuckets := h.nbuckets + 1 } : LinHash).buckets.valsize := by
        intro kv hkv
        obtain ⟨ha, hb⟩ := hlenD kv hkv
        exact ⟨by rw [show ({ buckets := r.1, nbits := h.nbits + 1, nitems := h.nitems, nbuckets := h.nbuckets + 1 } : LinHash).buckets.keysize = h.buckets.keysize from hksD]; exact ha,
          by rw [show ({ buckets := r.1, nbits := h.nbits + 1, nitems := h.nitems, nbuckets := h.nbuckets + 1 } : LinHash).buckets.valsize = h.buckets.valsize from hvsD]; exact hb⟩
      obtain ⟨chains', inv', hperm', hks', hvs'⟩ :=
        reinsertAll_ok IH r.2
          { buckets := r.1, nbits := h.nbits + 1, nitems := h.nitems, nbuckets := h.nbuckets + 1 }
          chains₃ h' invD hlenD' hndD hms
      exact ⟨chains', inv', hperm'.trans hpermD, hks'.trans hksD, hvs'.trans hvsD⟩
    · rw [if_neg hcond] at hms
      simp only at hms
      obtain ⟨r, hr, hms⟩ := Option.bind_eq_some.mp hms
      obtain ⟨chains₃, invD, hpermD, hlenD, hksD, hvsD⟩ :=
        @split_prepare hash h chains inv d hd h.nbits (by rw [if_neg hcond]) walkFuel r hr
      have hndD : ((allPairs { buckets := r.1, nbits := h.nbits, nitems := h.nitems, nbuckets := h.nbuckets + 1 } chains₃).map Prod.fst ++ r.2.map Prod.fst).Nodup := by
        have hpk := hpermD.map Prod.fst
        rw [List.map_append] at hpk
        exact (hpk.nodup_iff).mpr inv.keys_nodup
      have hlenD' : ∀ kv ∈ r.2,
          kv.1.length = ({ buckets := r.1, nbits := h.nbits, nitems := h.nitems, nbuckets := h.nbuckets + 1 } : LinHash).buckets.keysize ∧
          kv.2.length = ({ buckets := r.1, nbits := h.nbits, nitems := h.nitems, nbuckets := h.nbuckets + 1 } : LinHash).buckets.valsize := by
        intro kv hkv
        obtain ⟨ha, hb⟩ := hlenD kv hkv
        exact ⟨by rw [show ({ buckets := r.1, nbits := h.nbits, nitems := h.nitems, nbuckets := h.nbuckets + 1 } : LinHash).buckets.keysize = h.buckets.keysize from hksD]; exact ha,
          by rw [show ({ buckets := r.1, nbits := h.nbits, nitems := h.nitems, nbuckets := h.nbuckets + 1 } : LinHash).buckets.valsize = h.buckets.valsize from hvsD]; exact hb⟩
      obtain ⟨chains', inv', hperm', hks', hvs'⟩ :=
        reinsertAll_ok IH r.2
          { buckets := r.1, nbits := h.nbits, nitems := h.nitems, nbuckets := h.nbuckets + 1 }
          chains₃ h' invD hlenD' hndD hms
      exact ⟨chains', inv', hperm'.trans hpermD, hks'.trans hksD, hvs'.trans hvsD⟩

/-- The common tail of `put`: the `maybe_split` call followed by the
final control-page write. -/
theorem put_tail {hash : List Nat → Nat} {fuel walkFuel : Nat} (IH : PutOK hash fuel)
    {h₂ : LinHash} {chains₂ : Nat → List Nat} {h' : LinHash}
    (inv₂ : LHInv hash h₂ chains₂)
    (hput : (LinHash.maybe_splitAux walkFuel (LinHash.put hash fuel) h₂ >>= fun h₃ =>
        some (LinHash.writeCtrl h₃)) = some h') :
    ∃ chains', LHInv hash h' chains' ∧
      (allPairs h' chains').Perm (allPairs h₂ chains₂) ∧
      h'.buckets.keysize = h₂.buckets.keysize ∧
      h'.buckets.valsize = h₂.buckets.valsize := by
  obtain ⟨h₃, hms, hput⟩ := Option.bind_eq_some.mp hput
  obtain ⟨chains₃, inv₃, hperm₃, hks₃, hvs₃⟩ := maybe_split_ok IH inv₂ hms
  obtain rfl : LinHash.writeCtrl h₃ = h' := Option.some_inj.mp hput
  obtain ⟨invW, hapW, hksW, hvsW⟩ := writeCtrl_ok inv₃
  exact ⟨chains₃, invW, by rw [hapW]; exact hperm₃, hksW.trans hks₃, hvsW.trans hvs₃⟩

/-- The main `put` lemma: at every fuel level, a successful `put` of a
fresh key on an invariant state preserves the invariant and adds
exactly the new pair to the contents. -/
theorem put_ok (hash : List Nat → Nat) : ∀ fuel, PutOK hash fuel := by
  intro fuel
  induction fuel with
  | zero =>
    intro h chains k v h' _ _ _ _ hput
    exact absurd hput (by simp [LinHash.put])
  | succ f IHf =>
    intro h chains k v h' inv hk hv hfresh hput
    have haddr : mAddr h.nbits h.nbuckets (hash k) = LinHash.bucket hash h k :=
      (bucket_eq_mAddr hash h k).symm
    have hbi : LinHash.bucket hash h k < h.nbuckets := by
      rw [← haddr]
      exact mAddr_lt h.nbits h.nbuckets (hash k) inv.bits_lo inv.bits_hi
    obtain ⟨p0, rest, hpr⟩ : ∃ p0 rest, chains (LinHash.bucket hash h k) = p0 :: rest := by
      cases hc0 : chains (LinHash.bucket hash h k) with
      | nil => exact absurd hc0 (inv.chain_ne _ hbi)
      | cons a t => exact ⟨a, t, rfl⟩
    have hhead : h.buckets.bucketToPage (LinHash.bucket hash h k) = some p0 := by
      rw [inv.chain_head _ hbi, hpr]
      rfl
    have hch : chainOK h.buckets (p0 :: rest) := by
      rw [← hpr]
      exact inv.chain_ok _ hbi
    simp only [LinHash.put, Option.bind_eq_bind] at hput
    obtain ⟨rp, hsearch, hput⟩ := Option.bind_eq_some.mp hput
    have hfuelS : rest.length < f + 1 := by
      have hs2 := hsearch
      rw [DbFile.search_bucket] at hs2
      simp only [Option.bind_eq_bind] at hs2
      obtain ⟨w0, hW0, _⟩ := Option.bind_eq_some.mp hs2
      exact all_records_fuel inv.coh hhead hch hW0
    obtain ⟨sW, hWeq, hcW, hvW, hmW, hplW, w7, w8, w10, wd⟩ :=
      all_records_walk inv.coh hhead hch hfuelS
    have hpair : rp = (sW, searchSpecResult sW.records_per_page k
        ((p0 :: rest).map fun q =>
          (q, viewRecords h.buckets.keysize h.buckets.valsize (pageView h.buckets q)))) :=
      Option.some_inj.mp (hsearch.symm.trans (search_bucket_spec_eq hWeq))
    subst hpair
    dsimp only at hput
    have habsent : ∀ ip ∈ (p0 :: rest).map fun q =>
        (q, viewRecords h.buckets.keysize h.buckets.valsize (pageView h.buckets q)),
        ∀ kv2 ∈ ip.2, kv2.1 ≠ k := by
      intro ip hip kv2 hkv2 hcon
      obtain ⟨q, hq, rfl⟩ := List.mem_map.mp hip
      have hmem1 : kv2 ∈ chainRecs h.buckets h.buckets.keysize h.buckets.valsize
          (chains (LinHash.bucket hash h k)) :=
        mem_chainRecs_of_page (by rw [hpr]; exact hq) hkv2
      have hmem2 : kv2 ∈ allPairs h chains := mem_chainRecs_allPairs hbi hmem1
      exact hfresh (hcon ▸ List.mem_map_of_mem Prod.fst hmem2)
    have hne : ((p0 :: rest).map fun q =>
        (q, viewRecords h.buckets.keysize h.buckets.valsize (pageView h.buckets q))) ≠ [] := by
      simp
    rw [searchSpecResult_absent hne habsent] at hput
    have hglm : ((p0 :: rest).map fun q =>
        (q, viewRecords h.buckets.keysize h.buckets.valsize (pageView h.buckets q))).getLast hne =
        ((p0 :: rest).getLast (List.cons_ne_nil p0 rest),
          viewRecords h.buckets.keysize h.buckets.valsize
            (pageView h.buckets ((p0 :: rest).getLast (List.cons_ne_nil p0 rest)))) := by
      have hx := getLast_map_pt (fun q =>
        (q, viewRecords h.buckets.keysize h.buckets.valsize (pageView h.buckets q))) p0 rest
      rw [List.getLast?_eq_getLast_of_ne_nil hne] at hx
      exact Option.some_inj.mp hx
    rw [hglm] at hput
    dsimp only at hput
    have hlqmem0 : (p0 :: rest).getLast (List.cons_ne_nil p0 rest) ∈
        chains (LinHash.bucket hash h k) := by
      rw [hpr]
      exact List.getLast_mem _
    obtain ⟨lastq, hlastq⟩ : ∃ lq, (p0 :: rest).getLast (List.cons_ne_nil p0 rest) = lq :=
      ⟨_, rfl⟩
    rw [hlastq] at hput hplW w7 w8 w10 hlqmem0
    rw [viewRecords_length, hmW.rpp] at hput
    have hlqb := inv.chain_mem _ hbi lastq hlqmem0
    have hlq_last : (chains (LinHash.bucket hash h k)).getLast? = some lastq := by
      rw [hpr, List.getLast?_eq_getLast_of_ne_nil (List.cons_ne_nil p0 rest), hlastq]
    have hcap : (pageView h.buckets lastq).num_records ≤ h.buckets.records_per_page :=
      inv.page_cap _ hbi lastq hlqmem0
    have hksW : sW.buffer.keysize = h.buckets.keysize := hcW.2.2.2.2.2.1.trans hmW.ks
    have hvsW : sW.buffer.valsize = h.buckets.valsize := hcW.2.2.2.2.2.2.trans hmW.vs
    have hprv : DbFile.pageRecordsOf sW.buffer =
        viewRecords h.buckets.keysize h.buckets.valsize (pageView h.buckets lastq) :=
      pageRecords_eq_view w7 w10 hksW hvsW
    by_cases hfull : (pageView h.buckets lastq).num_records < h.buckets.records_per_page
    · rw [if_pos hfull] at hput
      simp only [Option.bind_eq_bind, Option.some_bind] at hput
      rw [← w7] at hput
      obtain ⟨d, hwr, hput⟩ := Option.bind_eq_some.mp hput
      have hn64 : sW.buffer.num_records + 1 < 2 ^ 64 := by
        have := inv.rpp64
        rw [w7]
        omega
      obtain ⟨d₂, hwr₂, hcd, hpd, hdd, hmd, hld, hved, hd7, hd8, hdrecs⟩ :=
        write_record_incr_ok hcW hplW hn64 (by rw [hmW.ks]; exact hk)
          (by rw [hmW.vs]; exact hv)
      obtain rfl : d₂ = d := Option.some_inj.mp (hwr₂.symm.trans hwr)
      rw [w7] at hd7
      rw [hmW.ks, hmW.vs] at hdrecs
      rw [hprv] at hdrecs
      obtain ⟨invN, hpermN⟩ := insert_arm inv hbi hlq_last haddr hk hv hfresh hfull hvW hmW
        hcd hpd hmd hved hd7 (hd8.trans w8) hdrecs
      obtain ⟨chains', inv', hperm', hks', hvs'⟩ := put_tail IHf invN hput
      refine ⟨chains', inv', ?_, ?_, ?_⟩
      · exact hperm'.trans hpermN
      · exact hks'.trans (hmd.ks.trans hmW.ks)
      · exact hvs'.trans (hmd.vs.trans hmW.vs)
    · rw [if_neg hfull] at hput
      simp only [Option.bind_eq_bind, Option.some_bind] at hput
      obtain ⟨ov, hov, hput⟩ := Option.bind_eq_some.mp hput
      obtain ⟨ovs, ovp⟩ := ov
      dsimp only at hput
      have hfree1 : ∀ fl, sW.free_list = some fl → (pageView sW fl).next = none := by
        intro fl hfl
        rw [hmW.fl] at hfl
        rw [(hvW fl).2.1]
        exact (inv.free_sound fl hfl).2.2.1
      have hfree2 : ∀ fl, sW.free_list = some fl → 0 < fl ∧ fl < sW.free_page := by
        intro fl hfl
        rw [hmW.fl] at hfl
        rw [hmW.fp]
        exact ⟨(inv.free_sound fl hfl).1, (inv.free_sound fl hfl).2.1⟩
      have hnfl : sW.free_list ≠ some lastq := by
        rw [hmW.fl]
        intro hq
        exact (inv.free_sound lastq hq).2.2.2 _ hbi hlqmem0
      obtain ⟨np, hpr_eq, hnp_ne, hc₂, hp₂, hd₂, hdir₂, hfp₂, hfp64₂, hfl₂, hv₂,
        hnp7, hnp8, hlp7, hlp8, hlp10⟩ :=
        allocate_overflow_ok hov hcW hfree1 hfree2 hlqb.1 (by rw [hmW.fp]; exact hlqb.2)
          (by have h1 := hlqb.2; have h2 := inv.fp64; omega) hnfl
      obtain ⟨chainsO, hchO⟩ : ∃ c : Nat → List Nat, ∀ x,
          c x = if x = LinHash.bucket hash h k
            then chains (LinHash.bucket hash h k) ++ [np] else chains x :=
        ⟨_, fun x => rfl⟩
      obtain ⟨invO, hapO⟩ := overflow_arm inv hbi hlq_last hvW hmW hc₂ hp₂ hdir₂ hfp₂
        hfp64₂ hfl₂ hv₂ hnp7 hnp8 hlp7 hlp8 hlp10 chainsO hchO
      have hksO : ({ h with buckets := ovs } : LinHash).buckets.keysize =
          h.buckets.keysize := hdir₂.ks.trans hmW.ks
      have hvsO : ({ h with buckets := ovs } : LinHash).buckets.valsize =
          h.buckets.valsize := hdir₂.vs.trans hmW.vs
      have hfreshO : k ∉ (allPairs { h with buckets := ovs } chainsO).map Prod.fst := by
        rw [hapO]
        exact hfresh
      obtain ⟨h₂v, hrec, hput⟩ := Option.bind_eq_some.mp hput
      obtain ⟨chains₅, inv₅, hperm₅, hks₅, hvs₅⟩ :=
        IHf { h with buckets := ovs } chainsO k v h₂v invO (by rw [hksO]; exact hk)
          (by rw [hvsO]; exact hv) hfreshO hrec
      obtain ⟨chains', inv', hperm', hks', hvs'⟩ := put_tail IHf inv₅ hput
      refine ⟨chains', inv', ?_, ?_, ?_⟩
      · refine (hperm'.trans hperm₅).trans ?_
        rw [hapO]
      · exact (hks'.trans hks₅).trans hksO
      · exact (hvs'.trans hvs₅).trans hvsO

/-- In a list of pairs with pairwise-distinct keys, the key determines
the value. -/
theorem nodup_keys_eq {α β : Type} {L : List (α × β)} (h : (L.map Prod.fst).Nodup)
    {a : α} {b c : β} (h1 : (a, b) ∈ L) (h2 : (a, c) ∈ L) : b = c := by
  induction L with
  | nil => cases h1
  | cons x t ih =>
    rw [List.map_cons, List.nodup_cons] at h
    rcases List.mem_cons.mp h1 with rfl | h1t
    · rcases List.mem_cons.mp h2 with h2h | h2t
      · have hcb : c = b := congrArg Prod.snd h2h
        exact hcb.symm
      · exact absurd (List.mem_map_of_mem Prod.fst h2t) h.1
    · rcases List.mem_cons.mp h2 with h2h | h2t
      · have ha : a ∈ t.map Prod.fst := List.mem_map_of_mem Prod.fst h1t
        rw [← h2h] at h
        exact absurd ha h.1
      · exact ih h.2 h1t h2t

/-- A freshly opened index is empty. -/
theorem allPairs_openNew (ks vs : Nat) :
    allPairs (LinHash.openNew ks vs) (fun b => [b + 1]) = [] := by
  have hview : ∀ p : Nat, pageView (LinHash.openNew ks vs).buckets p =
      decodePageV (fun _ => 0) := by
    intro p
    rw [pageView, if_neg (fun hcon => Option.noConfusion hcon)]
    rfl
  have hnil : ∀ b : Nat,
      chainRecs (LinHash.openNew ks vs).buckets
        (LinHash.openNew ks vs).buckets.keysize
        (LinHash.openNew ks vs).buckets.valsize [b + 1] = [] := by
    intro b
    rw [chainRecs, List.map_cons, List.map_nil]
    unfold flatten
    simp only [List.flatMap_cons, List.flatMap_nil, List.append_nil]
    rw [hview (b + 1)]
    exact viewRecords_zeroV _ _
  rw [allPairs]
  rw [show List.range (LinHash.openNew ks vs).nbuckets = [0, 1] from rfl]
  simp only [List.flatMap_cons, List.flatMap_nil, List.append_nil]
  rw [hnil 0, hnil 1]
  rfl

/-- On an invariant state, `get` finds the stored value of a present
key and `contains` answers true, provided the chain-walk fuel is at
least `free_page` (every chain is shorter than that). -/
theorem get_found {hash : List Nat → Nat} {h : LinHash} {chains : Nat → List Nat}
    {k v : List Nat} (inv : LHInv hash h chains)
    (hmem : (k, v) ∈ allPairs h chains)
    {gfuel : Nat} (hgf : h.buckets.free_page ≤ gfuel) :
    ∃ h₂, LinHash.get hash gfuel h k = some (h₂, some v) ∧
      LinHash.contains hash gfuel h k = some (h₂, true) := by
  have hmem' : (k, v) ∈ (List.range h.nbuckets).flatMap fun b =>
      chainRecs h.buckets h.buckets.keysize h.buckets.valsize (chains b) := hmem
  obtain ⟨b, hbr, hkvb⟩ := List.mem_flatMap.mp hmem'
  have hb : b < h.nbuckets := List.mem_range.mp hbr
  have hbeq : LinHash.bucket hash h k = b :=
    (bucket_eq_mAddr hash h k).trans (inv.addr_ok b hb (k, v) hkvb).1
  obtain ⟨p0, rest, hpr⟩ : ∃ p0 rest, chains b = p0 :: rest := by
    cases hc0 : chains b with
    | nil => exact absurd hc0 (inv.chain_ne _ hb)
    | cons a t => exact ⟨a, t, rfl⟩
  have hhead : h.buckets.bucketToPage b = some p0 := by
    rw [inv.chain_head _ hb, hpr]
    rfl
  have hch : chainOK h.buckets (p0 :: rest) := by
    rw [← hpr]
    exact inv.chain_ok _ hb
  have hsubp : (p0 :: rest).Subperm (List.range h.buckets.free_page) := by
    refine List.subperm_of_subset ?_ ?_
    · rw [← hpr]
      exact inv.chain_nodup b hb
    · intro x hx
      refine List.mem_range.mpr ?_
      exact (inv.chain_mem b hb x (by rw [hpr]; exact hx)).2
  have hfuelG : rest.length < gfuel := by
    have h1 := hsubp.length_le
    rw [List.length_range] at h1
    simp only [List.length_cons] at h1
    omega
  obtain ⟨sW, hWeq, hcW, hvW, hmW, hplW, w7, w8, w10, wd⟩ :=
    all_records_walk inv.coh hhead hch hfuelG
  have hspec := @search_bucket_spec_eq gfuel h.buckets b k sW _ hWeq
  have hkvb' : (k, v) ∈ ((p0 :: rest).map fun q =>
      (q, viewRecords h.buckets.keysize h.buckets.valsize (pageView h.buckets q))).flatMap
        Prod.snd := by
    rw [hpr] at hkvb
    exact hkvb
  obtain ⟨ip0, hip0, hkvip0⟩ := List.mem_flatMap.mp hkvb'
  have hdet : ∀ ip ∈ (p0 :: rest).map fun q =>
      (q, viewRecords h.buckets.keysize h.buckets.valsize (pageView h.buckets q)),
      ∀ kv2 ∈ ip.2, kv2.1 = k → kv2.2 = v := by
    intro ip hip kv2 hkv2 hkey
    obtain ⟨q, hq, rfl⟩ := List.mem_map.mp hip
    have hm1 : kv2 ∈ chainRecs h.buckets h.buckets.keysize h.buckets.valsize (chains b) :=
      mem_chainRecs_of_page (by rw [hpr]; exact hq) hkv2
    have hm2 : kv2 ∈ allPairs h chains := mem_chainRecs_allPairs hb hm1
    exact nodup_keys_eq inv.keys_nodup
      (hkey ▸ (show (kv2.1, kv2.2) ∈ allPairs h chains from hm2)) hmem
  obtain ⟨pg, row, hfound⟩ :=
    @searchSpecResult_found sW.records_per_page k v
      ((p0 :: rest).map fun q =>
        (q, viewRecords h.buckets.keysize h.buckets.valsize (pageView h.buckets q)))
      ⟨ip0, hip0, hkvip0⟩ hdet
  have hget : LinHash.get hash gfuel h k = some ({ h with buckets := sW }, some v) := by
    simp only [LinHash.get, Option.bind_eq_bind]
    rw [hbeq, hspec]
    simp only [Option.some_bind]
    rw [hfound]
  refine ⟨{ h with buckets := sW }, hget, ?_⟩
  simp only [LinHash.contains, Option.bind_eq_bind]
  rw [hget]
  rfl

/-- A sequence of `put`s of pairwise-fresh keys preserves the invariant
and adds exactly those pairs to the contents. -/
theorem runPuts_ok {hash : List Nat → Nat} {fuel : Nat} :
    ∀ (pairs : List (List Nat × List Nat)) (h : LinHash) (chains : Nat → List Nat)
      (h' : LinHash),
      LHInv hash h chains →
      (∀ kv ∈ pairs, kv.1.length = h.buckets.keysize ∧ kv.2.length = h.buckets.valsize) →
      ((allPairs h chains).map Prod.fst ++ pairs.map Prod.fst).Nodup →
      runPuts hash fuel h pairs = some h' →
      ∃ chains', LHInv hash h' chains' ∧
        (allPairs h' chains').Perm (allPairs h chains ++ pairs) ∧
        h'.buckets.keysize = h.buckets.keysize ∧
        h'.buckets.valsize = h.buckets.valsize := by
  intro pairs
  induction pairs with
  | nil =>
    intro h chains h' inv _ _ hrun
    obtain rfl : h = h' := Option.some_inj.mp hrun
    exact ⟨chains, inv, by simp, rfl, rfl⟩
  | cons kv rest ih =>
    obtain ⟨k, v⟩ := kv
    intro h chains h' inv hlen hnd hrun
    simp only [runPuts, Option.bind_eq_bind] at hrun
    obtain ⟨h₁, hput, hrun⟩ := Option.bind_eq_some.mp hrun
    simp only [List.map_cons] at hnd
    have hfreshk : k ∉ (allPairs h chains).map Prod.fst := fun hkA =>
      (List.nodup_append.mp hnd).2.2 hkA (List.mem_cons_self _ _)
    obtain ⟨chains₁, inv₁, hperm₁, hks₁, hvs₁⟩ :=
      put_ok hash fuel h chains k v h₁ inv (hlen (k, v) (List.mem_cons_self _ _)).1
        (hlen (k, v) (List.mem_cons_self _ _)).2 hfreshk hput
    have hnd₂ : ((allPairs h₁ chains₁).map Prod.fst ++ rest.map Prod.fst).Nodup := by
      have hpk : ((allPairs h₁ chains₁).map Prod.fst ++ rest.map Prod.fst).Perm
          ((allPairs h chains).map Prod.fst ++ (k :: rest.map Prod.fst)) := by
        refine (List.Perm.append_right _ (hperm₁.map Prod.fst)).trans ?_
        rw [List.map_append, List.map_cons, List.map_nil, List.append_assoc,
          List.singleton_append]
      exact (hpk.nodup_iff).mpr hnd
    have hlen₂ : ∀ kv2 ∈ rest,
        kv2.1.length = h₁.buckets.keysize ∧ kv2.2.length = h₁.buckets.valsize := by
      intro kv2 hkv2
      rw [hks₁, hvs₁]
      exact hlen kv2 (List.mem_cons_of_mem _ hkv2)
    obtain ⟨chains', inv', hperm', hks', hvs'⟩ := ih h₁ chains₁ h' inv₁ hlen₂ hnd₂ hrun
    refine ⟨chains', inv', ?_, hks'.trans hks₁, hvs'.trans hvs₁⟩
    refine hperm'.trans ?_
    refine (List.Perm.append_right _ hperm₁).trans ?_
    rw [List.append_assoc, List.singleton_append]

/-- C1: for every sequence of `put(k, v)` operations with
pairwise-distinct keys on a freshly opened index, every subsequent
`get(k)` returns the most recently written value `v` for that key
(each key is written once, so its unique pair is the latest), and
`contains(k)` returns `true`.  `runPuts` is the `put` sequence from
`LinHash::open` of a new file; `fuel` bounds the overflow/split
recursion inside each `put` and `gfuel ≥ free_page` the chain walk of
the final `get`/`contains`, which always terminate in the source. -/
theorem c1_round_trip (hash : List Nat → Nat) (keysize valsize : Nat)
    (h1 : 0 < keysize + valsize) (h2 : keysize + valsize ≤ PAGE_SIZE - HEADER_SIZE)
    (fuel : Nat) (pairs : List (List Nat × List Nat))
    (hlen : ∀ kv ∈ pairs, kv.1.length = keysize ∧ kv.2.length = valsize)
    (hdist : (pairs.map Prod.fst).Nodup)
    (h' : LinHash)
    (hrun : runPuts hash fuel (LinHash.openNew keysize valsize) pairs = some h')
    (k v : List Nat) (hmem : (k, v) ∈ pairs)
    (gfuel : Nat) (hgf : h'.buckets.free_page ≤ gfuel) :
    ∃ h₂, LinHash.get hash gfuel h' k = some (h₂, some v) ∧
      LinHash.contains hash gfuel h' k = some (h₂, true) := by
  have inv0 := openNew_inv hash keysize valsize h1 h2
  have hnd0 : ((allPairs (LinHash.openNew keysize valsize) (fun b => [b + 1])).map
      Prod.fst ++ pairs.map Prod.fst).Nodup := by
    rw [allPairs_openNew]
    simpa using hdist
  obtain ⟨chains', inv', hperm', hks', hvs'⟩ :=
    runPuts_ok pairs (LinHash.openNew keysize valsize) (fun b => [b + 1]) h' inv0
      (fun kv hkv => hlen kv hkv) hnd0 hrun
  have hmemAP : (k, v) ∈ allPairs h' chains' := by
    refine (hperm'.mem_iff).mpr ?_
    rw [allPairs_openNew]
    simpa using hmem
  exact get_found inv' hmemAP hgf

/-- The state after one `put` of key `[0]`, value `[1]` on a freshly
opened 1-byte-key, 1-byte-value index (head-byte hash). -/
def c1State : LinHash :=
  (runPuts (fun l => l.headD 0) 1 (LinHash.openNew 1 1) [([0], [1])]).getD
    (LinHash.openNew 1 1)

theorem c1_witness :
    (0 : Nat) < 1 + 1 ∧ 1 + 1 ≤ PAGE_SIZE - HEADER_SIZE ∧
    (∀ kv ∈ [(([0] : List Nat), ([1] : List Nat))],
      kv.1.length = 1 ∧ kv.2.length = 1) ∧
    ([(([0] : List Nat), ([1] : List Nat))].map Prod.fst).Nodup ∧
    runPuts (fun l => l.headD 0) 1 (LinHash.openNew 1 1) [([0], [1])] = some c1State ∧
    ([0], [1]) ∈ [(([0] : List Nat), ([1] : List Nat))] ∧
    c1State.buckets.free_page ≤ 3 ∧
    ∃ h₂, LinHash.get (fun l => l.headD 0) 3 c1State [0] = some (h₂, some [1]) ∧
      LinHash.contains (fun l => l.headD 0) 3 c1State [0] = some (h₂, true) :=
  ⟨by norm_num, by rw [PAGE_SIZE, HEADER_SIZE]; norm_num, by decide, by decide, rfl,
    by decide, Nat.le_of_eq rfl,
    c1_round_trip (fun l => l.headD 0) 1 1 (by norm_num)
      (by rw [PAGE_SIZE, HEADER_SIZE]; norm_num) 1 [([0], [1])] (by decide) (by decide)
      c1State rfl [0] [1] (by decide) 3 (Nat.le_of_eq rfl)⟩
